import Mathlib

/-!
# Glucose value extraction: `extractGlucoseFromText`

A shallow embedding of the two text extractors of the glucose dashboard,
`src/backend/server.js` (lines 100-155) and `src/frontend/app.js`
(lines 21-29 and 540-570), together with the parts of the JavaScript
standard library they call: `String.prototype.split`, `toLowerCase`,
`includes`, `trim`, `Array.prototype.slice`, `join`, `forEach`, regular
expression matching through `String.prototype.matchAll`, and `parseFloat`.

A JavaScript string is modelled as the list of its Unicode scalar values.
None of the five regular expressions of the program can tell a code point
outside the Basic Multilingual Plane from the two UTF-16 code units that
encode it, since no such unit is a digit, a white space, a word character
or a letter of a pattern.
-/

namespace FastBloodSugar

/-- A JavaScript string, as the list of its characters. -/
abbrev JSString := List Char

/-! ## Strings -/

/-- White space and line terminators of ECMAScript: the characters `\s`
matches and `trim` removes. -/
def isWhiteSpace (c : Char) : Bool :=
  let n := c.toNat
  n == 0x09 || n == 0x0A || n == 0x0B || n == 0x0C || n == 0x0D || n == 0x20 ||
  n == 0xA0 || n == 0x1680 || (0x2000 ≤ n && n ≤ 0x200A) ||
  n == 0x2028 || n == 0x2029 || n == 0x202F || n == 0x205F || n == 0x3000 ||
  n == 0xFEFF

/-- Lower-casing of one character. `A`-`Z` go to `a`-`z`. Only two characters
outside ASCII have a lower-case form that contains an ASCII character:
U+0130 (capital I with dot above), which becomes `i` followed by U+0307, and
U+212A (Kelvin sign), which becomes `k`. Every other character outside ASCII
is mapped by Unicode to characters outside ASCII; they are left in place
here, which no search for an ASCII phrase can observe. -/
def toLowerCaseChar (c : Char) : List Char :=
  if c.toNat = 0x130 then [Char.ofNat 0x69, Char.ofNat 0x307]
  else if c.toNat = 0x212A then [Char.ofNat 0x6B]
  else [c.toLower]

/-- The method `String.prototype.toLowerCase`. -/
def toLowerCase (s : JSString) : JSString :=
  s.flatMap toLowerCaseChar

/-- The method `String.prototype.includes`: does `needle` occur in `s` as a contiguous
substring? -/
def includes : JSString → JSString → Bool
  | [], needle => needle.isEmpty
  | c :: cs, needle => needle.isPrefixOf (c :: cs) || includes cs needle

/-- The line break character, U+000A. -/
def newline : Char := Char.ofNat 10

/-- The method `String.prototype.split` with a one-character separator: the maximal
pieces between separators. The empty string gives one empty piece. -/
def split (sep : Char) : JSString → List JSString
  | [] => [[]]
  | c :: cs =>
    if c = sep then [] :: split sep cs
    else
      match split sep cs with
      | [] => [[c]]
      | piece :: pieces => (c :: piece) :: pieces

/-- The method `String.prototype.trim`: white space removed at both ends. -/
def trim (s : JSString) : JSString :=
  ((s.dropWhile isWhiteSpace).reverse.dropWhile isWhiteSpace).reverse

/-- The method `Array.prototype.slice(start, stop)` for non-negative arguments. -/
def slice {α : Type} (xs : List α) (start stop : Nat) : List α :=
  (xs.take stop).drop start

/-- The method `Array.prototype.join` on an array of strings. -/
def join (sep : JSString) (parts : List JSString) : JSString :=
  sep.intercalate parts

/-! ## Regular expressions

The five patterns use word boundaries, the classes `\d` and `\s`, literal
characters, the greedy quantifiers `?`, `*`, `+` on single characters, and
one capture group. They all carry the flags `g` and `i` and not `u`. -/

/-- What matches one character. -/
inductive Atom where
  /-- The class `\d`. -/
  | digit
  /-- The class `\s`. -/
  | space
  /-- A literal character of the pattern. -/
  | char (c : Char)
  deriving DecidableEq, Repr

/-- One term of a pattern. A pattern is the list of its terms. -/
inductive Node where
  /-- The assertion `\b`. -/
  | wordBoundary
  /-- An atom, exactly once. -/
  | one (a : Atom)
  /-- An atom with `?`. -/
  | opt (a : Atom)
  /-- An atom with `*`. -/
  | star (a : Atom)
  /-- An atom with `+`. -/
  | plus (a : Atom)
  /-- The opening parenthesis of the capture group. -/
  | groupOpen
  /-- The closing parenthesis of the capture group. -/
  | groupClose
  deriving DecidableEq, Repr

/-- The characters `\w` matches, which decide `\b`: without the flag `u`
they are the 63 characters `a`-`z`, `A`-`Z`, `0`-`9` and `_`. -/
def isWordChar (c : Char) : Bool :=
  c.isAlphanum || c.toNat == 0x5F

/-- Canonicalisation of a character under the flag `i` without the flag `u`:
the upper-case form, except that a character outside ASCII is never mapped
into ASCII. On ASCII that is `Char.toUpper`; the characters outside ASCII
stay outside ASCII, and they are left in place here, which no comparison
with an ASCII character of a pattern can observe. -/
def canonicalize (c : Char) : Char :=
  c.toUpper

/-- Does the atom accept the character (flag `i` set)? -/
def Atom.test : Atom → Char → Bool
  | .digit, c => c.isDigit
  | .space, c => isWhiteSpace c
  | .char l, c => canonicalize c == canonicalize l

/-- The state of one match attempt. -/
structure MatchState where
  /-- The character just before the current position, if any. -/
  prev : Option Char
  /-- The characters matched since the start of the attempt, latest first. -/
  consumed : JSString
  /-- How many characters were matched when the group was opened. -/
  groupAt : Nat
  /-- The text of the capture group, once it is closed. -/
  group : Option JSString
  deriving DecidableEq, Repr

/-- The state after the character `c` has been matched. -/
def MatchState.advance (st : MatchState) (c : Char) : MatchState :=
  { st with prev := some c, consumed := c :: st.consumed }

/-- Is a character present and a word character? -/
def isWordAt : Option Char → Bool
  | none => false
  | some c => isWordChar c

/-- A greedy repetition `a*` followed by the continuation `k`: as many
characters as possible are taken first and given back one at a time while
the continuation fails. -/
def matchStar (a : Atom) (k : JSString → MatchState → Option MatchState) :
    JSString → MatchState → Option MatchState
  | [], st => k [] st
  | c :: cs, st =>
    if a.test c then
      match matchStar a k cs (st.advance c) with
      | some r => some r
      | none => k (c :: cs) st
    else k (c :: cs) st

/-- The backtracking matcher: the terms of a pattern against the input at the
current position. The result is the final state of the first successful
path, in the order ECMAScript tries them. -/
def matchNodes : List Node → JSString → MatchState → Option MatchState
  | [], _, st => some st
  | .wordBoundary :: ns, input, st =>
    if isWordAt st.prev != isWordAt input.head? then matchNodes ns input st else none
  | .one a :: ns, input, st =>
    match input with
    | [] => none
    | c :: cs => if a.test c then matchNodes ns cs (st.advance c) else none
  | .opt a :: ns, input, st =>
    match input with
    | [] => matchNodes ns [] st
    | c :: cs =>
      if a.test c then
        match matchNodes ns cs (st.advance c) with
        | some r => some r
        | none => matchNodes ns (c :: cs) st
      else matchNodes ns (c :: cs) st
  | .star a :: ns, input, st => matchStar a (matchNodes ns) input st
  | .plus a :: ns, input, st =>
    match input with
    | [] => none
    | c :: cs => if a.test c then matchStar a (matchNodes ns) cs (st.advance c) else none
  | .groupOpen :: ns, input, st =>
    matchNodes ns input { st with groupAt := st.consumed.length }
  | .groupClose :: ns, input, st =>
    matchNodes ns input
      { st with group := some ((st.consumed.take (st.consumed.length - st.groupAt)).reverse) }

/-- One match: `whole` is `match[0]`, `group1` is `match[1]`. -/
structure Match where
  /-- The matched substring. -/
  whole : JSString
  /-- The text of the capture group, `none` when it is undefined. -/
  group1 : Option JSString
  deriving DecidableEq, Repr

/-- A match attempt at one position of the input, `prev` being the character
before that position. -/
def matchAt (nodes : List Node) (prev : Option Char) (input : JSString) : Option Match :=
  match matchNodes nodes input { prev := prev, consumed := [], groupAt := 0, group := none } with
  | none => none
  | some st => some { whole := st.consumed.reverse, group1 := st.group }

/-- The successive matches of a global pattern. `skip` counts the characters
to pass over before the next attempt. An attempt is made at each position in
turn; after a match the search resumes where the match ended, and one
character further when the match was empty. -/
def scan (nodes : List Node) : Nat → Option Char → JSString → List Match
  | 0, prev, [] => (matchAt nodes prev []).toList
  | _ + 1, _, [] => []
  | skip + 1, _, c :: cs => scan nodes skip (some c) cs
  | 0, prev, c :: cs =>
    match matchAt nodes prev (c :: cs) with
    | some m => m :: scan nodes (m.whole.length - 1) (some c) cs
    | none => scan nodes 0 (some c) cs

/-- A regular expression object with the flags `g` and `i`: its pattern and
its mutable `lastIndex` property. -/
structure RegExp where
  /-- The terms of the pattern. -/
  source : List Node
  /-- The property `lastIndex`. -/
  lastIndex : Nat
  deriving DecidableEq, Repr

/-- The method `String.prototype.matchAll`, spread into an array. The matching runs on a
copy of the object, which starts at the `lastIndex` of the original; the
original, returned as the second component, is not written to. -/
def matchAll (s : JSString) (rx : RegExp) : List Match × RegExp :=
  (scan rx.source rx.lastIndex none s, rx)

/-! ## Numbers and `parseFloat` -/

/-- A JavaScript number: not-a-number, the two infinities, or a finite value
(a double is a rational number). The sign of zero is not kept; no comparison
depends on it. -/
inductive JSNumber where
  /-- The value `NaN`. -/
  | nan
  /-- The value `+Infinity`. -/
  | posInf
  /-- The value `-Infinity`. -/
  | negInf
  /-- A finite value. -/
  | finite (q : ℚ)
  deriving DecidableEq

/-- The comparison `a <= b` of two numbers; false when either is `NaN`. -/
def JSNumber.le : JSNumber → JSNumber → Bool
  | .nan, _ => false
  | _, .nan => false
  | .negInf, _ => true
  | _, .posInf => true
  | .posInf, _ => false
  | _, .negInf => false
  | .finite a, .finite b => decide (a ≤ b)

/-- The comparison `a >= b`. -/
def JSNumber.ge (a b : JSNumber) : Bool :=
  JSNumber.le b a

/-- Unary minus. -/
def JSNumber.neg : JSNumber → JSNumber
  | .nan => .nan
  | .posInf => .negInf
  | .negInf => .posInf
  | .finite q => .finite (-q)

/-- The integer `b` with `2 ^ b ≤ num / den < 2 ^ (b + 1)`, for positive
`num` and `den`. -/
def binaryExponent (num den : Nat) : Int :=
  let d : Int := (Nat.log2 num : Int) - (Nat.log2 den : Int)
  if den * 2 ^ d.toNat ≤ num * 2 ^ (-d).toNat then d else d - 1

/-- The double nearest to `num / den` (`den` positive), ties going to the
even significand: the value is a multiple `m * 2 ^ p` of the spacing of the
doubles around it, `2 ^ p` with `p = max b (-1022) - 52`, and it is
`+Infinity` from `2 ^ 1024` on. -/
def roundToDouble (num den : Nat) : JSNumber :=
  if num = 0 then .finite 0
  else
    let p : Int := max (binaryExponent num den) (-1022) - 52
    let sn := num * 2 ^ (-p).toNat
    let sd := den * 2 ^ p.toNat
    let q := sn / sd
    let r := sn % sd
    let m := if 2 * r < sd then q else if sd < 2 * r then q + 1
             else if q % 2 = 0 then q else q + 1
    if 2 ^ 1024 * 2 ^ (-p).toNat ≤ m * 2 ^ p.toNat then .posInf
    else .finite (mkRat ((m * 2 ^ p.toNat : Nat) : Int) (2 ^ (-p).toNat))

/-- The number a string of decimal digits denotes. -/
def digitsToNat (ds : JSString) : Nat :=
  ds.foldl (fun n c => 10 * n + (c.toNat - 48)) 0

/-- The value of the longest exponent part (`e` or `E`, an optional sign,
digits) the string starts with; zero when it starts with none. -/
def exponentPart : JSString → Int
  | [] => 0
  | c :: t =>
    if c = 'e' ∨ c = 'E' then
      match t with
      | [] => 0
      | d :: u =>
        if d = '+' then
          if (u.takeWhile Char.isDigit).isEmpty then 0
          else (digitsToNat (u.takeWhile Char.isDigit) : Int)
        else if d = '-' then
          if (u.takeWhile Char.isDigit).isEmpty then 0
          else -(digitsToNat (u.takeWhile Char.isDigit) : Int)
        else if (t.takeWhile Char.isDigit).isEmpty then 0
        else (digitsToNat (t.takeWhile Char.isDigit) : Int)
    else 0

/-- The double nearest to `n * 10 ^ x`. -/
def decimalToDouble (n : Nat) (x : Int) : JSNumber :=
  roundToDouble (n * 10 ^ x.toNat) (10 ^ (-x).toNat)

/-- The value of the longest prefix that is an unsigned decimal literal:
`Infinity`, or digits with an optional fraction and an optional exponent, or
a fraction that starts with the point. `NaN` when there is no such prefix. -/
def parseUnsigned (s : JSString) : JSNumber :=
  if "Infinity".toList.isPrefixOf s then .posInf
  else
    let intDigits := s.takeWhile Char.isDigit
    match s.dropWhile Char.isDigit with
    | [] => if intDigits.isEmpty then .nan else decimalToDouble (digitsToNat intDigits) 0
    | c :: t =>
      if c = '.' then
        let fracDigits := t.takeWhile Char.isDigit
        if intDigits.isEmpty && fracDigits.isEmpty then .nan
        else decimalToDouble (digitsToNat (intDigits ++ fracDigits))
          (exponentPart (t.dropWhile Char.isDigit) - (fracDigits.length : Int))
      else if intDigits.isEmpty then .nan
      else decimalToDouble (digitsToNat intDigits) (exponentPart (c :: t))

/-- The global function `parseFloat` on a string: leading white space is
skipped, then the longest prefix that is a decimal literal is read. -/
def parseFloat (s : JSString) : JSNumber :=
  match s.dropWhile isWhiteSpace with
  | [] => .nan
  | c :: t =>
    if c = '+' then parseUnsigned t
    else if c = '-' then (parseUnsigned t).neg
    else parseUnsigned (c :: t)

/-- The conversion of `match[1]` to a string, as `parseFloat` applies it to
its argument: an undefined group becomes the word `undefined`. -/
def groupToString : Option JSString → JSString
  | none => "undefined".toList
  | some s => s

/-! ## The extraction records and the loop bodies both files share -/

/-- One extraction result: the object pushed onto `results`. -/
structure Extracted where
  /-- The field `value`. -/
  value : JSNumber
  /-- The field `unit`. -/
  unit : JSString
  /-- The field `context`. -/
  context : JSString
  /-- The field `line`. -/
  line : Nat
  deriving DecidableEq

/-- The state the extraction runs in: the array `results` being filled and
the five pattern objects of the module-level array `glucosePatterns`. -/
abbrev ExtractState := List Extracted × List RegExp

/-- The method `Array.prototype.forEach` with the callback receiving the element and its
index; `index` is the index of the first element of the list. -/
def forEachIndexed {σ : Type} (body : JSString → Nat → σ → σ) :
    List JSString → Nat → σ → σ
  | [], _, st => st
  | line :: rest, index, st => forEachIndexed body rest (index + 1) (body line index st)

/-- The pattern terms of a literal text, one character each. -/
def literal (s : String) : List Node :=
  s.toList.map (fun c => Node.one (Atom.char c))

/-- The capture group of all five patterns: `(\d+\.?\d*)`. -/
def numberGroup : List Node :=
  [.groupOpen, .plus .digit, .opt (.char '.'), .star .digit, .groupClose]

/-- The pattern `/\b(\d+\.?\d*)\s*mg\/dL/gi`. -/
def mgdlPattern : List Node :=
  [.wordBoundary] ++ numberGroup ++ [.star .space] ++ literal "mg/dL"

/-- The pattern `/\b(\d+\.?\d*)\s*mmol\/L/gi`. -/
def mmolPattern : List Node :=
  [.wordBoundary] ++ numberGroup ++ [.star .space] ++ literal "mmol/L"

/-- The pattern `/glucose\s*:?\s*(\d+\.?\d*)/gi`. -/
def glucoseLabelPattern : List Node :=
  literal "glucose" ++ [.star .space, .opt (.char ':'), .star .space] ++ numberGroup

/-- The pattern `/FBS\s*:?\s*(\d+\.?\d*)/gi`. -/
def fbsLabelPattern : List Node :=
  literal "FBS" ++ [.star .space, .opt (.char ':'), .star .space] ++ numberGroup

/-- The pattern `/HbA1c\s*:?\s*(\d+\.?\d*)/gi`. -/
def hba1cLabelPattern : List Node :=
  literal "HbA1c" ++ [.star .space, .opt (.char ':'), .star .space] ++ numberGroup

/-- The expression `match[0].includes('mmol') ? 'mmol/L' : 'mg/dL'`. -/
def unitOf (whole : JSString) : JSString :=
  if includes whole "mmol".toList then "mmol/L".toList else "mg/dL".toList

/-- The callback of `matches.forEach` (server.js 139-149, app.js 554-564):
the captured text is parsed, and a record is pushed when the value is within
30 and 500. -/
def pushMatch (line : JSString) (lineIndex : Nat) (results : List Extracted) (m : Match) :
    List Extracted :=
  let value := parseFloat (groupToString m.group1)
  if value.ge (.finite 30) && value.le (.finite 500) then
    results ++ [{ value := value, unit := unitOf m.whole, context := trim line,
                  line := lineIndex + 1 }]
  else results

/-- The loop `glucosePatterns.forEach(pattern => ...)` (server.js 137-150,
app.js 552-565) over the pattern objects, on the text `searched`: each
pattern is matched in turn and its matches are pushed in order. The second
component is the array of pattern objects after the loop. -/
def forEachPattern (searched line : JSString) (lineIndex : Nat) :
    List RegExp → List Extracted → ExtractState
  | [], results => (results, [])
  | pattern :: rest, results =>
    let found := matchAll searched pattern
    let after := forEachPattern searched line lineIndex rest
      (found.1.foldl (pushMatch line lineIndex) results)
    (after.1, found.2 :: after.2)

/-! ## The server-side extractor (`src/backend/server.js`) -/

namespace Server

/-- The array `fbsPatterns` (server.js 101-110). -/
def fbsPatterns : List JSString :=
  ["FASTING PLASMA GLUCOSE".toList, "FBS".toList, "fasting blood sugar".toList,
   "fasting glucose".toList, "fasting blood glucose".toList, "FPG".toList,
   "Glucose, Fasting".toList, "GLUCOSE FASTING".toList]

/-- The array `glucosePatterns` (server.js 112-118) as the module creates it:
every `lastIndex` is zero. -/
def glucosePatterns : List RegExp :=
  [⟨mgdlPattern, 0⟩, ⟨mmolPattern, 0⟩, ⟨glucoseLabelPattern, 0⟩, ⟨fbsLabelPattern, 0⟩,
   ⟨hba1cLabelPattern, 0⟩]

/-- The test `fbsPatterns.some(pattern =>
line.toLowerCase().includes(pattern.toLowerCase()))` (server.js 127-129). -/
def fbsFound (line : JSString) : Bool :=
  fbsPatterns.any (fun pattern => includes (toLowerCase line) (toLowerCase pattern))

/-- The text searched for a flagged line (server.js 133-135): the lines from
`Math.max(0, lineIndex - 2)` to `Math.min(lines.length - 1, lineIndex + 2)`
joined by one space. -/
def contextOf (lines : List JSString) (lineIndex : Nat) : JSString :=
  let contextStart : Int := max 0 ((lineIndex : Int) - 2)
  let contextEnd : Int := min ((lines.length : Int) - 1) ((lineIndex : Int) + 2)
  join [' '] (slice lines contextStart.toNat (contextEnd + 1).toNat)

/-- The callback of `lines.forEach` (server.js 125-152). -/
def lineBody (lines : List JSString) (line : JSString) (lineIndex : Nat)
    (st : ExtractState) : ExtractState :=
  if fbsFound line then
    forEachPattern (contextOf lines lineIndex) line lineIndex st.2 st.1
  else st

/-- The function `extractGlucoseFromText` (server.js 121-155), called with the
pattern objects in the state `patterns`: the array it returns, and the
pattern objects after the call. -/
def extractGlucoseFromText (patterns : List RegExp) (text : JSString) : ExtractState :=
  let lines := split newline text
  forEachIndexed (lineBody lines) lines 0 ([], patterns)

/-- The array a call returns when the pattern objects are as the module
created them. -/
def extract (text : JSString) : List Extracted :=
  (extractGlucoseFromText glucosePatterns text).1

end Server

/-! ## The front-end extractor (`src/frontend/app.js`) -/

namespace Client

/-- The array `fbsPatterns` (app.js 22). -/
def fbsPatterns : List JSString :=
  ["FASTING PLASMA GLUCOSE".toList, "FBS".toList, "fasting blood sugar".toList,
   "fasting glucose".toList, "fasting blood glucose".toList, "FPG".toList,
   "Glucose, Fasting".toList, "GLUCOSE FASTING".toList]

/-- The array `glucosePatterns` (app.js 23-29) as the script creates it:
every `lastIndex` is zero. -/
def glucosePatterns : List RegExp :=
  [⟨mgdlPattern, 0⟩, ⟨mmolPattern, 0⟩, ⟨glucoseLabelPattern, 0⟩, ⟨fbsLabelPattern, 0⟩,
   ⟨hba1cLabelPattern, 0⟩]

/-- The test `fbsPatterns.some(pattern =>
line.toLowerCase().includes(pattern.toLowerCase()))` (app.js 546-548). -/
def fbsFound (line : JSString) : Bool :=
  fbsPatterns.any (fun pattern => includes (toLowerCase line) (toLowerCase pattern))

/-- The callback of `lines.forEach` (app.js 544-567): a line is searched when
it holds a marker phrase or the word `glucose`, and the text searched is the
line itself. -/
def lineBody (line : JSString) (lineIndex : Nat) (st : ExtractState) : ExtractState :=
  if fbsFound line || includes (toLowerCase line) "glucose".toList then
    forEachPattern line line lineIndex st.2 st.1
  else st

/-- The function `extractGlucoseFromText` (app.js 540-570), called with the
pattern objects in the state `patterns`: the array it returns, and the
pattern objects after the call. -/
def extractGlucoseFromText (patterns : List RegExp) (text : JSString) : ExtractState :=
  let lines := split newline text
  forEachIndexed lineBody lines 0 ([], patterns)

/-- The array a call returns when the pattern objects are as the script
created them. -/
def extract (text : JSString) : List Extracted :=
  (extractGlucoseFromText glucosePatterns text).1

end Client

/-! ## The result list as a concatenation

Proof-side descriptions of what the loops compute: every loop only appends,
so the array returned is the concatenation, line by line, pattern by
pattern and match by match, of the records each match contributes. -/

/-- The records one match contributes: none or one. -/
def emitted (line : JSString) (lineIndex : Nat) (m : Match) : List Extracted :=
  pushMatch line lineIndex [] m

/-- The records the patterns contribute on the text `searched`. -/
def patternResults (searched line : JSString) (lineIndex : Nat) (patterns : List RegExp) :
    List Extracted :=
  patterns.flatMap (fun rx => (matchAll searched rx).1.flatMap (emitted line lineIndex))

/-- The concatenation of the records `f` gives for each line and its index. -/
def collect (f : JSString → Nat → List Extracted) : List JSString → Nat → List Extracted
  | [], _ => []
  | line :: rest, index => f line index ++ collect f rest (index + 1)

/-- The records the server-side extractor pushes for one line. -/
def Server.lineResults (patterns : List RegExp) (lines : List JSString) (line : JSString)
    (lineIndex : Nat) : List Extracted :=
  if Server.fbsFound line then
    patternResults (Server.contextOf lines lineIndex) line lineIndex patterns
  else []

/-- The records the front-end extractor pushes for one line. -/
def Client.lineResults (patterns : List RegExp) (line : JSString) (lineIndex : Nat) :
    List Extracted :=
  if Client.fbsFound line || includes (toLowerCase line) "glucose".toList then
    patternResults line line lineIndex patterns
  else []

/-! ## The inputs of the scenarios -/

/-- Scenario 1: the text `FBS: 95 mg/dL`. -/
def scenario1 : JSString := "FBS: 95 mg/dL".toList

/-- The record scenario 1 expects. -/
def scenario1Record : Extracted :=
  { value := .finite 95, unit := "mg/dL".toList, context := "FBS: 95 mg/dL".toList, line := 1 }

/-- Scenario 2: the line `Glucose: 5.5 mmol/L`, a line break, and the line
`some unrelated line`. -/
def scenario2 : JSString :=
  "Glucose: 5.5 mmol/L".toList ++ [newline] ++ "some unrelated line".toList

/-- Scenario 3: the line `FASTING PLASMA GLUCOSE`, an empty line, and the
line `720 mg/dL`. -/
def scenario3 : JSString :=
  "FASTING PLASMA GLUCOSE".toList ++ [newline] ++ [newline] ++ "720 mg/dL".toList

/-- A text of white space only: two spaces, a line break, a tab, a space. -/
def blankText : JSString :=
  [' ', ' ', newline, Char.ofNat 9, ' ']

/-- A text with a number and a unit, without a marker phrase and without the
word `glucose`. -/
def unmarkedText : JSString :=
  "Cholesterol 95 mg/dL".toList ++ [newline] ++ "Urea 40 mmol/L".toList

/-- A line the front-end extractor searches, with a value in `mmol/L`. -/
def mmolText : JSString := "Glucose: 45 mmol/L".toList

/-- The record the pattern for a number before `mmol/L` gives on `mmolText`. -/
def mmolRecord : Extracted :=
  { value := .finite 45, unit := "mmol/L".toList, context := "Glucose: 45 mmol/L".toList,
    line := 1 }

/-- The record `r` is read off the match `m`: its value is the parsed capture
group, its unit is `mmol/L` exactly when the matched substring contains
`mmol`, and `mg/dL` exactly when it does not. -/
def ReadOff (r : Extracted) (m : Match) : Prop :=
  r.value = parseFloat (groupToString m.group1) ∧
  (r.unit = "mmol/L".toList ↔ "mmol".toList <:+: m.whole) ∧
  (r.unit = "mg/dL".toList ↔ ¬ "mmol".toList <:+: m.whole)

/-- A flagged line whose unit is written in capitals. -/
def upperCaseUnit : JSString := "FBS 45 MMOL/L".toList

/-- The record the extractors produce for `upperCaseUnit`. -/
def upperCaseUnitRecord : Extracted :=
  { value := .finite 45, unit := "mg/dL".toList, context := "FBS 45 MMOL/L".toList, line := 1 }

/-! ## Windows, positions and further inputs -/

/-- The value of `contextStart` (server.js 133): `Math.max(0, lineIndex - 2)`. -/
def Server.contextStart (lineIndex : Nat) : Int :=
  max 0 ((lineIndex : Int) - 2)

/-- The value of `contextEnd` (server.js 134):
`Math.min(lines.length - 1, lineIndex + 2)`. -/
def Server.contextEnd (lines : List JSString) (lineIndex : Nat) : Int :=
  min ((lines.length : Int) - 1) ((lineIndex : Int) + 2)

/-- The record a match gives when its value passes the range test, written
out: the list is empty when the test fails. -/
def recordOf (line : JSString) (lineIndex : Nat) (m : Match) : List Extracted :=
  if (parseFloat (groupToString m.group1)).ge (.finite 30)
      && (parseFloat (groupToString m.group1)).le (.finite 500) then
    [{ value := parseFloat (groupToString m.group1), unit := unitOf m.whole,
       context := trim line, line := lineIndex + 1 }]
  else []

/-- The five patterns in the order of the array `glucosePatterns`. -/
def patternsInOrder : List (List Node) :=
  [mgdlPattern, mmolPattern, glucoseLabelPattern, fbsLabelPattern, hba1cLabelPattern]

/-- The matches `ms` lie from left to right in the text `s`: there are start
positions, one for each match and strictly increasing along the list, at
which the matched substrings stand in `s`. -/
def LeftToRight (ms : List Match) (s : JSString) : Prop :=
  ∃ ps : List Nat, ps.length = ms.length ∧ ps.Pairwise (fun a b => a < b) ∧
    ∀ pm ∈ ps.zip ms,
      (s.drop pm.1).take pm.2.whole.length = pm.2.whole ∧ pm.1 + pm.2.whole.length ≤ s.length

/-- A flagged line with blanks around it, and the value on the next line. -/
def neighbourText : JSString :=
  "  FBS ".toList ++ [newline] ++ "95 mg/dL".toList

/-- The record the server-side extractor gives for `neighbourText` (twice). -/
def neighbourRecord : Extracted :=
  { value := .finite 95, unit := "mg/dL".toList, context := "FBS".toList, line := 1 }

/-- A line with the bare word `Glucose` and a value within the range. -/
def bareGlucoseText : JSString := "Glucose: 95 mg/dL".toList

/-- Two lines for the front-end extractor, the second one flagged. -/
def twoLines : List JSString :=
  ["Report".toList, "FBS: 95 mg/dL".toList]

/-- Five lines, the third one flagged, the value on the fifth. -/
def windowText : JSString :=
  join [newline] ["a".toList, "b".toList, "FBS".toList, "c".toList, " 120 mg/dL".toList]

/-! ## Summary statistics (`FBSExtractor.calculateSummaryStats`, app.js 1149-1193)

The mean is computed as the doubles of the source compute it: each sum and
the quotient are rounded to the nearest double (`meanOfDoubles`). Minimum,
maximum, sorting and the median only compare numbers, for which the exact
sum and difference below suffice. -/

/-- The global function `isNaN` on a number. -/
def JSNumber.isNaN : JSNumber → Bool
  | .nan => true
  | _ => false

/-- The exact sum `a + b`, before any rounding. -/
def JSNumber.add : JSNumber → JSNumber → JSNumber
  | .nan, _ => .nan
  | _, .nan => .nan
  | .posInf, .negInf => .nan
  | .negInf, .posInf => .nan
  | .posInf, _ => .posInf
  | _, .posInf => .posInf
  | .negInf, _ => .negInf
  | _, .negInf => .negInf
  | .finite a, .finite b => .finite (a + b)

/-- The exact difference `a - b`; rounding keeps its sign. -/
def JSNumber.sub (a b : JSNumber) : JSNumber :=
  a.add b.neg

/-- The exact quotient `x / n` of a number by the length `n` of an array,
before rounding. -/
def JSNumber.divLength : JSNumber → Nat → JSNumber
  | .nan, _ => .nan
  | .posInf, _ => .posInf
  | .negInf, _ => .negInf
  | .finite q, 0 => if q = 0 then .nan else if 0 < q then .posInf else .negInf
  | .finite q, n + 1 => .finite (q / ((n + 1 : Nat) : ℚ))

/-- The smaller of two numbers, `NaN` when either is `NaN`. -/
def JSNumber.min (a b : JSNumber) : JSNumber :=
  if a.isNaN || b.isNaN then .nan else if a.le b then a else b

/-- The larger of two numbers, `NaN` when either is `NaN`. -/
def JSNumber.max (a b : JSNumber) : JSNumber :=
  if a.isNaN || b.isNaN then .nan else if a.le b then b else a

/-- The call `Math.min(...values)`: `+Infinity` for no argument. -/
def mathMin (values : List JSNumber) : JSNumber :=
  values.foldl JSNumber.min .posInf

/-- The call `Math.max(...values)`: `-Infinity` for no argument. -/
def mathMax (values : List JSNumber) : JSNumber :=
  values.foldl JSNumber.max .negInf

/-- Is the value `a - b` of the comparator `(a, b) => a - b` positive, that
is, must `a` come after `b`? -/
def comesAfter (a b : JSNumber) : Bool :=
  match a.sub b with
  | .finite q => decide (0 < q)
  | .posInf => true
  | _ => false

/-- The place of `x` in a sorted list: before the first element it need not
come after. -/
def insertSorted (x : JSNumber) : List JSNumber → List JSNumber
  | [] => [x]
  | y :: ys => if comesAfter x y then y :: insertSorted x ys else x :: y :: ys

/-- The call `[...values].sort((a, b) => a - b)`. On numbers other than `NaN`
the comparator is consistent and the result is the stable ascending
arrangement, computed here by insertion. -/
def sortNumeric (values : List JSNumber) : List JSNumber :=
  values.foldr insertSorted []

/-- An element of `entry.numericValues`: `value` is the text `parseFloat`
reads, that is, the string form of `val.value`; `unit` is a string, in
practice `mg/dL` or `mmol/L`. -/
structure NumericValue where
  /-- The field `value`, as a string. -/
  value : JSString
  /-- The field `unit`. -/
  unit : JSString
  deriving DecidableEq

/-- An element of `extractedData`, reduced to the field the statistics read. -/
structure Entry where
  /-- The field `numericValues`. -/
  numericValues : List NumericValue
  deriving DecidableEq

/-- An element of `allValues`, without its reference back to the entry. -/
structure ValueItem where
  /-- The field `value`: the parsed number. -/
  value : JSNumber
  /-- The field `unit`. -/
  unit : JSString
  deriving DecidableEq

/-- The statistics of one unit: a value of `summaryStats`. -/
structure UnitSummary where
  /-- The field `count`. -/
  count : Nat
  /-- The field `min`. -/
  min : JSNumber
  /-- The field `max`. -/
  max : JSNumber
  /-- The field `mean`. -/
  mean : JSNumber
  /-- The field `median`; `none` stands for `undefined`. -/
  median : Option JSNumber
  /-- The field `values`. -/
  values : List JSNumber
  /-- The field `unit`. -/
  unit : JSString
  deriving DecidableEq

/-- The state of an `FBSExtractor` object the statistics read and write: the
array `extractedData` and the object `summaryStats`, as the list of its keys
and values in the order the keys were created. -/
structure FBSExtractor where
  /-- The field `extractedData`. -/
  extractedData : List Entry
  /-- The field `summaryStats`. -/
  summaryStats : List (JSString × UnitSummary)
  deriving DecidableEq

/-- The state the constructor leaves (app.js 1140-1141). -/
def FBSExtractor.initial : FBSExtractor :=
  { extractedData := [], summaryStats := [] }

/-- The two nested `forEach` loops that fill `allValues` (app.js 1152-1164):
each value is parsed and kept unless it is `NaN`. -/
def collectValues (extractedData : List Entry) : List ValueItem :=
  extractedData.foldl (fun allValues entry =>
    entry.numericValues.foldl (fun allValues val =>
      let numValue := parseFloat val.value
      if !numValue.isNaN then allValues ++ [{ value := numValue, unit := val.unit }]
      else allValues) allValues) []

/-- The two statements `if (!valuesByUnit[unit]) valuesByUnit[unit] = [];
valuesByUnit[unit].push(item.value)` (app.js 1172-1173) on the object
`valuesByUnit`, as the list of its keys and arrays: the value joins the array
of its key, which is created at the end when the key is new. -/
def pushValue (unit : JSString) (value : JSNumber) :
    List (JSString × List JSNumber) → List (JSString × List JSNumber)
  | [] => [(unit, [value])]
  | (key, values) :: rest =>
    if key = unit then (key, values ++ [value]) :: rest
    else (key, values) :: pushValue unit value rest

/-- The loop that groups the values by lower-cased unit (app.js 1169-1174). -/
def groupByUnit (allValues : List ValueItem) : List (JSString × List JSNumber) :=
  allValues.foldl (fun valuesByUnit item =>
    pushValue (toLowerCase item.unit) item.value valuesByUnit) []

/-- The double nearest to a number: the rounding every arithmetic operation
on doubles ends with. -/
def JSNumber.toDouble : JSNumber → JSNumber
  | .finite q =>
    if 0 ≤ q then roundToDouble q.num.toNat q.den
    else (roundToDouble (-q).num.toNat q.den).neg
  | x => x

/-- The sum `a + b` as doubles compute it: the exact sum, rounded. -/
def JSNumber.addDouble (a b : JSNumber) : JSNumber :=
  (a.add b).toDouble

/-- The expression `values.reduce((a, b) => a + b, 0) / values.length`
(app.js 1185) as doubles compute it: the sums are taken from the left,
starting at zero, and every sum and the quotient are rounded to the nearest
double. -/
def meanOfDoubles (values : List JSNumber) : JSNumber :=
  ((values.foldl JSNumber.addDouble (.finite 0)).divLength values.length).toDouble

/-- The object assigned to `summaryStats[unit]` (app.js 1178-1189). -/
def summarize (unit : JSString) (values : List JSNumber) : UnitSummary :=
  let sortedValues := sortNumeric values
  { count := values.length,
    min := mathMin values,
    max := mathMax values,
    mean := meanOfDoubles values,
    median := sortedValues.get? (sortedValues.length / 2),
    values := values,
    unit := unit }

/-- The method `calculateSummaryStats` (app.js 1149-1193), as a function of
the state of the object. The chart it draws at the end is not part of the
state. -/
def calculateSummaryStats (self : FBSExtractor) : FBSExtractor :=
  if self.extractedData.length = 0 then self
  else
    let allValues := collectValues self.extractedData
    if allValues.length = 0 then self
    else
      { self with
        summaryStats := (groupByUnit allValues).map (fun group =>
          (group.1, summarize group.1 group.2)) }

/-- Four readings in `mg/dL`, out of order, and a value that does not parse. -/
def fourReadings : List Entry :=
  [{ numericValues := [⟨"100".toList, "mg/dL".toList⟩, ⟨"70".toList, "mg/dL".toList⟩] },
   { numericValues := [⟨"n/a".toList, "mg/dL".toList⟩, ⟨"110".toList, "mg/dL".toList⟩,
                       ⟨"90".toList, "mg/dL".toList⟩] }]

/-- The summary of `fourReadings`: one group, under the key `mg/dl`. -/
def fourReadingsSummary : UnitSummary :=
  { count := 4, min := .finite 70, max := .finite 110, mean := .finite (185 / 2),
    median := some (.finite 100),
    values := [.finite 100, .finite 70, .finite 110, .finite 90],
    unit := "mg/dl".toList }

/-- The item of `allValues` a value gives: none when it parses to `NaN`. -/
def parsedItem (val : NumericValue) : Option ValueItem :=
  if !(parseFloat val.value).isNaN then
    some { value := parseFloat val.value, unit := val.unit }
  else none

/-- The values, in order, of the items whose lower-cased unit is `key`. -/
def valuesOfUnit (key : JSString) (items : List ValueItem) : List JSNumber :=
  (items.filter (fun item => decide (toLowerCase item.unit = key))).map (fun item => item.value)

/-- What `groupByUnit` maintains: the keys are distinct, the array of a key
holds the values of the items of that key and is not empty, and every item
has its key. -/
def Grouped (groups : List (JSString × List JSNumber)) (items : List ValueItem) : Prop :=
  (groups.map Prod.fst).Nodup ∧
  (∀ g ∈ groups, g.2 = valuesOfUnit g.1 items ∧ g.2 ≠ []) ∧
  (∀ item ∈ items, toLowerCase item.unit ∈ groups.map Prod.fst)

/-- Readings in two units, `mg/dL` written in two letter cases, and a value
that does not parse. -/
def mixedReadings : List Entry :=
  [{ numericValues := [⟨"95".toList, "mg/dL".toList⟩, ⟨"40".toList, "mmol/L".toList⟩] },
   { numericValues := [⟨"105".toList, "MG/DL".toList⟩, ⟨"high".toList, "mg/dL".toList⟩] }]

/-- An extractor after a first aggregation, on `fourReadings`. -/
def afterFirstScan : FBSExtractor :=
  calculateSummaryStats { extractedData := fourReadings, summaryStats := [] }

/-- The same extractor once its data are emptied. -/
def afterClearing : FBSExtractor :=
  { afterFirstScan with extractedData := [] }

/-- The text of a number as the capture group writes it: digits, at least
one, then nothing more, or a decimal point and digits, possibly none. -/
def IsNumberText (g : JSString) : Prop :=
  ∃ ds fs : JSString, ds ≠ [] ∧ (∀ c ∈ ds, c.isDigit = true) ∧ (∀ c ∈ fs, c.isDigit = true) ∧
    (g = ds ∨ g = ds ++ '.' :: fs)

/-- The atoms of the terms of a pattern. -/
def atomsOf : List Node → List Atom
  | [] => []
  | .one a :: ns => a :: atomsOf ns
  | .opt a :: ns => a :: atomsOf ns
  | .star a :: ns => a :: atomsOf ns
  | .plus a :: ns => a :: atomsOf ns
  | _ :: ns => atomsOf ns

/-- The three label patterns. -/
def labelPatterns : List (List Node) :=
  [glucoseLabelPattern, fbsLabelPattern, hba1cLabelPattern]

/-- The comparison `a < b` of two numbers; false when either is `NaN`. -/
def JSNumber.lt : JSNumber → JSNumber → Bool
  | .nan, _ => false
  | _, .nan => false
  | .posInf, _ => false
  | _, .negInf => false
  | .negInf, _ => true
  | _, .posInf => true
  | .finite a, .finite b => decide (a < b)

/-- The comparison `a > b`. -/
def JSNumber.gt (a b : JSNumber) : Bool :=
  JSNumber.lt b a

/-- A flagged line with the two ends of the range as values. -/
def boundaryText : JSString := "FBS 30 500 mg/dL".toList

/-- The record of `boundaryText` for the value `v`. -/
def boundaryRecord (v : ℚ) : Extracted :=
  { value := .finite v, unit := "mg/dL".toList, context := "FBS 30 500 mg/dL".toList,
    line := 1 }

/-- Two flagged lines next to each other, one value on the second. -/
def overlapText : JSString :=
  "FBS".toList ++ [newline] ++ "FPG 95 mg/dL".toList

/-- A flagged line for both extractors, with a value in `mmol/L`. -/
def fbsMmolText : JSString := "FBS: 45 mmol/L".toList

/-! ## The dashboard: readings, the time-in-range chart and manual entry

(`src/frontend/app.js` 1-9, 383-421 and 815-849) -/

/-- Is a number falsy, as the operator `!` sees it: `NaN` and zero are. -/
def JSNumber.isFalsy : JSNumber → Bool
  | .nan => true
  | .finite q => decide (q = 0)
  | _ => false

/-- An element of the array `glucoseData`. -/
structure Reading where
  /-- The field `id`. -/
  id : Nat
  /-- The field `glucose`. -/
  glucose : JSNumber
  /-- The field `unit`. -/
  unit : JSString
  /-- The field `timestamp`. -/
  timestamp : JSString
  /-- The field `mealTag`. -/
  mealTag : JSString
  /-- The field `notes`. -/
  notes : JSString
  deriving DecidableEq

/-- The fields of the object `settings` the chart reads. -/
structure Settings where
  /-- The field `normalMin`. -/
  normalMin : JSNumber
  /-- The field `normalMax`. -/
  normalMax : JSNumber
  deriving DecidableEq

/-- The labels and the data set of the chart `createTimeInRangeChart` builds;
colours and options are constants of the source and are left out. -/
structure ChartData where
  /-- The array `labels`. -/
  labels : List JSString
  /-- The array `data` of the one data set. -/
  data : List Nat
  deriving DecidableEq

/-- The function `createTimeInRangeChart` (app.js 815-849), as the labels and
data of the chart it returns. -/
def createTimeInRangeChart (settings : Settings) (data : List Reading) : ChartData :=
  if data.length = 0 then { labels := ["No Data".toList], data := [1] }
  else
    let lowCount := (data.filter (fun r => r.glucose.lt settings.normalMin)).length
    let normalCount := (data.filter (fun r =>
      r.glucose.ge settings.normalMin && r.glucose.le settings.normalMax)).length
    let highCount := (data.filter (fun r => r.glucose.gt settings.normalMax)).length
    { labels := ["Low".toList, "Normal".toList, "High".toList],
      data := [lowCount, normalCount, highCount] }

/-- The values of the form fields `handleGlucoseSubmit` reads. -/
structure GlucoseForm where
  /-- The value of the field `glucoseValue`. -/
  glucoseValue : JSString
  /-- The value of the field `glucoseUnit`. -/
  glucoseUnit : JSString
  /-- The value of the field `glucoseDateTime`. -/
  glucoseDateTime : JSString
  /-- The value of the field `mealTag`. -/
  mealTag : JSString
  /-- The value of the field `glucoseNotes`. -/
  glucoseNotes : JSString
  deriving DecidableEq

/-- The function `handleGlucoseSubmit` (app.js 383-421), as the array
`glucoseData` after the call. The clock and the date library are parameters:
`now` is the value of `Date.now()`, and `toISOString` gives
`new Date(dateTime).toISOString()`, or nothing when that call throws because
the date is invalid, which happens before the array is touched. Saving,
redrawing and the status message do not write to the array. -/
def handleGlucoseSubmit (now : Nat) (toISOString : JSString → Option JSString)
    (form : GlucoseForm) (glucoseData : List Reading) : List Reading :=
  let glucose := parseFloat form.glucoseValue
  if glucose.isFalsy || form.glucoseDateTime.isEmpty then glucoseData
  else if glucose.lt (.finite 30) || glucose.gt (.finite 500) then glucoseData
  else
    match toISOString form.glucoseDateTime with
    | none => glucoseData
    | some timestamp =>
      { id := now, glucose := glucose, unit := form.glucoseUnit, timestamp := timestamp,
        mealTag := form.mealTag, notes := form.glucoseNotes } :: glucoseData

/-- Is the reading in exactly one of the three classes of the chart? -/
def inOneClass (settings : Settings) (r : Reading) : Bool :=
  let low := r.glucose.lt settings.normalMin
  let normal := r.glucose.ge settings.normalMin && r.glucose.le settings.normalMax
  let high := r.glucose.gt settings.normalMax
  (low && !normal && !high) || (!low && normal && !high) || (!low && !normal && high)

/-- A reading of the given value, in `mmol/L`. -/
def readingOf (v : ℚ) : Reading :=
  { id := 1, glucose := .finite v, unit := "mmol/L".toList, timestamp := [], mealTag := [],
    notes := [] }

/-- Settings whose bounds are in order. -/
def orderedSettings : Settings := { normalMin := .finite 4, normalMax := .finite 7 }

/-- Settings whose bounds are swapped. -/
def swappedSettings : Settings := { normalMin := .finite 7, normalMax := .finite 4 }

/-- Two values of one unit, `Infinity` and `-Infinity`. -/
def infiniteReadings : List Entry :=
  [{ numericValues := [⟨"Infinity".toList, "mg/dL".toList⟩,
                       ⟨"-Infinity".toList, "mg/dL".toList⟩] }]

/-- A flagged line whose value is below the range. -/
def belowText : JSString := "FBS 20".toList

/-- The double the text `0.1` denotes. -/
def tenth : JSNumber := .finite (mkRat 3602879701896397 36028797018963968)

/-- Three values `0.1` of one unit. -/
def tenthReadings : List Entry :=
  [{ numericValues := [⟨"0.1".toList, "mg/dL".toList⟩, ⟨"0.1".toList, "mg/dL".toList⟩,
                       ⟨"0.1".toList, "mg/dL".toList⟩] }]

/-- Three readings in `mg/dL` whose sum is not a multiple of three. -/
def threeReadings : List Entry :=
  [{ numericValues := [⟨"100".toList, "mg/dL".toList⟩, ⟨"101".toList, "mg/dL".toList⟩,
                       ⟨"103".toList, "mg/dL".toList⟩] }]

/-- The summary of `threeReadings`; the mean is the double
101.33333333333333. -/
def threeReadingsSummary : UnitSummary :=
  { count := 3, min := .finite 100, max := .finite 103,
    mean := .finite (mkRat 7130699410003285 70368744177664),
    median := some (.finite 101),
    values := [.finite 100, .finite 101, .finite 103],
    unit := "mg/dl".toList }

/-- The group `mg/dl` of the summary of `mixedReadings`. -/
def mixedMgdlSummary : UnitSummary :=
  { count := 2, min := .finite 95, max := .finite 105, mean := .finite 100,
    median := some (.finite 105), values := [.finite 95, .finite 105],
    unit := "mg/dl".toList }

/-! ## The loops only append -/

theorem pushMatch_eq_append (line : JSString) (lineIndex : Nat) (results : List Extracted)
    (m : Match) : pushMatch line lineIndex results m = results ++ emitted line lineIndex m := by
  simp only [emitted, pushMatch]
  split <;> simp

theorem foldl_pushMatch (line : JSString) (lineIndex : Nat) (ms : List Match) :
    ∀ results : List Extracted, ms.foldl (pushMatch line lineIndex) results
      = results ++ ms.flatMap (emitted line lineIndex) := by
  induction ms with
  | nil => intro results; simp
  | cons m ms ih =>
    intro results
    simp [List.foldl_cons, ih, pushMatch_eq_append, List.append_assoc]

theorem forEachPattern_eq (searched line : JSString) (lineIndex : Nat)
    (patterns : List RegExp) :
    ∀ results : List Extracted, forEachPattern searched line lineIndex patterns results
      = (results ++ patternResults searched line lineIndex patterns, patterns) := by
  induction patterns with
  | nil => intro results; simp [forEachPattern, patternResults]
  | cons rx rest ih =>
    intro results
    simp only [forEachPattern, ih, foldl_pushMatch]
    simp [patternResults, matchAll, List.append_assoc]

theorem forEachIndexed_eq (body : JSString → Nat → ExtractState → ExtractState)
    (f : JSString → Nat → List Extracted) (patterns : List RegExp)
    (h : ∀ line index results,
      body line index (results, patterns) = (results ++ f line index, patterns))
    (lines : List JSString) :
    ∀ (index : Nat) (results : List Extracted),
      forEachIndexed body lines index (results, patterns)
        = (results ++ collect f lines index, patterns) := by
  induction lines with
  | nil => intro index results; simp [forEachIndexed, collect]
  | cons line rest ih =>
    intro index results
    simp [forEachIndexed, collect, h, ih, List.append_assoc]

theorem server_lineBody_eq (patterns : List RegExp) (lines : List JSString) (line : JSString)
    (index : Nat) (results : List Extracted) :
    Server.lineBody lines line index (results, patterns)
      = (results ++ Server.lineResults patterns lines line index, patterns) := by
  unfold Server.lineBody Server.lineResults
  split <;> simp [forEachPattern_eq]

theorem client_lineBody_eq (patterns : List RegExp) (line : JSString)
    (index : Nat) (results : List Extracted) :
    Client.lineBody line index (results, patterns)
      = (results ++ Client.lineResults patterns line index, patterns) := by
  unfold Client.lineBody Client.lineResults
  split <;> simp [forEachPattern_eq]

theorem server_extractGlucoseFromText_eq (patterns : List RegExp) (text : JSString) :
    Server.extractGlucoseFromText patterns text
      = (collect (Server.lineResults patterns (split newline text)) (split newline text) 0,
         patterns) := by
  unfold Server.extractGlucoseFromText
  have h := forEachIndexed_eq (Server.lineBody (split newline text))
    (Server.lineResults patterns (split newline text)) patterns
    (fun line index results => server_lineBody_eq patterns _ line index results)
    (split newline text) 0 []
  exact h

theorem client_extractGlucoseFromText_eq (patterns : List RegExp) (text : JSString) :
    Client.extractGlucoseFromText patterns text
      = (collect (Client.lineResults patterns) (split newline text) 0, patterns) := by
  unfold Client.extractGlucoseFromText
  have h := forEachIndexed_eq Client.lineBody (Client.lineResults patterns) patterns
    (fun line index results => client_lineBody_eq patterns line index results)
    (split newline text) 0 []
  exact h

theorem mem_collect (f : JSString → Nat → List Extracted) (r : Extracted)
    (lines : List JSString) :
    ∀ index : Nat, r ∈ collect f lines index ↔
      ∃ k, ∃ h : k < lines.length, r ∈ f (lines.get ⟨k, h⟩) (index + k) := by
  induction lines with
  | nil => intro index; simp [collect]
  | cons line rest ih =>
    intro index
    simp only [collect, List.mem_append, ih]
    constructor
    · rintro (h | ⟨k, hk, h⟩)
      · exact ⟨0, by simp, by simpa using h⟩
      · refine ⟨k + 1, by simpa using hk, ?_⟩
        have e : index + 1 + k = index + (k + 1) := by omega
        simpa [e] using h
    · rintro ⟨k, hk, h⟩
      cases k with
      | zero => left; simpa using h
      | succ k =>
        right
        refine ⟨k, by simpa using hk, ?_⟩
        have e : index + 1 + k = index + (k + 1) := by omega
        simpa [e] using h

theorem mem_emitted (line : JSString) (lineIndex : Nat) (m : Match) (r : Extracted) :
    r ∈ emitted line lineIndex m ↔
      ((parseFloat (groupToString m.group1)).ge (.finite 30) = true ∧
       (parseFloat (groupToString m.group1)).le (.finite 500) = true) ∧
      r = { value := parseFloat (groupToString m.group1), unit := unitOf m.whole,
            context := trim line, line := lineIndex + 1 } := by
  simp only [emitted, pushMatch]
  split
  · rename_i h
    simp only [Bool.and_eq_true] at h
    simp [h]
  · rename_i h
    simp only [Bool.and_eq_true] at h
    simp [h]

theorem mem_patternResults (searched line : JSString) (lineIndex : Nat)
    (patterns : List RegExp) (r : Extracted) :
    r ∈ patternResults searched line lineIndex patterns ↔
      ∃ rx ∈ patterns, ∃ m ∈ (matchAll searched rx).1, r ∈ emitted line lineIndex m := by
  simp [patternResults]

theorem mem_server_extract (text : JSString) (r : Extracted) :
    r ∈ Server.extract text ↔
      ∃ k, ∃ h : k < (split newline text).length,
        Server.fbsFound ((split newline text).get ⟨k, h⟩) = true ∧
        ∃ rx ∈ Server.glucosePatterns,
          ∃ m ∈ (matchAll (Server.contextOf (split newline text) k) rx).1,
            r ∈ emitted ((split newline text).get ⟨k, h⟩) k m := by
  unfold Server.extract
  rw [server_extractGlucoseFromText_eq, mem_collect]
  simp only [Server.lineResults, Nat.zero_add]
  constructor
  · rintro ⟨k, hk, h⟩
    split at h
    · rename_i hf
      exact ⟨k, hk, hf, (mem_patternResults _ _ _ _ _).1 h⟩
    · simp at h
  · rintro ⟨k, hk, hf, h⟩
    refine ⟨k, hk, ?_⟩
    rw [if_pos hf]
    exact (mem_patternResults _ _ _ _ _).2 h

theorem mem_client_extract (text : JSString) (r : Extracted) :
    r ∈ Client.extract text ↔
      ∃ k, ∃ h : k < (split newline text).length,
        (Client.fbsFound ((split newline text).get ⟨k, h⟩)
          || includes (toLowerCase ((split newline text).get ⟨k, h⟩)) "glucose".toList) = true ∧
        ∃ rx ∈ Client.glucosePatterns,
          ∃ m ∈ (matchAll ((split newline text).get ⟨k, h⟩) rx).1,
            r ∈ emitted ((split newline text).get ⟨k, h⟩) k m := by
  unfold Client.extract
  rw [client_extractGlucoseFromText_eq, mem_collect]
  simp only [Client.lineResults, Nat.zero_add]
  constructor
  · rintro ⟨k, hk, h⟩
    split at h
    · rename_i hf
      exact ⟨k, hk, hf, (mem_patternResults _ _ _ _ _).1 h⟩
    · simp at h
  · rintro ⟨k, hk, hf, h⟩
    refine ⟨k, hk, ?_⟩
    rw [if_pos hf]
    exact (mem_patternResults _ _ _ _ _).2 h

theorem finite_of_range_test (x : JSNumber)
    (h : x.ge (.finite 30) = true ∧ x.le (.finite 500) = true) :
    ∃ v : ℚ, x = .finite v ∧ 30 ≤ v ∧ v ≤ 500 := by
  cases x with
  | nan => simp [JSNumber.ge, JSNumber.le] at h
  | posInf => simp [JSNumber.ge, JSNumber.le] at h
  | negInf => simp [JSNumber.ge, JSNumber.le] at h
  | finite q =>
    refine ⟨q, rfl, ?_⟩
    simpa [JSNumber.ge, JSNumber.le] using h

theorem line_of_mem_emitted (line : JSString) (lineIndex : Nat) (m : Match) (r : Extracted)
    (h : r ∈ emitted line lineIndex m) : r.line = lineIndex + 1 := by
  rw [mem_emitted] at h
  rw [h.2]

theorem collect_lines_sorted (f : JSString → Nat → List Extracted)
    (hf : ∀ line index r, r ∈ f line index → r.line = index + 1) (lines : List JSString) :
    ∀ index : Nat,
      List.Pairwise (fun a b => a ≤ b) ((collect f lines index).map (fun r => r.line)) := by
  induction lines with
  | nil => intro index; simp [collect]
  | cons line rest ih =>
    intro index
    simp only [collect, List.map_append, List.pairwise_append]
    refine ⟨?_, ih (index + 1), ?_⟩
    · rw [List.pairwise_map]
      apply List.pairwise_of_forall_mem_list
      intro a ha b hb
      rw [hf line index a ha, hf line index b hb]
    · intro a ha b hb
      obtain ⟨r, hr, rfl⟩ := List.mem_map.1 ha
      obtain ⟨r', hr', rfl⟩ := List.mem_map.1 hb
      obtain ⟨k, hk, hmem⟩ := (mem_collect f r' rest (index + 1)).1 hr'
      rw [hf line index r hr, hf _ _ r' hmem]
      omega

theorem includes_iff_contained (needle : JSString) (s : JSString) :
    includes s needle = true ↔ needle <:+: s := by
  induction s with
  | nil => simp [includes, List.isEmpty_iff]
  | cons c cs ih => simp [includes, ih, List.infix_cons_iff]

theorem mem_of_mem_split (sep : Char) (s : JSString) :
    ∀ piece ∈ split sep s, ∀ c ∈ piece, c ∈ s := by
  induction s with
  | nil => intro piece hp c hc; simp [split] at hp; simp [hp] at hc
  | cons a rest ih =>
    intro piece hp c hc
    unfold split at hp
    split at hp
    · rcases List.mem_cons.1 hp with h | h
      · simp [h] at hc
      · exact List.mem_cons_of_mem _ (ih piece h c hc)
    · cases hs : split sep rest with
      | nil =>
        rw [hs] at hp
        simp at hp
        simp [hp] at hc
        simp [hc]
      | cons first others =>
        rw [hs] at hp ih
        rcases List.mem_cons.1 hp with h | h
        · rw [h] at hc
          rcases List.mem_cons.1 hc with h' | h'
          · simp [h']
          · exact List.mem_cons_of_mem _ (ih first (List.mem_cons_self _ _) c h')
        · exact List.mem_cons_of_mem _ (ih piece (List.mem_cons_of_mem _ h) c hc)

theorem toLowerCaseChar_of_whiteSpace (c : Char) (h : isWhiteSpace c = true) :
    toLowerCaseChar c = [c] := by
  unfold isWhiteSpace at h
  simp only [Bool.or_eq_true, Bool.and_eq_true, beq_iff_eq, decide_eq_true_eq] at h
  have h1 : c.toNat ≠ 0x130 := by omega
  have h2 : c.toNat ≠ 0x212A := by omega
  have h3 : ¬ (c.toNat ≥ 65 ∧ c.toNat ≤ 90) := by omega
  simp [toLowerCaseChar, h1, h2, Char.toLower, h3]

theorem toLowerCase_of_whiteSpace (s : JSString) (h : ∀ c ∈ s, isWhiteSpace c = true) :
    toLowerCase s = s := by
  induction s with
  | nil => rfl
  | cons c cs ih =>
    have hc := toLowerCaseChar_of_whiteSpace c (h c (List.mem_cons_self _ _))
    have hcs := ih (fun d hd => h d (List.mem_cons_of_mem _ hd))
    unfold toLowerCase at hcs ⊢
    simp [List.flatMap_cons, hc, hcs]

theorem not_includes_of_whiteSpace (s needle : JSString)
    (hs : ∀ c ∈ s, isWhiteSpace c = true) (hn : ∃ c ∈ needle, isWhiteSpace c = false) :
    includes s needle = false := by
  cases hi : includes s needle with
  | false => rfl
  | true =>
    obtain ⟨c, hc, hw⟩ := hn
    have := hs c (((includes_iff_contained needle s).1 hi).subset hc)
    rw [hw] at this
    cases this

theorem collect_eq_nil (f : JSString → Nat → List Extracted) (lines : List JSString)
    (h : ∀ line ∈ lines, ∀ index, f line index = []) :
    ∀ index : Nat, collect f lines index = [] := by
  induction lines with
  | nil => intro index; rfl
  | cons line rest ih =>
    intro index
    simp [collect, h line (List.mem_cons_self _ _) index,
      ih (fun l hl => h l (List.mem_cons_of_mem _ hl))]

theorem markers_not_whiteSpace :
    (∀ p ∈ Server.fbsPatterns, ∃ c ∈ toLowerCase p, isWhiteSpace c = false) ∧
    (∀ p ∈ Client.fbsPatterns, ∃ c ∈ toLowerCase p, isWhiteSpace c = false) ∧
    (∃ c ∈ "glucose".toList, isWhiteSpace c = false) := by
  decide!

theorem unitOf_iff (whole : JSString) :
    (unitOf whole = "mmol/L".toList ↔ "mmol".toList <:+: whole) ∧
    (unitOf whole = "mg/dL".toList ↔ ¬ "mmol".toList <:+: whole) := by
  have hne : "mmol/L".toList ≠ "mg/dL".toList := by decide
  unfold unitOf
  by_cases h : includes whole "mmol".toList = true
  · have hi := (includes_iff_contained _ _).1 h
    rw [if_pos h]
    exact ⟨⟨fun _ => hi, fun _ => rfl⟩, ⟨fun e => absurd e hne, fun n => absurd hi n⟩⟩
  · have hi : ¬ "mmol".toList <:+: whole := fun i => h ((includes_iff_contained _ _).2 i)
    rw [if_neg h]
    exact ⟨⟨fun e => absurd e.symm hne, fun i => absurd i hi⟩, ⟨fun _ => hi, fun _ => rfl⟩⟩

theorem readOff_of_mem_emitted (line : JSString) (lineIndex : Nat) (m : Match)
    (r : Extracted) (h : r ∈ emitted line lineIndex m) : ReadOff r m := by
  rw [mem_emitted] at h
  rw [h.2]
  exact ⟨rfl, (unitOf_iff m.whole).1, (unitOf_iff m.whole).2⟩

theorem split_length_pos (sep : Char) (s : JSString) : 1 ≤ (split sep s).length := by
  induction s with
  | nil => simp [split]
  | cons c cs ih =>
    unfold split
    split
    · simp
    · cases h : split sep cs with
      | nil => simp
      | cons a b => simp

theorem context_of_mem_emitted (line : JSString) (lineIndex : Nat) (m : Match) (r : Extracted)
    (h : r ∈ emitted line lineIndex m) : r.context = trim line := by
  rw [mem_emitted] at h
  rw [h.2]

theorem emitted_eq_recordOf (line : JSString) (lineIndex : Nat) (m : Match) :
    emitted line lineIndex m = recordOf line lineIndex m := by
  simp only [emitted, pushMatch, recordOf]
  split <;> simp

theorem server_contextOf_eq (lines : List JSString) (lineIndex : Nat) :
    Server.contextOf lines lineIndex
      = join [' '] (slice lines (Server.contextStart lineIndex).toNat
          (Server.contextEnd lines lineIndex + 1).toNat) := rfl

theorem filter_collect (f : JSString → Nat → List Extracted)
    (hf : ∀ line index r, r ∈ f line index → r.line = index + 1) (lines : List JSString) :
    ∀ (index k : Nat) (hk : k < lines.length),
      (collect f lines index).filter (fun r => decide (r.line = index + k + 1))
        = f (lines.get ⟨k, hk⟩) (index + k) := by
  induction lines with
  | nil => intro index k hk; simp at hk
  | cons line rest ih =>
    intro index k hk
    simp only [collect, List.filter_append]
    cases k with
    | zero =>
      have h1 : (f line index).filter (fun r => decide (r.line = index + 0 + 1)) = f line index := by
        rw [List.filter_eq_self]
        intro a ha
        simp [hf line index a ha]
      have h2 : (collect f rest (index + 1)).filter (fun r => decide (r.line = index + 0 + 1))
          = [] := by
        rw [List.filter_eq_nil_iff]
        intro a ha
        obtain ⟨j, hj, hmem⟩ := (mem_collect f a rest (index + 1)).1 ha
        have := hf _ _ a hmem
        simp
        omega
      rw [h1, h2]
      simp
    | succ k =>
      have h1 : (f line index).filter (fun r => decide (r.line = index + (k + 1) + 1)) = [] := by
        rw [List.filter_eq_nil_iff]
        intro a ha
        have := hf line index a ha
        simp
        omega
      have e : index + (k + 1) + 1 = index + 1 + k + 1 := by omega
      have h2 := ih (index + 1) k (by simpa using hk)
      rw [h1, e, h2]
      have e2 : index + 1 + k = index + (k + 1) := by omega
      simp [e2]

theorem server_lineResults_line (patterns : List RegExp) (lines : List JSString) :
    ∀ line index r, r ∈ Server.lineResults patterns lines line index → r.line = index + 1 := by
  intro line index r hr
  unfold Server.lineResults at hr
  split at hr
  · obtain ⟨rx, _, m, _, hm⟩ := (mem_patternResults _ _ _ _ _).1 hr
    exact line_of_mem_emitted _ _ _ _ hm
  · simp at hr

theorem client_lineResults_line (patterns : List RegExp) :
    ∀ line index r, r ∈ Client.lineResults patterns line index → r.line = index + 1 := by
  intro line index r hr
  unfold Client.lineResults at hr
  split at hr
  · obtain ⟨rx, _, m, _, hm⟩ := (mem_patternResults _ _ _ _ _).1 hr
    exact line_of_mem_emitted _ _ _ _ hm
  · simp at hr

theorem server_contextBounds (lines : List JSString) (i : Nat) (hi : i < lines.length) :
    (Server.contextStart i).toNat = i - 2 ∧
    (Server.contextEnd lines i + 1).toNat = min (lines.length - 1) (i + 2) + 1 := by
  unfold Server.contextStart Server.contextEnd
  omega

theorem split_of_not_mem (sep : Char) (l : JSString) (h : sep ∉ l) : split sep l = [l] := by
  induction l with
  | nil => rfl
  | cons c cs ih =>
    have hc : c ≠ sep := fun e => h (by simp [e])
    have hcs : sep ∉ cs := fun e => h (List.mem_cons_of_mem _ e)
    simp [split, hc, ih hcs]

theorem split_append_sep (sep : Char) (l rest : JSString) (h : sep ∉ l) :
    split sep (l ++ sep :: rest) = l :: split sep rest := by
  induction l with
  | nil => simp [split]
  | cons c cs ih =>
    have hc : c ≠ sep := fun e => h (by simp [e])
    have hcs : sep ∉ cs := fun e => h (List.mem_cons_of_mem _ e)
    simp [split, hc, ih hcs]

theorem split_join (sep : Char) (first : JSString) (rest : List JSString)
    (h : ∀ l ∈ first :: rest, sep ∉ l) :
    split sep (join [sep] (first :: rest)) = first :: rest := by
  induction rest generalizing first with
  | nil =>
    simp only [join, List.intercalate, List.intersperse, List.flatten, List.append_nil]
    exact split_of_not_mem sep first (h first (List.mem_cons_self _ _))
  | cons second others ih =>
    have h1 := h first (List.mem_cons_self _ _)
    have h2 : ∀ l ∈ second :: others, sep ∉ l := fun l hl => h l (List.mem_cons_of_mem _ hl)
    have e : join [sep] (first :: second :: others)
        = first ++ sep :: join [sep] (second :: others) := by
      simp [join, List.intercalate, List.intersperse]
    rw [e, split_append_sep sep first _ h1, ih second h2]

theorem collect_eq_enumFrom (f : JSString → Nat → List Extracted) (lines : List JSString) :
    ∀ index, collect f lines index = (lines.enumFrom index).flatMap (fun p => f p.2 p.1) := by
  induction lines with
  | nil => intro index; rfl
  | cons line rest ih => intro index; simp [collect, ih]

theorem emitted_line (line : JSString) (i : Nat) (m : Match) :
    emitted line i m = (emitted line 0 m).map (fun r => { r with line := i + 1 }) := by
  simp only [emitted, pushMatch]
  split <;> simp

theorem patternResults_line (searched line : JSString) (i : Nat) (patterns : List RegExp) :
    patternResults searched line i patterns
      = (patternResults searched line 0 patterns).map (fun r => { r with line := i + 1 }) := by
  unfold patternResults
  rw [List.map_flatMap]
  congr 1
  funext rx
  rw [List.map_flatMap]
  congr 1
  funext m
  exact emitted_line line i m

theorem client_lineResults_shift (patterns : List RegExp) (line : JSString) (i : Nat) :
    Client.lineResults patterns line i
      = (Client.lineResults patterns line 0).map (fun r => { r with line := i + 1 }) := by
  unfold Client.lineResults
  split
  · exact patternResults_line line line i patterns
  · rfl

theorem client_extract_single (l : JSString) (h : newline ∉ l) :
    Client.extract l = Client.lineResults Client.glucosePatterns l 0 := by
  unfold Client.extract
  rw [client_extractGlucoseFromText_eq, split_of_not_mem newline l h]
  simp [collect]

theorem matchStar_rel (a : Atom) (k : JSString → MatchState → Option MatchState)
    (R : JSString → MatchState → MatchState → Prop)
    (hk : ∀ input st st', k input st = some st' → R input st st')
    (hstep : ∀ c cs st st', R cs (st.advance c) st' → R (c :: cs) st st') :
    ∀ input st st', matchStar a k input st = some st' → R input st st' := by
  intro input
  induction input with
  | nil => intro st st' h; exact hk _ _ _ (by simpa [matchStar] using h)
  | cons c cs ih =>
    intro st st' h
    unfold matchStar at h
    split at h
    · cases hm : matchStar a k cs (st.advance c) with
      | none => rw [hm] at h; exact hk _ _ _ h
      | some r =>
        rw [hm] at h
        simp only [Option.some.injEq] at h
        subst h
        exact hstep _ _ _ _ (ih _ _ hm)
    · exact hk _ _ _ h

theorem matchNodes_group (nodes : List Node) :
    ∀ input st st', matchNodes nodes input st = some st' →
      (st.group.isSome = true ∨ Node.groupClose ∈ nodes) → st'.group.isSome = true := by
  induction nodes with
  | nil =>
    intro input st st' h hg
    simp only [matchNodes, Option.some.injEq] at h
    subst h
    simpa using hg
  | cons n ns ih =>
    intro input st st' h hg
    have hg' : ∀ s : MatchState, s.group = st.group →
        (s.group.isSome = true ∨ Node.groupClose ∈ ns) ∨ n = Node.groupClose := by
      intro s hs
      rcases hg with hg | hg
      · exact Or.inl (Or.inl (by rw [hs]; exact hg))
      · rcases List.mem_cons.1 hg with e | e
        · exact Or.inr e.symm
        · exact Or.inl (Or.inr e)
    cases n with
    | wordBoundary =>
      simp only [matchNodes] at h
      split at h
      · exact ih _ _ _ h ((hg' st rfl).resolve_right (by simp))
      · cases h
    | one a =>
      simp only [matchNodes] at h
      cases input with
      | nil => cases h
      | cons c cs =>
        simp only at h
        split at h
        · exact ih _ _ _ h ((hg' (st.advance c) rfl).resolve_right (by simp))
        · cases h
    | opt a =>
      simp only [matchNodes] at h
      cases input with
      | nil => exact ih _ _ _ h ((hg' st rfl).resolve_right (by simp))
      | cons c cs =>
        simp only at h
        split at h
        · cases hm : matchNodes ns cs (st.advance c) with
          | none => rw [hm] at h; exact ih _ _ _ h ((hg' st rfl).resolve_right (by simp))
          | some r =>
            rw [hm] at h
            simp only [Option.some.injEq] at h
            subst h
            exact ih _ _ _ hm ((hg' (st.advance c) rfl).resolve_right (by simp))
        · exact ih _ _ _ h ((hg' st rfl).resolve_right (by simp))
    | star a =>
      simp only [matchNodes] at h
      exact matchStar_rel a (matchNodes ns)
        (fun _ s s' => (s.group.isSome = true ∨ Node.groupClose ∈ ns) → s'.group.isSome = true)
        (fun i s s' hs => ih i s s' hs) (fun c cs s s' hr hs => hr hs) _ _ _ h
        ((hg' st rfl).resolve_right (by simp))
    | plus a =>
      simp only [matchNodes] at h
      cases input with
      | nil => cases h
      | cons c cs =>
        simp only at h
        split at h
        · exact matchStar_rel a (matchNodes ns)
            (fun _ s s' => (s.group.isSome = true ∨ Node.groupClose ∈ ns) →
              s'.group.isSome = true)
            (fun i s s' hs => ih i s s' hs) (fun c cs s s' hr hs => hr hs) _ _ _ h
            ((hg' (st.advance c) rfl).resolve_right (by simp))
        · cases h
    | groupOpen =>
      simp only [matchNodes] at h
      exact ih _ _ _ h ((hg' _ rfl).resolve_right (by simp))
    | groupClose =>
      simp only [matchNodes] at h
      exact ih _ _ _ h (Or.inl rfl)

theorem matchNodes_consumed (nodes : List Node) :
    ∀ input st st', matchNodes nodes input st = some st' →
      ∃ p, p <+: input ∧ st'.consumed = p.reverse ++ st.consumed := by
  induction nodes with
  | nil =>
    intro input st st' h
    simp only [matchNodes, Option.some.injEq] at h
    subst h
    exact ⟨[], List.nil_prefix, rfl⟩
  | cons n ns ih =>
    intro input st st' h
    have hadv : ∀ c cs (s s' : MatchState),
        (∃ p, p <+: cs ∧ s'.consumed = p.reverse ++ (s.advance c).consumed) →
        ∃ p, p <+: c :: cs ∧ s'.consumed = p.reverse ++ s.consumed := by
      rintro c cs s s' ⟨p, hp, hc⟩
      refine ⟨c :: p, ?_, ?_⟩
      · obtain ⟨t, ht⟩ := hp
        exact ⟨t, by simp [ht]⟩
      · simp [hc, MatchState.advance]
    cases n with
    | wordBoundary =>
      simp only [matchNodes] at h
      split at h
      · exact ih _ _ _ h
      · cases h
    | one a =>
      simp only [matchNodes] at h
      cases input with
      | nil => cases h
      | cons c cs =>
        simp only at h
        split at h
        · exact hadv _ _ _ _ (ih _ _ _ h)
        · cases h
    | opt a =>
      simp only [matchNodes] at h
      cases input with
      | nil => exact ih _ _ _ h
      | cons c cs =>
        simp only at h
        split at h
        · cases hm : matchNodes ns cs (st.advance c) with
          | none => rw [hm] at h; exact ih _ _ _ h
          | some r =>
            rw [hm] at h
            simp only [Option.some.injEq] at h
            subst h
            exact hadv _ _ _ _ (ih _ _ _ hm)
        · exact ih _ _ _ h
    | star a =>
      simp only [matchNodes] at h
      exact matchStar_rel a (matchNodes ns)
        (fun i s s' => ∃ p, p <+: i ∧ s'.consumed = p.reverse ++ s.consumed)
        (fun i s s' hs => ih i s s' hs) hadv _ _ _ h
    | plus a =>
      simp only [matchNodes] at h
      cases input with
      | nil => cases h
      | cons c cs =>
        simp only at h
        split at h
        · exact hadv _ _ _ _ (matchStar_rel a (matchNodes ns)
            (fun i s s' => ∃ p, p <+: i ∧ s'.consumed = p.reverse ++ s.consumed)
            (fun i s s' hs => ih i s s' hs) hadv _ _ _ h)
        · cases h
    | groupOpen =>
      simp only [matchNodes] at h
      obtain ⟨p, hp, hc⟩ := ih _ _ _ h
      exact ⟨p, hp, hc⟩
    | groupClose =>
      simp only [matchNodes] at h
      obtain ⟨p, hp, hc⟩ := ih _ _ _ h
      exact ⟨p, hp, hc⟩

theorem matchAt_spec (nodes : List Node) (prev : Option Char) (input : JSString) (m : Match)
    (h : matchAt nodes prev input = some m) :
    m.whole <+: input ∧ (Node.groupClose ∈ nodes → m.group1.isSome = true) := by
  unfold matchAt at h
  cases hm : matchNodes nodes input { prev := prev, consumed := [], groupAt := 0, group := none } with
  | none => rw [hm] at h; cases h
  | some st =>
    rw [hm] at h
    simp only [Option.some.injEq] at h
    subst h
    obtain ⟨p, hp, hc⟩ := matchNodes_consumed nodes _ _ _ hm
    refine ⟨?_, fun hg => matchNodes_group nodes _ _ _ hm (Or.inr hg)⟩
    simp [hc, hp]

theorem mem_scan (nodes : List Node) (m : Match) (input : JSString) :
    ∀ skip prev, m ∈ scan nodes skip prev input →
      ∃ prev' input', matchAt nodes prev' input' = some m := by
  induction input with
  | nil =>
    intro skip prev h
    cases skip with
    | zero =>
      simp only [scan] at h
      exact ⟨prev, [], by simpa [Option.mem_toList] using h⟩
    | succ k => simp [scan] at h
  | cons c cs ih =>
    intro skip prev h
    cases skip with
    | zero =>
      simp only [scan] at h
      cases hm : matchAt nodes prev (c :: cs) with
      | none => rw [hm] at h; exact ih _ _ h
      | some m' =>
        rw [hm] at h
        rcases List.mem_cons.1 h with e | e
        · exact ⟨prev, c :: cs, by rw [hm, e]⟩
        · exact ih _ _ e
    | succ k =>
      simp only [scan] at h
      exact ih _ _ h

theorem scan_leftToRight (nodes : List Node) (input : JSString) :
    ∀ skip prev, LeftToRight (scan nodes skip prev input) input := by
  have shift : ∀ (c : Char) (cs : JSString) (ms : List Match),
      LeftToRight ms cs → ∃ ps : List Nat, ps.length = ms.length ∧
        ps.Pairwise (fun a b => a < b) ∧ (∀ p ∈ ps, 0 < p) ∧
        ∀ pm ∈ ps.zip ms, ((c :: cs).drop pm.1).take pm.2.whole.length = pm.2.whole ∧
          pm.1 + pm.2.whole.length ≤ (c :: cs).length := by
    rintro c cs ms ⟨ps, hlen, hpw, hocc⟩
    refine ⟨ps.map (· + 1), by simpa using hlen, ?_, ?_, ?_⟩
    · rw [List.pairwise_map]
      exact hpw.imp (fun h => by omega)
    · intro p hp
      obtain ⟨q, _, rfl⟩ := List.mem_map.1 hp
      omega
    · intro pm hpm
      rw [List.zip_map_left] at hpm
      obtain ⟨qm, hqm, rfl⟩ := List.mem_map.1 hpm
      obtain ⟨h1, h2⟩ := hocc qm hqm
      simp only [Prod.map_fst, Prod.map_snd, id_eq, List.drop_succ_cons, List.length_cons]
      exact ⟨h1, by omega⟩
  induction input with
  | nil =>
    intro skip prev
    cases skip with
    | zero =>
      simp only [scan]
      cases hm : matchAt nodes prev [] with
      | none => exact ⟨[], rfl, List.Pairwise.nil, by simp⟩
      | some m =>
        have hp := (matchAt_spec nodes prev [] m hm).1
        have hw : m.whole = [] := List.prefix_nil.1 hp
        refine ⟨[0], rfl, List.pairwise_singleton _ _, ?_⟩
        intro pm hpm
        simp only [Option.toList, List.zip_cons_cons, List.zip_nil_right,
          List.mem_singleton] at hpm
        subst hpm
        simp [hw]
    | succ k => exact ⟨[], rfl, List.Pairwise.nil, by simp [scan]⟩
  | cons c cs ih =>
    intro skip prev
    cases skip with
    | zero =>
      simp only [scan]
      cases hm : matchAt nodes prev (c :: cs) with
      | none =>
        obtain ⟨ps, hlen, hpw, _, hocc⟩ := shift c cs _ (ih 0 (some c))
        exact ⟨ps, hlen, hpw, hocc⟩
      | some m =>
        have hp := (matchAt_spec nodes prev (c :: cs) m hm).1
        obtain ⟨ps, hlen, hpw, hpos, hocc⟩ := shift c cs _ (ih (m.whole.length - 1) (some c))
        refine ⟨0 :: ps, by simp [hlen], List.pairwise_cons.2 ⟨hpos, hpw⟩, ?_⟩
        intro pm hpm
        simp only [List.zip_cons_cons, List.mem_cons] at hpm
        rcases hpm with e | e
        · subst e
          simp only [List.drop_zero, Nat.zero_add]
          exact ⟨(List.prefix_iff_eq_take.1 hp).symm, hp.length_le⟩
        · exact hocc pm e
    | succ k =>
      simp only [scan]
      obtain ⟨ps, hlen, hpw, _, hocc⟩ := shift c cs _ (ih k (some c))
      exact ⟨ps, hlen, hpw, hocc⟩

theorem server_glucosePatterns_sources :
    Server.glucosePatterns.map (fun rx => (rx.source, rx.lastIndex))
      = patternsInOrder.map (fun nodes => (nodes, 0)) := by
  decide

theorem client_glucosePatterns_eq : Client.glucosePatterns = Server.glucosePatterns := rfl

theorem patternResults_in_order (searched line : JSString) (i : Nat) :
    patternResults searched line i Server.glucosePatterns
      = patternsInOrder.flatMap (fun nodes =>
          (scan nodes 0 none searched).flatMap (recordOf line i)) := by
  have e : ∀ line idx, emitted line idx = recordOf line idx :=
    fun line idx => funext (emitted_eq_recordOf line idx)
  simp [patternResults, Server.glucosePatterns, patternsInOrder, matchAll, e]

theorem le_refl_of_not_nan (a : JSNumber) (ha : a.isNaN = false) : a.le a = true := by
  cases a <;> simp_all [JSNumber.le, JSNumber.isNaN]

theorem le_trans_jsnumber (a b c : JSNumber) (hab : a.le b = true) (hbc : b.le c = true) :
    a.le c = true := by
  cases a <;> cases b <;> cases c <;> simp_all [JSNumber.le]
  exact le_trans hab hbc

theorem le_total_of_not_nan (a b : JSNumber) (ha : a.isNaN = false) (hb : b.isNaN = false) :
    a.le b = true ∨ b.le a = true := by
  cases a <;> cases b <;> simp_all [JSNumber.le, JSNumber.isNaN]
  exact le_total _ _

theorem comesAfter_eq (a b : JSNumber) (ha : a.isNaN = false) (hb : b.isNaN = false) :
    comesAfter a b = !(a.le b) := by
  cases a <;> cases b <;>
    simp_all [comesAfter, JSNumber.sub, JSNumber.add, JSNumber.neg, JSNumber.le, JSNumber.isNaN]
  rename_i x y
  by_cases h : x ≤ y
  · simp [h, not_lt.2 h]
  · simp [h, not_le.1 h]

theorem insertSorted_perm (x : JSNumber) (l : List JSNumber) :
    (insertSorted x l).Perm (x :: l) := by
  induction l with
  | nil => exact List.Perm.refl _
  | cons y ys ih =>
    unfold insertSorted
    split
    · exact (List.Perm.cons y ih).trans (List.Perm.swap x y ys)
    · exact List.Perm.refl _

theorem sortNumeric_perm (l : List JSNumber) : (sortNumeric l).Perm l := by
  induction l with
  | nil => exact List.Perm.refl _
  | cons x xs ih =>
    show (insertSorted x (sortNumeric xs)).Perm (x :: xs)
    exact (insertSorted_perm x _).trans (List.Perm.cons x ih)

theorem insertSorted_sorted (x : JSNumber) (hx : x.isNaN = false) (l : List JSNumber)
    (hl : ∀ v ∈ l, v.isNaN = false) (hs : l.Pairwise (fun a b => a.le b = true)) :
    (insertSorted x l).Pairwise (fun a b => a.le b = true) := by
  induction l with
  | nil => exact List.pairwise_singleton _ _
  | cons y ys ih =>
    have hy := hl y (List.mem_cons_self _ _)
    have hys : ∀ v ∈ ys, v.isNaN = false := fun v hv => hl v (List.mem_cons_of_mem _ hv)
    obtain ⟨hyall, hsys⟩ := List.pairwise_cons.1 hs
    unfold insertSorted
    split
    · rename_i hc
      rw [comesAfter_eq x y hx hy] at hc
      have hyx : y.le x = true := by
        rcases le_total_of_not_nan x y hx hy with h | h
        · simp [h] at hc
        · exact h
      refine List.pairwise_cons.2 ⟨?_, ih hys hsys⟩
      intro v hv
      rcases List.mem_cons.1 ((insertSorted_perm x ys).mem_iff.1 hv) with e | e
      · rw [e]; exact hyx
      · exact hyall v e
    · rename_i hc
      rw [comesAfter_eq x y hx hy] at hc
      have hxy : x.le y = true := by simpa using hc
      refine List.pairwise_cons.2 ⟨?_, hs⟩
      intro v hv
      rcases List.mem_cons.1 hv with e | e
      · rw [e]; exact hxy
      · exact le_trans_jsnumber _ _ _ hxy (hyall v e)

theorem sortNumeric_sorted (l : List JSNumber) (hl : ∀ v ∈ l, v.isNaN = false) :
    (sortNumeric l).Pairwise (fun a b => a.le b = true) := by
  induction l with
  | nil => exact List.Pairwise.nil
  | cons x xs ih =>
    show (insertSorted x (sortNumeric xs)).Pairwise _
    apply insertSorted_sorted x (hl x (List.mem_cons_self _ _))
    · intro v hv
      exact hl v (List.mem_cons_of_mem _ ((sortNumeric_perm xs).mem_iff.1 hv))
    · exact ih (fun v hv => hl v (List.mem_cons_of_mem _ hv))

theorem foldl_min_spec (l : List JSNumber) (hl : ∀ v ∈ l, v.isNaN = false) :
    ∀ a : JSNumber, a.isNaN = false →
      (l.foldl JSNumber.min a).isNaN = false ∧
      (l.foldl JSNumber.min a = a ∨ l.foldl JSNumber.min a ∈ l) ∧
      (l.foldl JSNumber.min a).le a = true ∧
      ∀ v ∈ l, (l.foldl JSNumber.min a).le v = true := by
  induction l with
  | nil => intro a ha; exact ⟨ha, Or.inl rfl, le_refl_of_not_nan a ha, by simp⟩
  | cons x xs ih =>
    intro a ha
    have hx := hl x (List.mem_cons_self _ _)
    have hxs : ∀ v ∈ xs, v.isNaN = false := fun v hv => hl v (List.mem_cons_of_mem _ hv)
    have hmin : (a.min x).isNaN = false ∧ (a.min x = a ∨ a.min x = x) ∧
        (a.min x).le a = true ∧ (a.min x).le x = true := by
      unfold JSNumber.min
      simp only [ha, hx, Bool.or_self, Bool.false_eq_true, if_false]
      split
      · rename_i h
        exact ⟨ha, Or.inl rfl, le_refl_of_not_nan a ha, h⟩
      · rename_i h
        refine ⟨hx, Or.inr rfl, ?_, le_refl_of_not_nan x hx⟩
        rcases le_total_of_not_nan a x ha hx with h' | h'
        · exact absurd h' h
        · exact h'
    obtain ⟨h1, h2, h3, h4⟩ := ih hxs (a.min x) hmin.1
    simp only [List.foldl_cons]
    refine ⟨h1, ?_, le_trans_jsnumber _ _ _ h3 hmin.2.2.1, ?_⟩
    · rcases h2 with e | e
      · rcases hmin.2.1 with e' | e'
        · exact Or.inl (e.trans e')
        · exact Or.inr (by rw [e, e']; exact List.mem_cons_self _ _)
      · exact Or.inr (List.mem_cons_of_mem _ e)
    · intro v hv
      rcases List.mem_cons.1 hv with e | e
      · rw [e]; exact le_trans_jsnumber _ _ _ h3 hmin.2.2.2
      · exact h4 v e

theorem foldl_max_spec (l : List JSNumber) (hl : ∀ v ∈ l, v.isNaN = false) :
    ∀ a : JSNumber, a.isNaN = false →
      (l.foldl JSNumber.max a).isNaN = false ∧
      (l.foldl JSNumber.max a = a ∨ l.foldl JSNumber.max a ∈ l) ∧
      a.le (l.foldl JSNumber.max a) = true ∧
      ∀ v ∈ l, v.le (l.foldl JSNumber.max a) = true := by
  induction l with
  | nil => intro a ha; exact ⟨ha, Or.inl rfl, le_refl_of_not_nan a ha, by simp⟩
  | cons x xs ih =>
    intro a ha
    have hx := hl x (List.mem_cons_self _ _)
    have hxs : ∀ v ∈ xs, v.isNaN = false := fun v hv => hl v (List.mem_cons_of_mem _ hv)
    have hmax : (a.max x).isNaN = false ∧ (a.max x = a ∨ a.max x = x) ∧
        a.le (a.max x) = true ∧ x.le (a.max x) = true := by
      unfold JSNumber.max
      simp only [ha, hx, Bool.or_self, Bool.false_eq_true, if_false]
      split
      · rename_i h
        exact ⟨hx, Or.inr rfl, h, le_refl_of_not_nan x hx⟩
      · rename_i h
        refine ⟨ha, Or.inl rfl, le_refl_of_not_nan a ha, ?_⟩
        rcases le_total_of_not_nan a x ha hx with h' | h'
        · exact absurd h' h
        · exact h'
    obtain ⟨h1, h2, h3, h4⟩ := ih hxs (a.max x) hmax.1
    simp only [List.foldl_cons]
    refine ⟨h1, ?_, le_trans_jsnumber _ _ _ hmax.2.2.1 h3, ?_⟩
    · rcases h2 with e | e
      · rcases hmax.2.1 with e' | e'
        · exact Or.inl (e.trans e')
        · exact Or.inr (by rw [e, e']; exact List.mem_cons_self _ _)
      · exact Or.inr (List.mem_cons_of_mem _ e)
    · intro v hv
      rcases List.mem_cons.1 hv with e | e
      · rw [e]; exact le_trans_jsnumber _ _ _ hmax.2.2.2 h3
      · exact h4 v e

theorem mathMin_spec (l : List JSNumber) (hl : ∀ v ∈ l, v.isNaN = false) (hne : l ≠ []) :
    mathMin l ∈ l ∧ ∀ v ∈ l, (mathMin l).le v = true := by
  obtain ⟨_, h2, _, h4⟩ := foldl_min_spec l hl .posInf rfl
  refine ⟨?_, h4⟩
  rcases h2 with e | e
  · obtain ⟨v, hv⟩ := List.exists_mem_of_ne_nil l hne
    have hle := h4 v hv
    unfold mathMin
    rw [e] at hle ⊢
    have hvn := hl v hv
    cases v <;> simp_all [JSNumber.le, JSNumber.isNaN]
  · exact e

theorem mathMax_spec (l : List JSNumber) (hl : ∀ v ∈ l, v.isNaN = false) (hne : l ≠ []) :
    mathMax l ∈ l ∧ ∀ v ∈ l, v.le (mathMax l) = true := by
  obtain ⟨_, h2, _, h4⟩ := foldl_max_spec l hl .negInf rfl
  refine ⟨?_, h4⟩
  rcases h2 with e | e
  · obtain ⟨v, hv⟩ := List.exists_mem_of_ne_nil l hne
    have hle := h4 v hv
    unfold mathMax
    rw [e] at hle ⊢
    have hvn := hl v hv
    cases v <;> simp_all [JSNumber.le, JSNumber.isNaN]
  · exact e

theorem collectValues_eq (data : List Entry) :
    collectValues data = (data.flatMap (fun entry => entry.numericValues)).filterMap parsedItem := by
  have inner : ∀ (vals : List NumericValue) (acc : List ValueItem),
      vals.foldl (fun allValues val =>
        let numValue := parseFloat val.value
        if !numValue.isNaN then allValues ++ [{ value := numValue, unit := val.unit }]
        else allValues) acc = acc ++ vals.filterMap parsedItem := by
    intro vals
    induction vals with
    | nil => intro acc; simp
    | cons v vs ih =>
      intro acc
      simp only [List.foldl_cons, ih, List.filterMap_cons, parsedItem]
      split <;> simp
  have outer : ∀ (es : List Entry) (acc : List ValueItem),
      es.foldl (fun allValues entry =>
        entry.numericValues.foldl (fun allValues val =>
          let numValue := parseFloat val.value
          if !numValue.isNaN then allValues ++ [{ value := numValue, unit := val.unit }]
          else allValues) allValues) acc
        = acc ++ (es.flatMap (fun entry => entry.numericValues)).filterMap parsedItem := by
    intro es
    induction es with
    | nil => intro acc; simp
    | cons e es ih =>
      intro acc
      simp only [List.foldl_cons, List.flatMap_cons, List.filterMap_append]
      rw [ih, inner, List.append_assoc]
  unfold collectValues
  rw [outer]
  simp

theorem collectValues_not_nan (data : List Entry) :
    ∀ item ∈ collectValues data, item.value.isNaN = false := by
  intro item h
  rw [collectValues_eq, List.mem_filterMap] at h
  obtain ⟨val, _, hv⟩ := h
  unfold parsedItem at hv
  split at hv
  · rename_i hn
    simp only [Option.some.injEq] at hv
    subst hv
    simpa using hn
  · cases hv

theorem pushValue_keys (u : JSString) (v : JSNumber) (acc : List (JSString × List JSNumber)) :
    (pushValue u v acc).map Prod.fst
      = if u ∈ acc.map Prod.fst then acc.map Prod.fst else acc.map Prod.fst ++ [u] := by
  induction acc with
  | nil => simp [pushValue]
  | cons g rest ih =>
    obtain ⟨k, vs⟩ := g
    unfold pushValue
    by_cases hk : k = u
    · simp [hk]
    · have hk' : ¬ u = k := fun e => hk e.symm
      simp only [if_neg hk, List.map_cons, ih, List.mem_cons, hk', false_or]
      split <;> simp

theorem mem_pushValue (u : JSString) (v : JSNumber) (acc : List (JSString × List JSNumber))
    (hnd : (acc.map Prod.fst).Nodup) (g : JSString × List JSNumber)
    (hg : g ∈ pushValue u v acc) :
    (g.1 ≠ u ∧ g ∈ acc) ∨
    (g.1 = u ∧ ((∃ vs0, (u, vs0) ∈ acc ∧ g.2 = vs0 ++ [v]) ∨
      (u ∉ acc.map Prod.fst ∧ g.2 = [v]))) := by
  induction acc with
  | nil =>
    simp only [pushValue, List.mem_singleton] at hg
    subst hg
    exact Or.inr ⟨rfl, Or.inr ⟨by simp, rfl⟩⟩
  | cons h rest ih =>
    obtain ⟨k, vs⟩ := h
    have hnd' : k ∉ rest.map Prod.fst ∧ (rest.map Prod.fst).Nodup :=
      List.nodup_cons.1 hnd
    unfold pushValue at hg
    by_cases hk : k = u
    · rw [if_pos hk] at hg
      rcases List.mem_cons.1 hg with e | e
      · subst e
        exact Or.inr ⟨hk, Or.inl ⟨vs, by simp [hk], rfl⟩⟩
      · have hne : g.1 ≠ u := by
          intro e'
          apply hnd'.1
          rw [hk, ← e']
          exact List.mem_map_of_mem Prod.fst e
        exact Or.inl ⟨hne, List.mem_cons_of_mem _ e⟩
    · rw [if_neg hk] at hg
      rcases List.mem_cons.1 hg with e | e
      · subst e
        exact Or.inl ⟨hk, List.mem_cons_self _ _⟩
      · rcases ih hnd'.2 e with ⟨h1, h2⟩ | ⟨h1, h2 | h2⟩
        · exact Or.inl ⟨h1, List.mem_cons_of_mem _ h2⟩
        · obtain ⟨vs0, hv, e'⟩ := h2
          exact Or.inr ⟨h1, Or.inl ⟨vs0, List.mem_cons_of_mem _ hv, e'⟩⟩
        · refine Or.inr ⟨h1, Or.inr ⟨?_, h2.2⟩⟩
          simp only [List.map_cons, List.mem_cons, not_or]
          exact ⟨fun e' => hk e'.symm, h2.1⟩

theorem pushValue_total (u : JSString) (v : JSNumber) (acc : List (JSString × List JSNumber)) :
    ((pushValue u v acc).map (fun g => g.2.length)).sum
      = (acc.map (fun g => g.2.length)).sum + 1 := by
  induction acc with
  | nil => simp [pushValue]
  | cons g rest ih =>
    obtain ⟨k, vs⟩ := g
    unfold pushValue
    split
    · simp; omega
    · simp [ih]; omega

theorem valuesOfUnit_append (key : JSString) (items : List ValueItem) (x : ValueItem) :
    valuesOfUnit key (items ++ [x])
      = valuesOfUnit key items ++ (if toLowerCase x.unit = key then [x.value] else []) := by
  unfold valuesOfUnit
  rw [List.filter_append, List.map_append]
  congr 1
  by_cases h : toLowerCase x.unit = key <;> simp [List.filter_cons, h]

theorem grouped_push (acc : List (JSString × List JSNumber)) (items : List ValueItem)
    (x : ValueItem) (h : Grouped acc items) :
    Grouped (pushValue (toLowerCase x.unit) x.value acc) (items ++ [x]) := by
  obtain ⟨hnd, hval, hkey⟩ := h
  refine ⟨?_, ?_, ?_⟩
  · rw [pushValue_keys]
    split
    · exact hnd
    · rename_i hn
      rw [List.nodup_append]
      exact ⟨hnd, List.nodup_singleton _, by
        intro a ha hb
        rw [List.mem_singleton] at hb
        exact hn (hb ▸ ha)⟩
  · intro g hg
    rw [valuesOfUnit_append]
    rcases mem_pushValue _ _ acc hnd g hg with ⟨h1, h2⟩ | ⟨h1, h2 | h2⟩
    · have hne : ¬ toLowerCase x.unit = g.1 := fun e => h1 e.symm
      rw [if_neg hne, List.append_nil]
      exact hval g h2
    · obtain ⟨vs0, hv, e⟩ := h2
      have := (hval _ hv).1
      simp only at this
      rw [if_pos h1.symm, e, this, h1]
      exact ⟨rfl, by simp⟩
    · have hempty : valuesOfUnit g.1 items = [] := by
        unfold valuesOfUnit
        rw [List.map_eq_nil_iff, List.filter_eq_nil_iff]
        intro it hit
        simp only [decide_eq_true_eq]
        intro e
        apply h2.1
        rw [← h1, ← e]
        exact hkey it hit
      rw [if_pos h1.symm, hempty, h2.2]
      exact ⟨rfl, by simp⟩
  · intro it hit
    rw [pushValue_keys]
    rcases List.mem_append.1 hit with e | e
    · split
      · exact hkey it e
      · exact List.mem_append_left _ (hkey it e)
    · rw [List.mem_singleton] at e
      subst e
      split
      · assumption
      · simp

theorem groupByUnit_append (items : List ValueItem) (x : ValueItem) :
    groupByUnit (items ++ [x]) = pushValue (toLowerCase x.unit) x.value (groupByUnit items) := by
  simp [groupByUnit, List.foldl_append]

theorem groupByUnit_grouped (items : List ValueItem) : Grouped (groupByUnit items) items := by
  induction items using List.reverseRecOn with
  | nil => exact ⟨by simp [groupByUnit], by simp [groupByUnit], by simp⟩
  | append_singleton l a ih =>
    rw [groupByUnit_append]
    exact grouped_push _ _ _ ih

theorem groupByUnit_total (items : List ValueItem) :
    ((groupByUnit items).map (fun g => g.2.length)).sum = items.length := by
  induction items using List.reverseRecOn with
  | nil => simp [groupByUnit]
  | append_singleton l a ih =>
    rw [groupByUnit_append, pushValue_total, ih]
    simp

theorem valuesOfUnit_not_nan (key : JSString) (items : List ValueItem)
    (h : ∀ item ∈ items, item.value.isNaN = false) :
    ∀ v ∈ valuesOfUnit key items, v.isNaN = false := by
  intro v hv
  unfold valuesOfUnit at hv
  obtain ⟨it, hit, rfl⟩ := List.mem_map.1 hv
  exact h it (List.mem_filter.1 hit).1

theorem summaryStats_of_parseable (self : FBSExtractor)
    (h : collectValues self.extractedData ≠ []) :
    (calculateSummaryStats self).summaryStats
      = (groupByUnit (collectValues self.extractedData)).map (fun group =>
          (group.1, summarize group.1 group.2)) := by
  have hdata : ¬ self.extractedData.length = 0 := by
    intro e
    apply h
    rw [List.length_eq_zero] at e
    rw [e]
    rfl
  have hall : ¬ (collectValues self.extractedData).length = 0 := by
    rw [List.length_eq_zero]
    exact h
  simp only [calculateSummaryStats, if_neg hdata, if_neg hall]

theorem collectValues_ne_nil (data : List Entry)
    (h : ∃ entry ∈ data, ∃ val ∈ entry.numericValues, (parseFloat val.value).isNaN = false) :
    collectValues data ≠ [] := by
  obtain ⟨entry, he, val, hv, hn⟩ := h
  have hmem : (⟨parseFloat val.value, val.unit⟩ : ValueItem) ∈ collectValues data := by
    rw [collectValues_eq, List.mem_filterMap]
    exact ⟨val, List.mem_flatMap.2 ⟨entry, he, hv⟩, by simp [parsedItem, hn]⟩
  exact List.ne_nil_of_mem hmem

theorem valuesOfUnit_parsed (key : JSString) (vals : List NumericValue) :
    valuesOfUnit key (vals.filterMap parsedItem)
      = (vals.filter (fun val =>
          !(parseFloat val.value).isNaN && decide (toLowerCase val.unit = key))).map
          (fun val => parseFloat val.value) := by
  induction vals with
  | nil => rfl
  | cons v vs ih =>
    unfold valuesOfUnit at ih ⊢
    by_cases hn : (parseFloat v.value).isNaN = true
    · simp [List.filterMap_cons, parsedItem, hn, List.filter_cons, ih]
    · have hn' : (parseFloat v.value).isNaN = false := by simpa using hn
      by_cases hu : toLowerCase v.unit = key
      · simp [List.filterMap_cons, parsedItem, hn', List.filter_cons, hu, ih]
      · simp [List.filterMap_cons, parsedItem, hn', List.filter_cons, hu, ih]

theorem mem_summaryStats (self : FBSExtractor)
    (h : ∃ entry ∈ self.extractedData, ∃ val ∈ entry.numericValues,
      (parseFloat val.value).isNaN = false)
    (g : JSString × UnitSummary) (hg : g ∈ (calculateSummaryStats self).summaryStats) :
    g.2 = summarize g.1 (valuesOfUnit g.1 (collectValues self.extractedData)) ∧
    valuesOfUnit g.1 (collectValues self.extractedData) ≠ [] ∧
    ∀ v ∈ valuesOfUnit g.1 (collectValues self.extractedData), v.isNaN = false := by
  rw [summaryStats_of_parseable self (collectValues_ne_nil _ h), List.mem_map] at hg
  obtain ⟨grp, hgrp, rfl⟩ := hg
  obtain ⟨_, hval, _⟩ := groupByUnit_grouped (collectValues self.extractedData)
  obtain ⟨e, hne⟩ := hval grp hgrp
  refine ⟨by simp only; rw [← e], by simp only; rw [← e]; exact hne, ?_⟩
  exact valuesOfUnit_not_nan _ _ (collectValues_not_nan _)

theorem matchStar_run (a : Atom) (k : JSString → MatchState → Option MatchState) :
    ∀ input st st', matchStar a k input st = some st' →
      ∃ taken rest st1, (∀ c ∈ taken, a.test c = true) ∧ input = taken ++ rest ∧
        st1.consumed = taken.reverse ++ st.consumed ∧ st1.groupAt = st.groupAt ∧
        st1.group = st.group ∧ k rest st1 = some st' := by
  intro input
  induction input with
  | nil =>
    intro st st' h
    exact ⟨[], [], st, by simp, rfl, rfl, rfl, rfl, by simpa [matchStar] using h⟩
  | cons c cs ih =>
    intro st st' h
    unfold matchStar at h
    split at h
    · rename_i hc
      cases hm : matchStar a k cs (st.advance c) with
      | none =>
        rw [hm] at h
        exact ⟨[], c :: cs, st, by simp, rfl, rfl, rfl, rfl, h⟩
      | some r =>
        rw [hm] at h
        simp only [Option.some.injEq] at h
        subst h
        obtain ⟨taken, rest, st1, ht, hi, hcons, hga, hg, hk⟩ := ih _ _ hm
        refine ⟨c :: taken, rest, st1, ?_, by simp [hi], ?_, hga, hg, hk⟩
        · intro d hd
          rcases List.mem_cons.1 hd with e | e
          · rw [e]; exact hc
          · exact ht d e
        · simp [hcons, MatchState.advance]
    · exact ⟨[], c :: cs, st, by simp, rfl, rfl, rfl, rfl, h⟩

theorem matchNodes_group_eq (nodes : List Node) (hn : Node.groupClose ∉ nodes) :
    ∀ input st st', matchNodes nodes input st = some st' → st'.group = st.group := by
  induction nodes with
  | nil =>
    intro input st st' h
    simp only [matchNodes, Option.some.injEq] at h
    rw [h]
  | cons n ns ih =>
    have hns : Node.groupClose ∉ ns := fun e => hn (List.mem_cons_of_mem _ e)
    have ih' := ih hns
    intro input st st' h
    cases n with
    | wordBoundary =>
      simp only [matchNodes] at h
      split at h
      · exact (ih' _ _ _ h).trans rfl
      · cases h
    | one a =>
      simp only [matchNodes] at h
      cases input with
      | nil => cases h
      | cons c cs =>
        simp only at h
        split at h
        · exact (ih' _ _ _ h).trans rfl
        · cases h
    | opt a =>
      simp only [matchNodes] at h
      cases input with
      | nil => exact (ih' _ _ _ h).trans rfl
      | cons c cs =>
        simp only at h
        split at h
        · cases hm : matchNodes ns cs (st.advance c) with
          | none => rw [hm] at h; exact (ih' _ _ _ h).trans rfl
          | some r =>
            rw [hm] at h
            simp only [Option.some.injEq] at h
            subst h
            exact (ih' _ _ _ hm).trans rfl
        · exact (ih' _ _ _ h).trans rfl
    | star a =>
      simp only [matchNodes] at h
      obtain ⟨_, _, st1, _, _, _, _, hg, hk⟩ := matchStar_run a _ _ _ _ h
      rw [ih' _ _ _ hk, hg]
    | plus a =>
      simp only [matchNodes] at h
      cases input with
      | nil => cases h
      | cons c cs =>
        simp only at h
        split at h
        · obtain ⟨_, _, st1, _, _, _, _, hg, hk⟩ := matchStar_run a _ _ _ _ h
          rw [ih' _ _ _ hk, hg]
          rfl
        · cases h
    | groupOpen =>
      simp only [matchNodes] at h
      exact (ih' _ _ _ h).trans rfl
    | groupClose => exact absurd (List.mem_cons_self _ _) hn

theorem matchNodes_suffix (pre rest : List Node) :
    ∀ input st st', matchNodes (pre ++ rest) input st = some st' →
      ∃ input1 st1, matchNodes rest input1 st1 = some st' := by
  induction pre with
  | nil => intro input st st' h; exact ⟨input, st, h⟩
  | cons n ns ih =>
    intro input st st' h
    rw [List.cons_append] at h
    cases n with
    | wordBoundary =>
      simp only [matchNodes] at h
      split at h
      · exact ih _ _ _ h
      · cases h
    | one a =>
      simp only [matchNodes] at h
      cases input with
      | nil => cases h
      | cons c cs =>
        simp only at h
        split at h
        · exact ih _ _ _ h
        · cases h
    | opt a =>
      simp only [matchNodes] at h
      cases input with
      | nil => exact ih _ _ _ h
      | cons c cs =>
        simp only at h
        split at h
        · cases hm : matchNodes (ns ++ rest) cs (st.advance c) with
          | none => rw [hm] at h; exact ih _ _ _ h
          | some r =>
            rw [hm] at h
            simp only [Option.some.injEq] at h
            subst h
            exact ih _ _ _ hm
        · exact ih _ _ _ h
    | star a =>
      simp only [matchNodes] at h
      obtain ⟨_, _, st1, _, _, _, _, _, hk⟩ := matchStar_run a _ _ _ _ h
      exact ih _ _ _ hk
    | plus a =>
      simp only [matchNodes] at h
      cases input with
      | nil => cases h
      | cons c cs =>
        simp only at h
        split at h
        · obtain ⟨_, _, st1, _, _, _, _, _, hk⟩ := matchStar_run a _ _ _ _ h
          exact ih _ _ _ hk
        · cases h
    | groupOpen =>
      simp only [matchNodes] at h
      exact ih _ _ _ h
    | groupClose =>
      simp only [matchNodes] at h
      exact ih _ _ _ h

theorem point_of_test (c : Char) (h : (Atom.char '.').test c = true) : c = '.' := by
  simp only [Atom.test, canonicalize, beq_iff_eq] at h
  have hp : Char.toUpper '.' = '.' := by decide
  rw [hp] at h
  unfold Char.toUpper at h
  simp only at h
  split at h
  · rename_i hr
    have hc : c = Char.ofNat c.toNat := (Char.ofNat_toNat c).symm
    exfalso
    generalize c.toNat = n at hr h
    obtain ⟨h1, h2⟩ := hr
    interval_cases n <;> revert h <;> decide
  · exact h

theorem digit_toNat (c : Char) (h : c.isDigit = true) : 48 ≤ c.toNat ∧ c.toNat ≤ 57 := by
  simp only [Char.isDigit, Bool.and_eq_true, decide_eq_true_eq] at h
  exact ⟨h.1, h.2⟩

theorem digit_not_whiteSpace (c : Char) (h : c.isDigit = true) : isWhiteSpace c = false := by
  obtain ⟨h1, h2⟩ := digit_toNat c h
  unfold isWhiteSpace
  simp only [Bool.or_eq_false_iff, Bool.and_eq_false_imp, beq_eq_false_iff_ne, ne_eq,
    decide_eq_true_eq, decide_eq_false_iff_not]
  omega

theorem digit_ne (c : Char) (h : c.isDigit = true) (d : Char) (hd : d.toNat < 48 ∨ 57 < d.toNat) :
    c ≠ d := by
  obtain ⟨h1, h2⟩ := digit_toNat c h
  intro e
  rw [e] at h1 h2
  omega

theorem posInf_or_nonneg (b : Prop) [Decidable b] (x : ℚ) (hx : 0 ≤ x) :
    (∃ q : ℚ, (if b then JSNumber.posInf else JSNumber.finite x) = .finite q ∧ 0 ≤ q) ∨
    (if b then JSNumber.posInf else JSNumber.finite x) = .posInf := by
  by_cases h : b
  · right; rw [if_pos h]
  · left; rw [if_neg h]; exact ⟨x, rfl, hx⟩

theorem roundToDouble_nonneg (num den : Nat) :
    (∃ q : ℚ, roundToDouble num den = .finite q ∧ 0 ≤ q) ∨ roundToDouble num den = .posInf := by
  unfold roundToDouble
  by_cases h0 : num = 0
  · rw [if_pos h0]
    exact Or.inl ⟨0, rfl, le_refl _⟩
  · rw [if_neg h0]
    exact posInf_or_nonneg _ _ (Rat.mkRat_nonneg (Int.natCast_nonneg _) _)

theorem parseUnsigned_of_digit_head (c : Char) (t : JSString) (hc : c.isDigit = true) :
    (∃ q : ℚ, parseUnsigned (c :: t) = .finite q ∧ 0 ≤ q) ∨ parseUnsigned (c :: t) = .posInf := by
  have hI : c ≠ 'I' := digit_ne c hc 'I' (by decide)
  have hpre : "Infinity".toList.isPrefixOf (c :: t) = false := by
    have : "Infinity".toList = 'I' :: "nfinity".toList := by decide
    rw [this]
    simp [List.isPrefixOf, hI.symm]
  have hint : ((c :: t).takeWhile Char.isDigit).isEmpty = false := by
    simp [List.takeWhile_cons, hc]
  unfold parseUnsigned
  simp only [hpre, Bool.false_eq_true, if_false, hint, Bool.false_and]
  split
  · exact roundToDouble_nonneg _ _
  · split
    · exact roundToDouble_nonneg _ _
    · exact roundToDouble_nonneg _ _

theorem parseFloat_of_digit_head (c : Char) (t : JSString) (hc : c.isDigit = true) :
    (∃ q : ℚ, parseFloat (c :: t) = .finite q ∧ 0 ≤ q) ∨ parseFloat (c :: t) = .posInf := by
  have hw := digit_not_whiteSpace c hc
  have hplus : c ≠ '+' := digit_ne c hc '+' (by decide)
  have hminus : c ≠ '-' := digit_ne c hc '-' (by decide)
  unfold parseFloat
  simp only [List.dropWhile_cons, hw, Bool.false_eq_true, if_false, hplus, hminus]
  exact parseUnsigned_of_digit_head c t hc

theorem matchNodes_opt_run (a : Atom) (ns : List Node) :
    ∀ input st st', matchNodes (.opt a :: ns) input st = some st' →
      ∃ taken rest st1, (taken = [] ∨ ∃ c, taken = [c] ∧ a.test c = true) ∧
        input = taken ++ rest ∧ st1.consumed = taken.reverse ++ st.consumed ∧
        st1.groupAt = st.groupAt ∧ st1.group = st.group ∧
        matchNodes ns rest st1 = some st' := by
  intro input st st' h
  simp only [matchNodes] at h
  cases input with
  | nil => exact ⟨[], [], st, Or.inl rfl, rfl, rfl, rfl, rfl, h⟩
  | cons c cs =>
    simp only at h
    split at h
    · rename_i hc
      cases hm : matchNodes ns cs (st.advance c) with
      | none =>
        rw [hm] at h
        exact ⟨[], c :: cs, st, Or.inl rfl, rfl, rfl, rfl, rfl, h⟩
      | some r =>
        rw [hm] at h
        simp only [Option.some.injEq] at h
        subst h
        exact ⟨[c], cs, st.advance c, Or.inr ⟨c, rfl, hc⟩, rfl, rfl, rfl, rfl, hm⟩
    · exact ⟨[], c :: cs, st, Or.inl rfl, rfl, rfl, rfl, rfl, h⟩

theorem matchNodes_groupOpen (ns : List Node) (input : JSString) (st : MatchState) :
    matchNodes (.groupOpen :: ns) input st
      = matchNodes ns input { st with groupAt := st.consumed.length } := by
  simp only [matchNodes]

theorem matchNodes_groupClose (ns : List Node) (input : JSString) (st : MatchState) :
    matchNodes (.groupClose :: ns) input st
      = matchNodes ns input
          { st with
            group := some ((st.consumed.take (st.consumed.length - st.groupAt)).reverse) } := by
  simp only [matchNodes]

theorem matchNodes_star (a : Atom) (ns : List Node) (input : JSString) (st : MatchState) :
    matchNodes (.star a :: ns) input st = matchStar a (matchNodes ns) input st := by
  simp only [matchNodes]

theorem matchNodes_plus_cons (a : Atom) (ns : List Node) (c : Char) (cs : JSString)
    (st : MatchState) :
    matchNodes (.plus a :: ns) (c :: cs) st
      = if a.test c = true then matchStar a (matchNodes ns) cs (st.advance c) else none := by
  simp only [matchNodes]

theorem matchNodes_plus_nil (a : Atom) (ns : List Node) (st : MatchState) :
    matchNodes (.plus a :: ns) [] st = none := by
  simp only [matchNodes]

theorem matchNodes_numberGroup (post : List Node) (hpost : Node.groupClose ∉ post) :
    ∀ input st st', matchNodes (numberGroup ++ post) input st = some st' →
      ∃ g, st'.group = some g ∧ IsNumberText g := by
  intro input st st' h
  have e : numberGroup ++ post
      = .groupOpen :: .plus .digit :: .opt (.char '.') :: .star .digit :: .groupClose :: post :=
    rfl
  rw [e, matchNodes_groupOpen] at h
  cases input with
  | nil => rw [matchNodes_plus_nil] at h; cases h
  | cons c cs =>
    rw [matchNodes_plus_cons] at h
    split at h
    · rename_i hc
      obtain ⟨ds, rest1, st1, hds, _, hc1, hga1, _, h1⟩ := matchStar_run _ _ _ _ _ h
      obtain ⟨pt, rest2, st2, hpt, _, hc2, hga2, _, h2⟩ := matchNodes_opt_run _ _ _ _ _ h1
      rw [matchNodes_star] at h2
      obtain ⟨fs, rest3, st3, hfs, _, hc3, hga3, _, h3⟩ := matchStar_run _ _ _ _ _ h2
      rw [matchNodes_groupClose] at h3
      have hg := matchNodes_group_eq post hpost _ _ _ h3
      simp only at hg
      have hcons : st3.consumed = (c :: ds ++ pt ++ fs).reverse ++ st.consumed := by
        rw [hc3, hc2, hc1]
        simp [MatchState.advance]
      have hat : st3.groupAt = st.consumed.length := by
        rw [hga3, hga2, hga1]
        rfl
      have htake : (st3.consumed.take (st3.consumed.length - st3.groupAt)).reverse
          = c :: ds ++ pt ++ fs := by
        rw [hat, hcons]
        have hl : ((c :: ds ++ pt ++ fs).reverse ++ st.consumed).length - st.consumed.length
            = ((c :: ds ++ pt ++ fs).reverse).length := by
          simp
          omega
        rw [hl, List.take_left', List.reverse_reverse]
        rfl
      refine ⟨c :: ds ++ pt ++ fs, by rw [hg, htake], ?_⟩
      have hdig : ∀ d ∈ c :: ds, d.isDigit = true := by
        intro d hd
        rcases List.mem_cons.1 hd with e' | e'
        · rw [e']; exact hc
        · exact hds d e'
      rcases hpt with hp | ⟨p, hp, htest⟩
      · refine ⟨c :: ds ++ fs, [], by simp, ?_, by simp, Or.inl (by simp [hp])⟩
        intro d hd
        rcases List.mem_append.1 hd with e' | e'
        · exact hdig d e'
        · exact hfs d e'
      · have hpoint := point_of_test p htest
        refine ⟨c :: ds, fs, by simp, hdig, hfs, Or.inr ?_⟩
        rw [hp, hpoint]
        simp
    · cases h

theorem pattern_shapes :
    ∀ nodes ∈ patternsInOrder, ∃ pre post, nodes = pre ++ (numberGroup ++ post) ∧
      Node.groupClose ∉ post := by
  intro nodes hn
  simp only [patternsInOrder, List.mem_cons, List.mem_singleton, List.not_mem_nil,
    or_false] at hn
  rcases hn with rfl | rfl | rfl | rfl | rfl
  · exact ⟨[Node.wordBoundary], [Node.star Atom.space] ++ literal "mg/dL", by decide, by decide⟩
  · exact ⟨[Node.wordBoundary], [Node.star Atom.space] ++ literal "mmol/L", by decide,
      by decide⟩
  · exact ⟨literal "glucose"
        ++ [Node.star Atom.space, Node.opt (Atom.char ':'), Node.star Atom.space], [],
      by decide, by decide⟩
  · exact ⟨literal "FBS"
        ++ [Node.star Atom.space, Node.opt (Atom.char ':'), Node.star Atom.space], [],
      by decide, by decide⟩
  · exact ⟨literal "HbA1c"
        ++ [Node.star Atom.space, Node.opt (Atom.char ':'), Node.star Atom.space], [],
      by decide, by decide⟩

theorem matchAt_numberText (nodes : List Node) (hn : nodes ∈ patternsInOrder)
    (prev : Option Char) (input : JSString) (m : Match)
    (h : matchAt nodes prev input = some m) :
    ∃ g, m.group1 = some g ∧ IsNumberText g := by
  obtain ⟨pre, post, e, hpost⟩ := pattern_shapes nodes hn
  unfold matchAt at h
  cases hm : matchNodes nodes input { prev := prev, consumed := [], groupAt := 0, group := none } with
  | none => rw [hm] at h; cases h
  | some st =>
    rw [hm] at h
    simp only [Option.some.injEq] at h
    subst h
    rw [e] at hm
    obtain ⟨input1, st1, h1⟩ := matchNodes_suffix pre _ _ _ _ hm
    exact matchNodes_numberGroup post hpost _ _ _ h1

theorem matchNodes_atoms (nodes : List Node) :
    ∀ input st st', matchNodes nodes input st = some st' →
      ∃ p : JSString, st'.consumed = p.reverse ++ st.consumed ∧
        ∀ c ∈ p, ∃ a ∈ atomsOf nodes, a.test c = true := by
  induction nodes with
  | nil =>
    intro input st st' h
    simp only [matchNodes, Option.some.injEq] at h
    subst h
    exact ⟨[], rfl, by simp⟩
  | cons n ns ih =>
    intro input st st' h
    have keep : ∀ (a : Atom) (s : MatchState),
        (∃ p : JSString, st'.consumed = p.reverse ++ s.consumed ∧
          ∀ c ∈ p, ∃ b ∈ atomsOf ns, b.test c = true) →
        ∀ taken : JSString, (∀ c ∈ taken, a.test c = true) →
          s.consumed = taken.reverse ++ st.consumed →
          ∃ p : JSString, st'.consumed = p.reverse ++ st.consumed ∧
            ∀ c ∈ p, ∃ b ∈ a :: atomsOf ns, b.test c = true := by
      rintro a s ⟨p, hp, hall⟩ taken ht hs
      refine ⟨taken ++ p, by rw [hp, hs]; simp, ?_⟩
      intro c hc
      rcases List.mem_append.1 hc with e | e
      · exact ⟨a, List.mem_cons_self _ _, ht c e⟩
      · obtain ⟨b, hb, hbt⟩ := hall c e
        exact ⟨b, List.mem_cons_of_mem _ hb, hbt⟩
    cases n with
    | wordBoundary =>
      simp only [matchNodes] at h
      split at h
      · exact ih _ _ _ h
      · cases h
    | one a =>
      simp only [matchNodes] at h
      cases input with
      | nil => cases h
      | cons c cs =>
        simp only at h
        split at h
        · rename_i hc
          exact keep a _ (ih _ _ _ h) [c] (by simpa using hc) rfl
        · cases h
    | opt a =>
      obtain ⟨taken, _, st1, ht, _, hcons, _, _, hk⟩ := matchNodes_opt_run a ns _ _ _ h
      refine keep a _ (ih _ _ _ hk) taken ?_ hcons
      rcases ht with e | ⟨c, e, hc⟩
      · simp [e]
      · simpa [e] using hc
    | star a =>
      rw [matchNodes_star] at h
      obtain ⟨taken, _, st1, ht, _, hcons, _, _, hk⟩ := matchStar_run a _ _ _ _ h
      exact keep a _ (ih _ _ _ hk) taken ht hcons
    | plus a =>
      cases input with
      | nil => rw [matchNodes_plus_nil] at h; cases h
      | cons c cs =>
        rw [matchNodes_plus_cons] at h
        split at h
        · rename_i hc
          obtain ⟨taken, _, st1, ht, _, hcons, _, _, hk⟩ := matchStar_run a _ _ _ _ h
          refine keep a _ (ih _ _ _ hk) (c :: taken) ?_ (by rw [hcons]; simp [MatchState.advance])
          intro d hd
          rcases List.mem_cons.1 hd with e | e
          · rw [e]; exact hc
          · exact ht d e
        · cases h
    | groupOpen =>
      rw [matchNodes_groupOpen] at h
      obtain ⟨p, hp, hall⟩ := ih _ _ _ h
      exact ⟨p, hp, hall⟩
    | groupClose =>
      rw [matchNodes_groupClose] at h
      obtain ⟨p, hp, hall⟩ := ih _ _ _ h
      exact ⟨p, hp, hall⟩

theorem matchAt_atoms (nodes : List Node) (prev : Option Char) (input : JSString) (m : Match)
    (h : matchAt nodes prev input = some m) :
    ∀ c ∈ m.whole, ∃ a ∈ atomsOf nodes, a.test c = true := by
  unfold matchAt at h
  cases hm : matchNodes nodes input { prev := prev, consumed := [], groupAt := 0, group := none } with
  | none => rw [hm] at h; cases h
  | some st =>
    rw [hm] at h
    simp only [Option.some.injEq] at h
    subst h
    obtain ⟨p, hp, hall⟩ := matchNodes_atoms nodes _ _ _ hm
    intro c hc
    simp only [hp, List.append_nil, List.reverse_reverse] at hc
    exact hall c hc

theorem label_whole_has_no_mmol (nodes : List Node) (hn : nodes ∈ labelPatterns)
    (prev : Option Char) (input : JSString) (m : Match)
    (h : matchAt nodes prev input = some m) : unitOf m.whole = "mg/dL".toList := by
  rw [(unitOf_iff m.whole).2]
  intro hin
  have hm : 'm' ∈ m.whole := hin.subset (by decide)
  obtain ⟨a, ha, hat⟩ := matchAt_atoms nodes prev input m h 'm' hm
  have hall : ∀ ns ∈ labelPatterns, ∀ b ∈ atomsOf ns, b.test 'm' = false := by decide
  rw [hall nodes hn a ha] at hat
  cases hat

theorem sources_in_order :
    (∀ rx ∈ Server.glucosePatterns, rx.source ∈ patternsInOrder ∧ rx.lastIndex = 0) ∧
    (∀ rx ∈ Client.glucosePatterns, rx.source ∈ patternsInOrder ∧ rx.lastIndex = 0) := by
  decide

theorem parse_of_match (rx : RegExp)
    (hrx : rx ∈ Server.glucosePatterns ∨ rx ∈ Client.glucosePatterns)
    (searched : JSString) (m : Match) (hm : m ∈ (matchAll searched rx).1) :
    ∃ g, m.group1 = some g ∧ IsNumberText g ∧
      ((∃ q : ℚ, parseFloat (groupToString m.group1) = .finite q ∧ 0 ≤ q) ∨
        parseFloat (groupToString m.group1) = .posInf) := by
  have hsrc : rx.source ∈ patternsInOrder := by
    rcases hrx with h | h
    · exact (sources_in_order.1 rx h).1
    · exact (sources_in_order.2 rx h).1
  obtain ⟨prev', input', hmatch⟩ := mem_scan rx.source m searched _ _ hm
  obtain ⟨g, hg, htext⟩ := matchAt_numberText rx.source hsrc prev' input' m hmatch
  refine ⟨g, hg, htext, ?_⟩
  rw [hg]
  simp only [groupToString]
  obtain ⟨ds, fs, hne, hds, _, hshape⟩ := htext
  cases ds with
  | nil => exact absurd rfl hne
  | cons c t =>
    have hc := hds c (List.mem_cons_self _ _)
    rcases hshape with e | e
    · rw [e]; exact parseFloat_of_digit_head c t hc
    · rw [e]; exact parseFloat_of_digit_head c _ hc

theorem dropped_only_out_of_range (x : JSNumber)
    (hx : (∃ q : ℚ, x = .finite q ∧ 0 ≤ q) ∨ x = .posInf)
    (h : (x.ge (.finite 30) && x.le (.finite 500)) = false) :
    x.lt (.finite 30) = true ∨ x.gt (.finite 500) = true := by
  rcases hx with ⟨q, rfl, _⟩ | rfl
  · simp only [JSNumber.ge, JSNumber.le, JSNumber.lt, JSNumber.gt, Bool.and_eq_false_imp,
      decide_eq_true_eq, decide_eq_false_iff_not, not_le] at h ⊢
    by_cases h30 : (30 : ℚ) ≤ q
    · exact Or.inr (h h30)
    · exact Or.inl (not_le.1 h30)
  · right; rfl

theorem recordOf_eq_nil (line : JSString) (i : Nat) (m : Match) :
    recordOf line i m = [] ↔
      ((parseFloat (groupToString m.group1)).ge (.finite 30)
        && (parseFloat (groupToString m.group1)).le (.finite 500)) = false := by
  unfold recordOf
  split
  · rename_i h
    simp [h]
  · rename_i h
    simpa using h

theorem server_client_fbsFound (line : JSString) :
    Client.fbsFound line = Server.fbsFound line := rfl

theorem server_contextOf_single (text : JSString) : Server.contextOf [text] 0 = text := by
  simp [Server.contextOf, join, slice, List.intercalate, List.intersperse]

theorem mem_valuesOfUnit (key : JSString) (items : List ValueItem) (v : JSNumber)
    (h : v ∈ valuesOfUnit key items) :
    ∃ item ∈ items, toLowerCase item.unit = key ∧ item.value = v := by
  unfold valuesOfUnit at h
  obtain ⟨item, hi, rfl⟩ := List.mem_map.1 h
  rw [List.mem_filter] at hi
  exact ⟨item, hi.1, by simpa using hi.2, rfl⟩

theorem mem_collectValues (data : List Entry) (item : ValueItem) :
    item ∈ collectValues data ↔
      ∃ val ∈ data.flatMap (fun entry => entry.numericValues),
        (parseFloat val.value).isNaN = false ∧
        item = { value := parseFloat val.value, unit := val.unit } := by
  rw [collectValues_eq, List.mem_filterMap]
  constructor
  · rintro ⟨val, hv, hp⟩
    unfold parsedItem at hp
    split at hp
    · rename_i hn
      simp only [Option.some.injEq] at hp
      exact ⟨val, hv, by simpa using hn, hp.symm⟩
    · cases hp
  · rintro ⟨val, hv, hn, rfl⟩
    exact ⟨val, hv, by simp [parsedItem, hn]⟩

theorem summaryStats_keys (self : FBSExtractor)
    (h : ∃ entry ∈ self.extractedData, ∃ val ∈ entry.numericValues,
      (parseFloat val.value).isNaN = false) :
    (calculateSummaryStats self).summaryStats.map Prod.fst
      = (groupByUnit (collectValues self.extractedData)).map Prod.fst := by
  rw [summaryStats_of_parseable self (collectValues_ne_nil _ h), List.map_map]
  rfl

theorem sum_bounds (qs : List ℚ) (a : ℚ) :
    ((∀ b ∈ qs, a ≤ b) → (qs.length : ℚ) * a ≤ qs.sum) ∧
    ((∀ b ∈ qs, b ≤ a) → qs.sum ≤ (qs.length : ℚ) * a) := by
  induction qs with
  | nil => simp
  | cons q rest ih =>
    constructor
    · intro h
      have h1 := h q (List.mem_cons_self _ _)
      have h2 := ih.1 (fun b hb => h b (List.mem_cons_of_mem _ hb))
      simp only [List.length_cons, List.sum_cons, Nat.cast_add, Nat.cast_one]
      linarith
    · intro h
      have h1 := h q (List.mem_cons_self _ _)
      have h2 := ih.2 (fun b hb => h b (List.mem_cons_of_mem _ hb))
      simp only [List.length_cons, List.sum_cons, Nat.cast_add, Nat.cast_one]
      linarith

theorem mean_between (qs : List ℚ) (hne : qs ≠ []) (lo hi : JSNumber)
    (hlo : lo ∈ qs.map JSNumber.finite) (hlo' : ∀ v ∈ qs.map JSNumber.finite, lo.le v = true)
    (hhi : hi ∈ qs.map JSNumber.finite) (hhi' : ∀ v ∈ qs.map JSNumber.finite, v.le hi = true) :
    lo.le (.finite (qs.sum / (qs.length : ℚ))) = true ∧
    (JSNumber.finite (qs.sum / (qs.length : ℚ))).le hi = true := by
  obtain ⟨a, _, rfl⟩ := List.mem_map.1 hlo
  obtain ⟨b, _, rfl⟩ := List.mem_map.1 hhi
  have hpos : (0 : ℚ) < (qs.length : ℚ) := by
    have := List.length_pos.2 hne
    exact_mod_cast this
  have ha : ∀ x ∈ qs, a ≤ x := by
    intro x hx
    have := hlo' (.finite x) (List.mem_map_of_mem _ hx)
    simpa [JSNumber.le] using this
  have hb : ∀ x ∈ qs, x ≤ b := by
    intro x hx
    have := hhi' (.finite x) (List.mem_map_of_mem _ hx)
    simpa [JSNumber.le] using this
  have h1 := (sum_bounds qs a).1 ha
  have h2 := (sum_bounds qs b).2 hb
  simp only [JSNumber.le, decide_eq_true_eq]
  constructor
  · rw [le_div_iff₀ hpos]; linarith
  · rw [div_le_iff₀ hpos]; linarith

theorem lt_eq_not_le (a b : JSNumber) (ha : a.isNaN = false) (hb : b.isNaN = false) :
    a.lt b = !(b.le a) := by
  cases a <;> cases b <;> simp_all [JSNumber.lt, JSNumber.le, JSNumber.isNaN]
  rename_i x y
  by_cases h : x < y
  · simp [h, not_le.2 h]
  · simp [h, not_lt.1 h]

theorem inOneClass_of_ordered (settings : Settings) (r : Reading)
    (hr : r.glucose.isNaN = false) (hmin : settings.normalMin.isNaN = false)
    (hmax : settings.normalMax.isNaN = false)
    (hle : settings.normalMin.le settings.normalMax = true) :
    inOneClass settings r = true := by
  have hlow := lt_eq_not_le r.glucose settings.normalMin hr hmin
  have hhigh : r.glucose.gt settings.normalMax = !(r.glucose.le settings.normalMax) :=
    lt_eq_not_le settings.normalMax r.glucose hmax hr
  have hge : r.glucose.ge settings.normalMin = settings.normalMin.le r.glucose := rfl
  simp only [inOneClass, hlow, hhigh, hge]
  cases hp : settings.normalMin.le r.glucose <;> cases hq : r.glucose.le settings.normalMax
  · exfalso
    have h1 : settings.normalMax.le r.glucose = true := by
      rcases le_total_of_not_nan r.glucose settings.normalMax hr hmax with h | h
      · rw [hq] at h; cases h
      · exact h
    have := le_trans_jsnumber _ _ _ hle h1
    rw [hp] at this
    cases this
  · rfl
  · rfl
  · rfl

theorem counts_add_up (settings : Settings) (data : List Reading)
    (h : ∀ r ∈ data, inOneClass settings r = true) :
    (data.filter (fun r => r.glucose.lt settings.normalMin)).length
      + (data.filter (fun r =>
          r.glucose.ge settings.normalMin && r.glucose.le settings.normalMax)).length
      + (data.filter (fun r => r.glucose.gt settings.normalMax)).length
      = data.length := by
  induction data with
  | nil => rfl
  | cons r rest ih =>
    have hr := h r (List.mem_cons_self _ _)
    have ih' := ih (fun x hx => h x (List.mem_cons_of_mem _ hx))
    simp only [inOneClass] at hr
    simp only [List.filter_cons, List.length_cons]
    cases h1 : r.glucose.lt settings.normalMin <;>
      cases h2 : (r.glucose.ge settings.normalMin && r.glucose.le settings.normalMax) <;>
      cases h3 : r.glucose.gt settings.normalMax <;>
      simp_all <;> omega

theorem log2_of_bounds (n k : Nat) (h1 : 2 ^ k ≤ n) (h2 : n < 2 ^ (k + 1)) : Nat.log2 n = k := by
  rw [Nat.log2_eq_log_two]
  exact Nat.log_eq_of_pow_le_of_lt_pow h1 h2

theorem roundToDouble_of_bounds (num den k l : Nat) (hk1 : 2 ^ k ≤ num) (hk2 : num < 2 ^ (k + 1))
    (hl1 : 2 ^ l ≤ den) (hl2 : den < 2 ^ (l + 1)) :
    roundToDouble num den =
      if num = 0 then .finite 0
      else
        let d : Int := (k : Int) - (l : Int)
        let b : Int := if den * 2 ^ d.toNat ≤ num * 2 ^ (-d).toNat then d else d - 1
        let p : Int := max b (-1022) - 52
        let sn := num * 2 ^ (-p).toNat
        let sd := den * 2 ^ p.toNat
        let q := sn / sd
        let r := sn % sd
        let m := if 2 * r < sd then q else if sd < 2 * r then q + 1
                 else if q % 2 = 0 then q else q + 1
        if 2 ^ 1024 * 2 ^ (-p).toNat ≤ m * 2 ^ p.toNat then .posInf
        else .finite (mkRat ((m * 2 ^ p.toNat : Nat) : Int) (2 ^ (-p).toNat)) := by
  unfold roundToDouble binaryExponent
  rw [log2_of_bounds num k hk1 hk2, log2_of_bounds den l hl1 hl2]

theorem toDouble_finite (q : ℚ) (num den : Nat) (h0 : 0 ≤ q) (hn : q.num.toNat = num)
    (hd : q.den = den) : (JSNumber.finite q).toDouble = roundToDouble num den := by
  subst hn hd
  simp [JSNumber.toDouble, h0]

theorem sum_step1 : (JSNumber.finite 0).addDouble tenth = tenth := by
  show (JSNumber.finite (0 + mkRat 3602879701896397 36028797018963968)).toDouble = _
  rw [toDouble_finite _ 3602879701896397 36028797018963968 (by decide!) (by decide!) (by decide!),
    roundToDouble_of_bounds _ _ 51 55 (by norm_num) (by norm_num) (by norm_num) (by norm_num)]
  decide!

theorem sum_step2 : tenth.addDouble tenth
    = .finite (mkRat 3602879701896397 18014398509481984) := by
  show (JSNumber.finite (mkRat 3602879701896397 36028797018963968
    + mkRat 3602879701896397 36028797018963968)).toDouble = _
  rw [toDouble_finite _ 3602879701896397 18014398509481984 (by decide!) (by decide!) (by decide!),
    roundToDouble_of_bounds _ _ 51 54 (by norm_num) (by norm_num) (by norm_num) (by norm_num)]
  decide!

theorem sum_step3 : (JSNumber.finite (mkRat 3602879701896397 18014398509481984)).addDouble tenth
    = .finite (mkRat 1351079888211149 4503599627370496) := by
  show (JSNumber.finite (mkRat 3602879701896397 18014398509481984
    + mkRat 3602879701896397 36028797018963968)).toDouble = _
  rw [toDouble_finite _ 10808639105689191 36028797018963968 (by decide!) (by decide!)
      (by decide!),
    roundToDouble_of_bounds _ _ 53 55 (by norm_num) (by norm_num) (by norm_num) (by norm_num)]
  decide!

theorem divLength_finite (q : ℚ) (n : Nat) :
    (JSNumber.finite q).divLength (n + 1) = .finite (q / ((n + 1 : Nat) : ℚ)) :=
  rfl

theorem quotient_exact :
    (JSNumber.finite (mkRat 1351079888211149 4503599627370496 / ((2 + 1 : Nat) : ℚ))).toDouble
      = roundToDouble 1351079888211149 13510798882111488 :=
  toDouble_finite _ 1351079888211149 13510798882111488 (by decide!) (by decide!) (by decide!)

theorem quotient_rounded :
    roundToDouble 1351079888211149 13510798882111488
      = .finite (mkRat 7205759403792795 72057594037927936) := by
  rw [roundToDouble_of_bounds _ _ 50 53 (by norm_num) (by norm_num) (by norm_num) (by norm_num)]
  decide!

theorem quotient_step :
    ((JSNumber.finite (mkRat 1351079888211149 4503599627370496)).divLength 3).toDouble
      = .finite (mkRat 7205759403792795 72057594037927936) := by
  rw [divLength_finite _ 2]
  exact quotient_exact.trans quotient_rounded

theorem meanOfDoubles_tenths :
    meanOfDoubles [tenth, tenth, tenth]
      = .finite (mkRat 7205759403792795 72057594037927936) := by
  rw [meanOfDoubles, List.foldl_cons, List.foldl_cons, List.foldl_cons, List.foldl_nil,
    sum_step1, sum_step2, sum_step3, show [tenth, tenth, tenth].length = 3 from rfl]
  exact quotient_step

theorem tenthReadings_summary :
    (calculateSummaryStats ⟨tenthReadings, []⟩).summaryStats.map
        (fun g => (g.2.values, g.2.max))
      = [([tenth, tenth, tenth], tenth)] := by
  decide!

theorem binaryExponent_nat (n : Nat) (h0 : n ≠ 0) :
    binaryExponent n 1 = (Nat.log2 n : Int) := by
  have hb1 : 2 ^ Nat.log2 n ≤ n := by
    rw [Nat.log2_eq_log_two]
    exact Nat.pow_log_le_self 2 h0
  have h1 : Nat.log2 1 = 0 := by
    rw [Nat.log2_eq_log_two]
    simp
  unfold binaryExponent
  rw [h1]
  simp [hb1]

theorem roundToDouble_nat (n : Nat) (h : n < 2 ^ 53) : roundToDouble n 1 = .finite (n : ℚ) := by
  by_cases h0 : n = 0
  · subst h0
    simp [roundToDouble]
  · have hb2 : Nat.log2 n ≤ 52 := by
      rw [Nat.log2_eq_log_two]
      have : Nat.log 2 n < 53 := Nat.log_lt_of_lt_pow h0 h
      omega
    unfold roundToDouble
    rw [if_neg h0, binaryExponent_nat n h0]
    generalize Nat.log2 n = b at hb2
    have hp : max (b : Int) (-1022) - 52 = -((52 - b : Nat) : Int) := by omega
    simp only [hp, neg_neg, Int.toNat_ofNat, Int.toNat_neg_nat, pow_zero, mul_one, Nat.div_one,
      Nat.mod_one, Nat.mul_zero, Nat.zero_lt_one, if_true]
    have hlt : ¬ 2 ^ 1024 * 2 ^ (52 - b) ≤ n * 2 ^ (52 - b) := by
      intro hle
      have hle' := Nat.le_of_mul_le_mul_right hle (Nat.two_pow_pos _)
      have h53 : 53 ≤ 1024 := by decide
      have h' : (2 : Nat) ^ 53 ≤ 2 ^ 1024 := pow_le_pow_right₀ (show (1 : Nat) ≤ 2 by decide) h53
      exact Nat.lt_irrefl _ (Nat.lt_of_lt_of_le (Nat.lt_of_lt_of_le h h') hle')
    rw [if_neg hlt]
    congr 1
    rw [Rat.mkRat_eq_div]
    push_cast
    field_simp


theorem toDouble_nat (n : Nat) (h : n < 2 ^ 53) :
    (JSNumber.finite (n : ℚ)).toDouble = .finite (n : ℚ) := by
  have h0 : (0 : ℚ) ≤ (n : ℚ) := Nat.cast_nonneg n
  simp only [JSNumber.toDouble, if_pos h0, Rat.num_natCast, Int.toNat_ofNat, Rat.den_natCast]
  exact roundToDouble_nat n h

theorem foldl_addDouble_nat (ns : List Nat) :
    ∀ a : Nat, a + ns.sum < 2 ^ 53 →
      (ns.map (fun n : Nat => JSNumber.finite (n : ℚ))).foldl JSNumber.addDouble (.finite (a : ℚ))
        = .finite ((a + ns.sum : Nat) : ℚ) := by
  induction ns with
  | nil => intro a _; simp
  | cons n ns ih =>
    intro a h
    rw [List.sum_cons, ← Nat.add_assoc] at h
    have hstep : (JSNumber.finite (a : ℚ)).addDouble (.finite (n : ℚ))
        = .finite ((a + n : Nat) : ℚ) := by
      have e : (JSNumber.finite (a : ℚ)).add (.finite (n : ℚ)) = .finite ((a + n : Nat) : ℚ) := by
        simp [JSNumber.add]
      rw [JSNumber.addDouble, e]
      exact toDouble_nat _ (by omega)
    rw [List.map_cons, List.foldl_cons, hstep, ih _ h, List.sum_cons, Nat.add_assoc]

theorem meanOfDoubles_nat (ns : List Nat) (hne : ns ≠ []) (h : ns.sum < 2 ^ 53) :
    meanOfDoubles (ns.map (fun n : Nat => JSNumber.finite (n : ℚ)))
      = (JSNumber.finite ((ns.sum : ℚ) / (ns.length : ℚ))).toDouble := by
  have hs := foldl_addDouble_nat ns 0 (by simpa using h)
  simp only [Nat.cast_zero, Nat.zero_add] at hs
  rw [meanOfDoubles, hs, List.length_map]
  cases ns with
  | nil => exact absurd rfl hne
  | cons n rest => simp [JSNumber.divLength]

theorem log2_bounds (n : Nat) (h0 : n ≠ 0) : 2 ^ Nat.log2 n ≤ n ∧ n < 2 ^ (Nat.log2 n + 1) := by
  rw [Nat.log2_eq_log_two]
  exact ⟨Nat.pow_log_le_self 2 h0, Nat.lt_pow_succ_log_self (by decide) n⟩

theorem binaryExponent_le (num den hi : Nat) (h0 : num ≠ 0) (hden : den ≠ 0)
    (hhi : hi < 2 ^ 53) (h2 : num ≤ hi * den) : binaryExponent num den ≤ 52 := by
  obtain ⟨hn1, hn2⟩ := log2_bounds num h0
  obtain ⟨hd1, hd2⟩ := log2_bounds den hden
  have hlt : num < 2 ^ 53 * den := by
    refine lt_of_le_of_lt h2 ?_
    exact Nat.mul_lt_mul_of_pos_right hhi (Nat.pos_of_ne_zero hden)
  unfold binaryExponent
  generalize Nat.log2 num = a at hn1 hn2
  generalize Nat.log2 den = c at hd1 hd2
  simp only
  by_contra hcon
  have hac : a < c + 54 := by
    by_contra hge
    have hge' : c + 54 ≤ a := by omega
    have h1 : 2 ^ (c + 54) ≤ 2 ^ a := Nat.pow_le_pow_right (by decide) hge'
    have h2' : 2 ^ 53 * den < 2 ^ (c + 54) := by
      have : 2 ^ (c + 54) = 2 ^ 53 * 2 ^ (c + 1) := by rw [← pow_add]; congr 1; omega
      rw [this]
      exact Nat.mul_lt_mul_of_pos_left hd2 (Nat.two_pow_pos _)
    omega
  split at hcon
  · rename_i hcond
    have hd : ((a : Int) - (c : Int)) = ((53 : Nat) : Int) := by omega
    rw [hd] at hcond
    simp only [Int.toNat_ofNat, Int.toNat_neg_nat, pow_zero, mul_one] at hcond
    rw [Nat.mul_comm] at hcond
    omega
  · omega

theorem roundToDouble_between (num den lo hi : Nat) (hden : den ≠ 0) (hhi : hi < 2 ^ 53)
    (h1 : lo * den ≤ num) (h2 : num ≤ hi * den) :
    ∃ r : ℚ, roundToDouble num den = .finite r ∧ (lo : ℚ) ≤ r ∧ r ≤ (hi : ℚ) := by
  have hdpos : 0 < den := Nat.pos_of_ne_zero hden
  by_cases h0 : num = 0
  · subst h0
    have hlo : lo = 0 := by
      rcases Nat.eq_zero_or_pos lo with h | h
      · exact h
      · have := Nat.mul_pos h hdpos
        omega
    subst hlo
    exact ⟨0, by simp [roundToDouble], by simp, by simp⟩
  · have hb := binaryExponent_le num den hi h0 hden hhi h2
    unfold roundToDouble
    rw [if_neg h0]
    generalize binaryExponent num den = b at hb
    obtain ⟨e, he⟩ : ∃ e : Nat, max b (-1022) - 52 = -(e : Int) :=
      ⟨(52 - max b (-1022)).toNat, by omega⟩
    simp only [he, neg_neg, Int.toNat_ofNat, Int.toNat_neg_nat, pow_zero, mul_one]
    have hq1 : lo * 2 ^ e ≤ num * 2 ^ e / den := by
      rw [Nat.le_div_iff_mul_le hdpos]
      calc lo * 2 ^ e * den = lo * den * 2 ^ e := by ring
        _ ≤ num * 2 ^ e := Nat.mul_le_mul_right _ h1
    have hsn : num * 2 ^ e ≤ hi * 2 ^ e * den := by
      calc num * 2 ^ e ≤ hi * den * 2 ^ e := Nat.mul_le_mul_right _ h2
        _ = hi * 2 ^ e * den := by ring
    have hq2 : num * 2 ^ e / den ≤ hi * 2 ^ e := Nat.div_le_of_le_mul (by rw [Nat.mul_comm den]; exact hsn)
    have hq3 : num * 2 ^ e % den ≠ 0 → num * 2 ^ e / den + 1 ≤ hi * 2 ^ e := by
      intro hr
      by_contra hcon
      have heq : num * 2 ^ e / den = hi * 2 ^ e := by omega
      have hdm := Nat.div_add_mod (num * 2 ^ e) den
      rw [heq] at hdm
      have : den * (hi * 2 ^ e) = hi * 2 ^ e * den := Nat.mul_comm _ _
      omega
    obtain ⟨m, hm, hm1, hm2⟩ : ∃ m : Nat,
        (if 2 * (num * 2 ^ e % den) < den then num * 2 ^ e / den
          else if den < 2 * (num * 2 ^ e % den) then num * 2 ^ e / den + 1
          else if num * 2 ^ e / den % 2 = 0 then num * 2 ^ e / den
          else num * 2 ^ e / den + 1) = m ∧ lo * 2 ^ e ≤ m ∧ m ≤ hi * 2 ^ e := by
      refine ⟨_, rfl, ?_, ?_⟩
      · split_ifs <;> omega
      · have hr0 : num * 2 ^ e % den = 0 → 2 * (num * 2 ^ e % den) < den := by
          intro h; rw [h]; exact hdpos
        split_ifs with c1 c2 c3
        · exact hq2
        · exact hq3 (fun h => c1 (hr0 h))
        · exact hq2
        · exact hq3 (fun h => c1 (hr0 h))
    rw [hm]
    have hpos : (0 : ℚ) < (2 : ℚ) ^ e := by positivity
    have hover : ¬ 2 ^ 1024 * 2 ^ e ≤ m := by
      intro hle
      have h53 : 53 ≤ 1024 := by decide
      have h' : (2 : Nat) ^ 53 ≤ 2 ^ 1024 := pow_le_pow_right₀ (show (1 : Nat) ≤ 2 by decide) h53
      have h3 : hi * 2 ^ e < 2 ^ 53 * 2 ^ e := Nat.mul_lt_mul_of_pos_right hhi (Nat.two_pow_pos _)
      have h4 : 2 ^ 53 * 2 ^ e ≤ 2 ^ 1024 * 2 ^ e := Nat.mul_le_mul_right _ h'
      exact Nat.lt_irrefl _ (Nat.lt_of_lt_of_le (Nat.lt_of_le_of_lt hm2 h3) (Nat.le_trans h4 hle))
    rw [if_neg hover]
    refine ⟨_, rfl, ?_, ?_⟩
    · rw [Rat.mkRat_eq_div]
      push_cast
      rw [le_div_iff₀ hpos]
      exact_mod_cast hm1
    · rw [Rat.mkRat_eq_div]
      push_cast
      rw [div_le_iff₀ hpos]
      exact_mod_cast hm2

theorem toDouble_between (q : ℚ) (lo hi : Nat) (hhi : hi < 2 ^ 53) (h1 : (lo : ℚ) ≤ q)
    (h2 : q ≤ (hi : ℚ)) :
    ∃ r : ℚ, (JSNumber.finite q).toDouble = .finite r ∧ (lo : ℚ) ≤ r ∧ r ≤ (hi : ℚ) := by
  have h0 : (0 : ℚ) ≤ q := le_trans (Nat.cast_nonneg lo) h1
  have hnum : (0 : Int) ≤ q.num := Rat.num_nonneg.2 h0
  have hq : q = (q.num.toNat : ℚ) / (q.den : ℚ) := by
    have : ((q.num.toNat : Int) : ℚ) = (q.num : ℚ) := by rw [Int.toNat_of_nonneg hnum]
    rw [← Int.cast_natCast, this]
    exact (Rat.num_div_den q).symm
  have hd : (0 : ℚ) < (q.den : ℚ) := by exact_mod_cast q.den_pos
  simp only [JSNumber.toDouble, if_pos h0]
  apply roundToDouble_between _ _ lo hi q.den_nz hhi
  · rw [hq, le_div_iff₀ hd] at h1
    exact_mod_cast h1
  · rw [hq, div_le_iff₀ hd] at h2
    exact_mod_cast h2


theorem meanOfDoubles_between (ns : List Nat) (hne : ns ≠ []) (hsum : ns.sum < 2 ^ 53)
    (lo hi : JSNumber)
    (hlo : lo ∈ ns.map (fun n : Nat => JSNumber.finite (n : ℚ)))
    (hlo' : ∀ v ∈ ns.map (fun n : Nat => JSNumber.finite (n : ℚ)), lo.le v = true)
    (hhi : hi ∈ ns.map (fun n : Nat => JSNumber.finite (n : ℚ)))
    (hhi' : ∀ v ∈ ns.map (fun n : Nat => JSNumber.finite (n : ℚ)), v.le hi = true) :
    lo.le (meanOfDoubles (ns.map (fun n : Nat => JSNumber.finite (n : ℚ)))) = true ∧
    (meanOfDoubles (ns.map (fun n : Nat => JSNumber.finite (n : ℚ)))).le hi = true := by
  have hmap : ns.map (fun n : Nat => JSNumber.finite (n : ℚ))
      = (ns.map (fun n : Nat => (n : ℚ))).map JSNumber.finite := by
    rw [List.map_map]; rfl
  have hq : ns.map (fun n : Nat => (n : ℚ)) ≠ [] := by
    intro e
    exact hne (List.map_eq_nil_iff.1 e)
  have hexact := mean_between (ns.map (fun n : Nat => (n : ℚ))) hq lo hi
    (hmap ▸ hlo) (hmap ▸ hlo') (hmap ▸ hhi) (hmap ▸ hhi')
  have hs : (ns.map (fun n : Nat => (n : ℚ))).sum = (ns.sum : ℚ) := by
    rw [Nat.cast_list_sum]
  rw [hs, List.length_map] at hexact
  obtain ⟨a, _, rfl⟩ := List.mem_map.1 hlo
  obtain ⟨b, hb, rfl⟩ := List.mem_map.1 hhi
  have hb53 : b < 2 ^ 53 :=
    lt_of_le_of_lt (List.single_le_sum (fun _ _ => Nat.zero_le _) b hb) hsum
  simp only [JSNumber.le, decide_eq_true_eq] at hexact
  obtain ⟨r, hr, hr1, hr2⟩ := toDouble_between _ a b hb53 hexact.1 hexact.2
  rw [meanOfDoubles_nat ns hne hsum, hr]
  simp only [JSNumber.le, decide_eq_true_eq]
  exact ⟨hr1, hr2⟩

theorem mean_of_group (self : FBSExtractor)
    (h : ∃ entry ∈ self.extractedData, ∃ val ∈ entry.numericValues,
      (parseFloat val.value).isNaN = false)
    (g : JSString × UnitSummary) (hg : g ∈ (calculateSummaryStats self).summaryStats) :
    g.2.mean = meanOfDoubles g.2.values := by
  obtain ⟨e, _, _⟩ := mem_summaryStats self h g hg
  rw [e]
  rfl

/-! ## The claims -/

/-- C1: every result of the server-side extractor and of the front-end
extractor carries a finite value `v` with `30 ≤ v ≤ 500`. -/
theorem extracted_value_in_range (text : JSString) (r : Extracted)
    (h : r ∈ Server.extract text ∨ r ∈ Client.extract text) :
    ∃ v : ℚ, r.value = .finite v ∧ 30 ≤ v ∧ v ≤ 500 := by
  have key : ∀ line k m, r ∈ emitted line k m →
      ∃ v : ℚ, r.value = .finite v ∧ 30 ≤ v ∧ v ≤ 500 := by
    intro line k m hm
    rw [mem_emitted] at hm
    obtain ⟨v, hv, hlo, hhi⟩ := finite_of_range_test _ hm.1
    exact ⟨v, by rw [hm.2]; exact hv, hlo, hhi⟩
  rcases h with h | h
  · obtain ⟨k, hk, _, rx, _, m, _, hm⟩ := (mem_server_extract text r).1 h
    exact key _ _ _ hm
  · obtain ⟨k, hk, _, rx, _, m, _, hm⟩ := (mem_client_extract text r).1 h
    exact key _ _ _ hm

/-- C1, at the text `FBS: 95 mg/dL` and its record of value 95. -/
theorem extracted_value_in_range_witness :
    (scenario1Record ∈ Server.extract scenario1 ∨ scenario1Record ∈ Client.extract scenario1) ∧
    ∃ v : ℚ, scenario1Record.value = .finite v ∧ 30 ≤ v ∧ v ≤ 500 :=
  ⟨by decide!, extracted_value_in_range scenario1 scenario1Record (by decide!)⟩

/-- C2 as stated fails: on the text `FBS: 95 mg/dL` neither extractor returns
the one-element list made of the expected record. -/
theorem scenario1_not_one_result :
    Server.extract scenario1 ≠ [scenario1Record] ∧
    Client.extract scenario1 ≠ [scenario1Record] := by
  decide!

/-- C2 amended: on the text `FBS: 95 mg/dL` each extractor returns exactly
two results, both equal to the expected record: the pattern for a number
before `mg/dL` matches `95 mg/dL`, the pattern for the label `FBS` matches
`FBS: 95`, and the three other patterns match nothing. -/
theorem scenario1_two_results :
    Server.extract scenario1 = [scenario1Record, scenario1Record] ∧
    Client.extract scenario1 = [scenario1Record, scenario1Record] ∧
    (matchAll scenario1 ⟨mgdlPattern, 0⟩).1 = [⟨"95 mg/dL".toList, some "95".toList⟩] ∧
    (matchAll scenario1 ⟨mmolPattern, 0⟩).1 = [] ∧
    (matchAll scenario1 ⟨glucoseLabelPattern, 0⟩).1 = [] ∧
    (matchAll scenario1 ⟨fbsLabelPattern, 0⟩).1 = [⟨"FBS: 95".toList, some "95".toList⟩] ∧
    (matchAll scenario1 ⟨hba1cLabelPattern, 0⟩).1 = [] := by
  decide!

/-- C3 as stated fails: on the two lines of scenario 2 the front-end
extractor does not return one result of value 5.5, unit `mmol/L`, line 1. -/
theorem scenario2_not_one_result :
    ¬ ∃ r : Extracted, Client.extract scenario2 = [r] ∧ r.value = .finite (11 / 2) ∧
        r.unit = "mmol/L".toList ∧ r.line = 1 := by
  have h : Client.extract scenario2 = [] := by decide!
  rw [h]
  simp

/-- C3 amended: on the two lines of scenario 2 the front-end extractor
returns no result. Line 1 is searched, the pattern for a number before
`mmol/L` matches `5.5 mmol/L` and the pattern for the label `glucose` matches
`Glucose: 5.5`; both capture `5.5`, whose value 5.5 is below 30 and fails the
range test. -/
theorem scenario2_no_result :
    Client.extract scenario2 = [] ∧
    split newline scenario2 = ["Glucose: 5.5 mmol/L".toList, "some unrelated line".toList] ∧
    (matchAll "Glucose: 5.5 mmol/L".toList ⟨mmolPattern, 0⟩).1
      = [⟨"5.5 mmol/L".toList, some "5.5".toList⟩] ∧
    (matchAll "Glucose: 5.5 mmol/L".toList ⟨glucoseLabelPattern, 0⟩).1
      = [⟨"Glucose: 5.5".toList, some "5.5".toList⟩] ∧
    parseFloat "5.5".toList = .finite (11 / 2) ∧
    (JSNumber.finite (11 / 2)).ge (.finite 30) = false := by
  decide!

/-- C4: on the three lines of scenario 3 the server-side extractor returns no
result. Line 1 is the only flagged line; its window is the three lines
joined by spaces; the pattern for a number before `mg/dL` matches
`720 mg/dL` there and the pattern for the label `glucose` matches
`GLUCOSE  720`, the other patterns match nothing; both matches capture
`720`, whose value 720 fails the test `value <= 500`. -/
theorem scenario3_no_result :
    Server.extract scenario3 = [] ∧
    split newline scenario3 = ["FASTING PLASMA GLUCOSE".toList, [], "720 mg/dL".toList] ∧
    (split newline scenario3).map Server.fbsFound = [true, false, false] ∧
    Server.contextOf (split newline scenario3) 0 = "FASTING PLASMA GLUCOSE  720 mg/dL".toList ∧
    Server.glucosePatterns.map
        (fun rx => (matchAll (Server.contextOf (split newline scenario3) 0) rx).1)
      = [[⟨"720 mg/dL".toList, some "720".toList⟩], [],
         [⟨"GLUCOSE  720".toList, some "720".toList⟩], [], []] ∧
    parseFloat "720".toList = .finite 720 ∧
    (JSNumber.finite 720).le (.finite 500) = false := by
  decide!

/-- C5: in the list either extractor returns, the `line` fields never
decrease: a result for an earlier line comes before every result for a later
line. -/
theorem extracted_lines_nondecreasing (text : JSString) :
    List.Pairwise (fun a b => a ≤ b) ((Server.extract text).map (fun r => r.line)) ∧
    List.Pairwise (fun a b => a ≤ b) ((Client.extract text).map (fun r => r.line)) := by
  constructor
  · unfold Server.extract
    rw [server_extractGlucoseFromText_eq]
    apply collect_lines_sorted
    intro line index r hr
    unfold Server.lineResults at hr
    split at hr
    · obtain ⟨rx, _, m, _, hm⟩ := (mem_patternResults _ _ _ _ _).1 hr
      exact line_of_mem_emitted _ _ _ _ hm
    · simp at hr
  · unfold Client.extract
    rw [client_extractGlucoseFromText_eq]
    apply collect_lines_sorted
    intro line index r hr
    unfold Client.lineResults at hr
    split at hr
    · obtain ⟨rx, _, m, _, hm⟩ := (mem_patternResults _ _ _ _ _).1 hr
      exact line_of_mem_emitted _ _ _ _ hm
    · simp at hr

/-- C6: a text that is empty or made of white space only (spaces, tabs, line
breaks and the other characters JavaScript counts as white space) gives the
empty list in both extractors. -/
theorem whitespace_text_no_result (text : JSString)
    (h : ∀ c ∈ text, isWhiteSpace c = true) :
    Server.extract text = [] ∧ Client.extract text = [] := by
  have hline : ∀ line ∈ split newline text, ∀ c ∈ line, isWhiteSpace c = true :=
    fun line hl c hc => h c (mem_of_mem_split newline text line hl c hc)
  obtain ⟨hs, hc, hg⟩ := markers_not_whiteSpace
  constructor
  · unfold Server.extract
    rw [server_extractGlucoseFromText_eq]
    apply collect_eq_nil
    intro line hl index
    have hf : Server.fbsFound line = false := by
      unfold Server.fbsFound
      rw [List.any_eq_false]
      intro p hp
      rw [toLowerCase_of_whiteSpace line (hline line hl),
        not_includes_of_whiteSpace line _ (hline line hl) (hs p hp)]
      simp
    simp [Server.lineResults, hf]
  · unfold Client.extract
    rw [client_extractGlucoseFromText_eq]
    apply collect_eq_nil
    intro line hl index
    have hf : Client.fbsFound line = false := by
      unfold Client.fbsFound
      rw [List.any_eq_false]
      intro p hp
      rw [toLowerCase_of_whiteSpace line (hline line hl),
        not_includes_of_whiteSpace line _ (hline line hl) (hc p hp)]
      simp
    have hgl : includes (toLowerCase line) "glucose".toList = false := by
      rw [toLowerCase_of_whiteSpace line (hline line hl)]
      exact not_includes_of_whiteSpace line _ (hline line hl) hg
    rw [Client.lineResults, hf, hgl]
    rfl

/-- C6, at a text of two spaces, a line break, a tab and a space. -/
theorem whitespace_text_no_result_witness :
    (∀ c ∈ blankText, isWhiteSpace c = true) ∧
    Server.extract blankText = [] ∧ Client.extract blankText = [] :=
  ⟨by decide!, whitespace_text_no_result blankText (by decide!)⟩

/-- C7: when no line of the text contains a marker phrase and no line
contains `glucose`, letter case ignored, the front-end extractor returns the
empty list. -/
theorem unmarked_text_no_result (text : JSString)
    (h : ∀ line ∈ split newline text,
      (∀ p ∈ Client.fbsPatterns, ¬ toLowerCase p <:+: toLowerCase line) ∧
      ¬ "glucose".toList <:+: toLowerCase line) :
    Client.extract text = [] := by
  unfold Client.extract
  rw [client_extractGlucoseFromText_eq]
  apply collect_eq_nil
  intro line hl index
  obtain ⟨hm, hg⟩ := h line hl
  have hf : Client.fbsFound line = false := by
    unfold Client.fbsFound
    rw [List.any_eq_false]
    intro p hp
    have := hm p hp
    rw [← includes_iff_contained] at this
    simpa using this
  have hgl : includes (toLowerCase line) "glucose".toList = false := by
    rw [← includes_iff_contained] at hg
    simpa using hg
  rw [Client.lineResults, hf, hgl]
  rfl

/-- C7, at a text with two numbers and their units and no marker. -/
theorem unmarked_text_no_result_witness :
    (∀ line ∈ split newline unmarkedText,
      (∀ p ∈ Client.fbsPatterns, ¬ toLowerCase p <:+: toLowerCase line) ∧
      ¬ "glucose".toList <:+: toLowerCase line) ∧
    Client.extract unmarkedText = [] :=
  ⟨by decide!, unmarked_text_no_result unmarkedText (by decide!)⟩

/-- C8: the unit of every result is `mmol/L` or `mg/dL`, and it is decided by
the matched substring of the match the result was read off: `mmol/L` exactly
when that substring contains `mmol`, `mg/dL` exactly when it does not. The
match is one of a pattern of `glucosePatterns` against the text searched for
the result's line: the window of that line in the server-side extractor, the
line itself in the front-end extractor. -/
theorem unit_decided_by_matched_text (text : JSString) (r : Extracted)
    (h : r ∈ Server.extract text ∨ r ∈ Client.extract text) :
    (r.unit = "mmol/L".toList ∨ r.unit = "mg/dL".toList) ∧
    ∃ k, ∃ hk : k < (split newline text).length, r.line = k + 1 ∧
      ((r ∈ Server.extract text ∧ ∃ rx ∈ Server.glucosePatterns,
          ∃ m ∈ (matchAll (Server.contextOf (split newline text) k) rx).1, ReadOff r m) ∨
       (r ∈ Client.extract text ∧ ∃ rx ∈ Client.glucosePatterns,
          ∃ m ∈ (matchAll ((split newline text).get ⟨k, hk⟩) rx).1, ReadOff r m)) := by
  have hunit : ∀ m, ReadOff r m → r.unit = "mmol/L".toList ∨ r.unit = "mg/dL".toList := by
    intro m hm
    by_cases hi : "mmol".toList <:+: m.whole
    · exact Or.inl (hm.2.1.2 hi)
    · exact Or.inr (hm.2.2.2 hi)
  rcases h with h | h
  · obtain ⟨k, hk, _, rx, hrx, m, hm, hr⟩ := (mem_server_extract text r).1 h
    have hro := readOff_of_mem_emitted _ _ _ _ hr
    exact ⟨hunit m hro, k, hk, line_of_mem_emitted _ _ _ _ hr,
      Or.inl ⟨h, rx, hrx, m, hm, hro⟩⟩
  · obtain ⟨k, hk, _, rx, hrx, m, hm, hr⟩ := (mem_client_extract text r).1 h
    have hro := readOff_of_mem_emitted _ _ _ _ hr
    exact ⟨hunit m hro, k, hk, line_of_mem_emitted _ _ _ _ hr,
      Or.inr ⟨h, rx, hrx, m, hm, hro⟩⟩

/-- C8, at the line `Glucose: 45 mmol/L` and its record of unit `mmol/L`. -/
theorem unit_decided_by_matched_text_witness :
    (mmolRecord ∈ Server.extract mmolText ∨ mmolRecord ∈ Client.extract mmolText) ∧
    (mmolRecord.unit = "mmol/L".toList ∨ mmolRecord.unit = "mg/dL".toList) ∧
    ∃ k, ∃ hk : k < (split newline mmolText).length, mmolRecord.line = k + 1 ∧
      ((mmolRecord ∈ Server.extract mmolText ∧ ∃ rx ∈ Server.glucosePatterns,
          ∃ m ∈ (matchAll (Server.contextOf (split newline mmolText) k) rx).1,
            ReadOff mmolRecord m) ∨
       (mmolRecord ∈ Client.extract mmolText ∧ ∃ rx ∈ Client.glucosePatterns,
          ∃ m ∈ (matchAll ((split newline mmolText).get ⟨k, hk⟩) rx).1,
            ReadOff mmolRecord m)) :=
  ⟨by decide!, unit_decided_by_matched_text mmolText mmolRecord (by decide!)⟩

/-- C9, the code at the line `FBS 45 MMOL/L`: the pattern for a number before
`mmol/L` matches `45 MMOL/L`, which contains `mmol` once letter case is
ignored, yet the unit computed from that match is `mg/dL`, and both
extractors return two records of unit `mg/dL` and none of unit `mmol/L`. -/
theorem upper_case_mmol_reported_as_mgdl :
    (matchAll upperCaseUnit ⟨mmolPattern, 0⟩).1
      = [⟨"45 MMOL/L".toList, some "45".toList⟩] ∧
    includes (toLowerCase "45 MMOL/L".toList) "mmol".toList = true ∧
    unitOf "45 MMOL/L".toList = "mg/dL".toList ∧
    Server.extract upperCaseUnit = [upperCaseUnitRecord, upperCaseUnitRecord] ∧
    Client.extract upperCaseUnit = [upperCaseUnitRecord, upperCaseUnitRecord] := by
  decide!

/-- C10: a call of either extractor leaves the pattern objects as it found
them, whatever their state, so that a second call on the same text, made in
the state the first call left, returns the same list. -/
theorem extraction_repeatable (patterns : List RegExp) (text : JSString) :
    (Server.extractGlucoseFromText patterns text).2 = patterns ∧
    (Server.extractGlucoseFromText (Server.extractGlucoseFromText patterns text).2 text).1
      = (Server.extractGlucoseFromText patterns text).1 ∧
    (Client.extractGlucoseFromText patterns text).2 = patterns ∧
    (Client.extractGlucoseFromText (Client.extractGlucoseFromText patterns text).2 text).1
      = (Client.extractGlucoseFromText patterns text).1 := by
  have hs : (Server.extractGlucoseFromText patterns text).2 = patterns := by
    rw [server_extractGlucoseFromText_eq]
  have hc : (Client.extractGlucoseFromText patterns text).2 = patterns := by
    rw [client_extractGlucoseFromText_eq]
  exact ⟨hs, by rw [hs], hc, by rw [hc]⟩

/-- C11: the `line` field of every result of either extractor is a valid
1-based index into the lines of the text: `1 ≤ line ≤ n`, `n` being the
number of pieces `split` gives. -/
theorem line_within_text (text : JSString) (r : Extracted)
    (h : r ∈ Server.extract text ∨ r ∈ Client.extract text) :
    1 ≤ r.line ∧ r.line ≤ (split newline text).length := by
  rcases h with h | h
  · obtain ⟨k, hk, _, rx, _, m, _, hm⟩ := (mem_server_extract text r).1 h
    rw [line_of_mem_emitted _ _ _ _ hm]
    omega
  · obtain ⟨k, hk, _, rx, _, m, _, hm⟩ := (mem_client_extract text r).1 h
    rw [line_of_mem_emitted _ _ _ _ hm]
    omega

/-- C11, at the text `FBS: 95 mg/dL` and its record. -/
theorem line_within_text_witness :
    (scenario1Record ∈ Server.extract scenario1 ∨ scenario1Record ∈ Client.extract scenario1) ∧
    1 ≤ scenario1Record.line ∧ scenario1Record.line ≤ (split newline scenario1).length :=
  ⟨by decide!, line_within_text scenario1 scenario1Record (by decide!)⟩

/-- C12: the `context` field of every result of either extractor is the line
at the 1-based index `line` of the text, trimmed; in the server-side
extractor also when the number matched stands on a neighbouring line of the
window. -/
theorem context_is_trimmed_anchor_line (text : JSString) (r : Extracted)
    (h : r ∈ Server.extract text ∨ r ∈ Client.extract text) :
    1 ≤ r.line ∧ ∃ hk : r.line - 1 < (split newline text).length,
      r.context = trim ((split newline text).get ⟨r.line - 1, hk⟩) := by
  rcases h with h | h
  · obtain ⟨k, hk, _, rx, _, m, _, hm⟩ := (mem_server_extract text r).1 h
    have hl := line_of_mem_emitted _ _ _ _ hm
    have hc := context_of_mem_emitted _ _ _ _ hm
    have e : r.line - 1 = k := by omega
    refine ⟨by omega, by omega, ?_⟩
    simp only [e]
    exact hc
  · obtain ⟨k, hk, _, rx, _, m, _, hm⟩ := (mem_client_extract text r).1 h
    have hl := line_of_mem_emitted _ _ _ _ hm
    have hc := context_of_mem_emitted _ _ _ _ hm
    have e : r.line - 1 = k := by omega
    refine ⟨by omega, by omega, ?_⟩
    simp only [e]
    exact hc

/-- C12, at a text whose flagged line is `  FBS ` and whose value stands on
the next line: the context of the record is `FBS`. -/
theorem context_is_trimmed_anchor_line_witness :
    (neighbourRecord ∈ Server.extract neighbourText
      ∨ neighbourRecord ∈ Client.extract neighbourText) ∧
    1 ≤ neighbourRecord.line ∧
    ∃ hk : neighbourRecord.line - 1 < (split newline neighbourText).length,
      neighbourRecord.context
        = trim ((split newline neighbourText).get ⟨neighbourRecord.line - 1, hk⟩) :=
  ⟨by decide!, context_is_trimmed_anchor_line neighbourText neighbourRecord (by decide!)⟩

/-- C15: the server-side extractor searches a line only for a marker phrase:
when no line of the text contains one of the eight marker phrases, letter
case ignored, the result is empty. -/
theorem strict_needs_marker (text : JSString)
    (h : ∀ line ∈ split newline text,
      ∀ p ∈ Server.fbsPatterns, ¬ toLowerCase p <:+: toLowerCase line) :
    Server.extract text = [] := by
  unfold Server.extract
  rw [server_extractGlucoseFromText_eq]
  apply collect_eq_nil
  intro line hl index
  have hf : Server.fbsFound line = false := by
    unfold Server.fbsFound
    rw [List.any_eq_false]
    intro p hp
    have := h line hl p hp
    rw [← includes_iff_contained] at this
    simpa using this
  rw [Server.lineResults, hf]
  rfl

/-- C15, at the line `Glucose: 95 mg/dL`, which holds the bare word
`glucose` and a value within the range. -/
theorem strict_needs_marker_witness :
    (∀ line ∈ split newline bareGlucoseText,
      ∀ p ∈ Server.fbsPatterns, ¬ toLowerCase p <:+: toLowerCase line) ∧
    Server.extract bareGlucoseText = [] :=
  ⟨by decide!, strict_needs_marker bareGlucoseText (by decide!)⟩

/-- C13: in the server-side extractor, for a flagged line at 0-based index
`i`, the text searched is the join, by one space, of a window `w` of lines:
`w` holds the lines of index `max(0, i - 2)` up to `min(n - 1, i + 2)` in
order (`i - 2` below is the truncated difference), it has between 1 and 5
lines, and the anchor line is one of them. The results whose `line` is
`i + 1` are exactly the records, in order, of the matches of the five
patterns in that text whose value passes the range test. -/
theorem server_window_results (text : JSString) (i : Nat)
    (hi : i < (split newline text).length)
    (hf : Server.fbsFound ((split newline text).get ⟨i, hi⟩) = true) :
    ∃ w : List JSString,
      Server.contextOf (split newline text) i = join [' '] w ∧
      w.length = min ((split newline text).length - 1) (i + 2) - (i - 2) + 1 ∧
      (∀ j, ∀ hj : j < w.length, ∃ hl : (i - 2) + j < (split newline text).length,
        w.get ⟨j, hj⟩ = (split newline text).get ⟨(i - 2) + j, hl⟩) ∧
      1 ≤ w.length ∧ w.length ≤ 5 ∧
      (∃ hj : i - (i - 2) < w.length,
        w.get ⟨i - (i - 2), hj⟩ = (split newline text).get ⟨i, hi⟩) ∧
      (Server.extract text).filter (fun r => decide (r.line = i + 1))
        = Server.glucosePatterns.flatMap (fun rx =>
            (matchAll (join [' '] w) rx).1.flatMap
              (recordOf ((split newline text).get ⟨i, hi⟩) i)) := by
  obtain ⟨hs, he⟩ := server_contextBounds (split newline text) i hi
  have hctx : Server.contextOf (split newline text) i
      = join [' '] (slice (split newline text) (i - 2)
          (min ((split newline text).length - 1) (i + 2) + 1)) := by
    rw [server_contextOf_eq, hs, he]
  have hlen : (slice (split newline text) (i - 2)
      (min ((split newline text).length - 1) (i + 2) + 1)).length
        = min ((split newline text).length - 1) (i + 2) - (i - 2) + 1 := by
    simp only [slice, List.length_drop, List.length_take]
    omega
  have hget : ∀ j, ∀ hj : j < (slice (split newline text) (i - 2)
      (min ((split newline text).length - 1) (i + 2) + 1)).length,
      ∃ hl : (i - 2) + j < (split newline text).length,
        (slice (split newline text) (i - 2)
          (min ((split newline text).length - 1) (i + 2) + 1)).get ⟨j, hj⟩
          = (split newline text).get ⟨(i - 2) + j, hl⟩ := by
    intro j hj
    have hj' := hj
    rw [hlen] at hj'
    refine ⟨by omega, ?_⟩
    simp [slice]
  refine ⟨_, hctx, hlen, hget, by omega, by omega, ?_, ?_⟩
  · have hj : i - (i - 2) < (slice (split newline text) (i - 2)
        (min ((split newline text).length - 1) (i + 2) + 1)).length := by
      rw [hlen]; omega
    obtain ⟨hl, e⟩ := hget _ hj
    refine ⟨hj, ?_⟩
    rw [e]
    congr 2
    omega
  · unfold Server.extract
    rw [server_extractGlucoseFromText_eq, ← hctx]
    have := filter_collect _ (server_lineResults_line Server.glucosePatterns (split newline text))
      (split newline text) 0 i hi
    simp only [Nat.zero_add] at this
    rw [this, Server.lineResults, if_pos hf, patternResults]
    have e : ∀ line idx, emitted line idx = recordOf line idx :=
      fun line idx => funext (emitted_eq_recordOf line idx)
    simp only [e]


/-- C13, at a five-line text whose third line is flagged and whose value
stands on the fifth line. -/
theorem server_window_results_witness :
    ∃ w : List JSString,
      Server.contextOf (split newline windowText) 2 = join [' '] w ∧
      w.length = min ((split newline windowText).length - 1) (2 + 2) - (2 - 2) + 1 ∧
      (∀ j, ∀ hj : j < w.length, ∃ hl : (2 - 2) + j < (split newline windowText).length,
        w.get ⟨j, hj⟩ = (split newline windowText).get ⟨(2 - 2) + j, hl⟩) ∧
      1 ≤ w.length ∧ w.length ≤ 5 ∧
      (∃ hj : 2 - (2 - 2) < w.length,
        w.get ⟨2 - (2 - 2), hj⟩ = (split newline windowText).get ⟨2, by decide!⟩) ∧
      (Server.extract windowText).filter (fun r => decide (r.line = 2 + 1))
        = Server.glucosePatterns.flatMap (fun rx =>
            (matchAll (join [' '] w) rx).1.flatMap
              (recordOf ((split newline windowText).get ⟨2, by decide!⟩) 2)) :=
  server_window_results windowText 2 (by decide!) (by decide!)

/-- C14: the front-end extractor works line by line. For lines without a
line break, the result on the lines joined by line breaks is the
concatenation, line after line, of the result on each line alone with its
`line` field replaced by the 1-based index of the line. -/
theorem client_line_by_line (lines : List JSString) (h : ∀ l ∈ lines, newline ∉ l) :
    Client.extract (join [newline] lines)
      = lines.enum.flatMap
          (fun p => (Client.extract p.2).map (fun r => { r with line := p.1 + 1 })) := by
  cases lines with
  | nil => decide!
  | cons first rest =>
    have hsplit := split_join newline first rest h
    unfold Client.extract
    rw [client_extractGlucoseFromText_eq, hsplit, collect_eq_enumFrom]
    unfold List.enum
    apply List.flatMap_congr
    intro p hp
    have hmem : p.2 ∈ first :: rest := by
      have := (List.mem_enumFrom hp).2.2
      rw [this]
      exact List.getElem_mem _
    have := client_extract_single p.2 (h p.2 hmem)
    unfold Client.extract at this
    rw [this]
    exact client_lineResults_shift _ _ _

/-- C14, at the two lines `Report` and `FBS: 95 mg/dL`. -/
theorem client_line_by_line_witness :
    (∀ l ∈ twoLines, newline ∉ l) ∧
    Client.extract (join [newline] twoLines)
      = twoLines.enum.flatMap
          (fun p => (Client.extract p.2).map (fun r => { r with line := p.1 + 1 })) :=
  ⟨by decide!, client_line_by_line twoLines (by decide!)⟩

/-- C20: the results are emitted in scan order, nothing being sorted or
removed. The list either extractor returns is the concatenation, line after
line, of the records of the line; the records of one line are the
concatenation, in the order of the array `glucosePatterns` (number before
`mg/dL`, number before `mmol/L`, label `glucose`, label `FBS`, label
`HbA1c`), of the records of each pattern; and the matches of one pattern are
listed from left to right in the text searched. -/
theorem results_in_scan_order (text : JSString) :
    Server.glucosePatterns.map (fun rx => rx.source) = patternsInOrder ∧
    Client.glucosePatterns.map (fun rx => rx.source) = patternsInOrder ∧
    Server.extract text
      = (split newline text).enum.flatMap (fun p =>
          if Server.fbsFound p.2 = true then
            patternsInOrder.flatMap (fun nodes =>
              (scan nodes 0 none (Server.contextOf (split newline text) p.1)).flatMap
                (recordOf p.2 p.1))
          else []) ∧
    Client.extract text
      = (split newline text).enum.flatMap (fun p =>
          if (Client.fbsFound p.2 || includes (toLowerCase p.2) "glucose".toList) = true then
            patternsInOrder.flatMap (fun nodes =>
              (scan nodes 0 none p.2).flatMap (recordOf p.2 p.1))
          else []) ∧
    ∀ (nodes : List Node) (searched : JSString),
      LeftToRight (scan nodes 0 none searched) searched := by
  refine ⟨rfl, rfl, ?_, ?_, fun nodes searched => scan_leftToRight nodes searched 0 none⟩
  · unfold Server.extract
    rw [server_extractGlucoseFromText_eq, collect_eq_enumFrom]
    unfold List.enum
    apply List.flatMap_congr
    intro p _
    unfold Server.lineResults
    split
    · exact patternResults_in_order _ _ _
    · rfl
  · unfold Client.extract
    rw [client_extractGlucoseFromText_eq, collect_eq_enumFrom]
    unfold List.enum
    apply List.flatMap_congr
    intro p _
    unfold Client.lineResults
    split
    · rw [client_glucosePatterns_eq]
      exact patternResults_in_order _ _ _
    · rfl

/-- C16: both extractors return a list on every text, and the two places
where an index is computed cannot go wrong: for every line index `i` of the
text, `0 ≤ contextStart ≤ i ≤ contextEnd ≤ lines.length - 1`, so the window
slice is within the array, and every match of any of the five patterns, on
any text searched, carries its capture group `match[1]`. -/
theorem extraction_never_fails (text : JSString) (i : Nat)
    (hi : i < (split newline text).length) (rx : RegExp)
    (hrx : rx ∈ Server.glucosePatterns ∨ rx ∈ Client.glucosePatterns)
    (searched : JSString) (m : Match) (hm : m ∈ (matchAll searched rx).1) :
    (0 ≤ Server.contextStart i ∧ Server.contextStart i ≤ (i : Int) ∧
      (i : Int) ≤ Server.contextEnd (split newline text) i ∧
      Server.contextEnd (split newline text) i ≤ ((split newline text).length : Int) - 1) ∧
    (∃ g, m.group1 = some g) ∧
    (∃ results patterns, Server.extractGlucoseFromText Server.glucosePatterns text
        = (results, patterns)) ∧
    (∃ results patterns, Client.extractGlucoseFromText Client.glucosePatterns text
        = (results, patterns)) := by
  refine ⟨?_, ?_, ⟨_, _, rfl⟩, ⟨_, _, rfl⟩⟩
  · unfold Server.contextStart Server.contextEnd
    omega
  · have hclose : Node.groupClose ∈ rx.source := by
      have hall : ∀ r ∈ Server.glucosePatterns, Node.groupClose ∈ r.source := by decide
      rcases hrx with h | h
      · exact hall rx h
      · exact hall rx (client_glucosePatterns_eq ▸ h)
    obtain ⟨prev', input', hmatch⟩ := mem_scan rx.source m searched _ _ hm
    have := (matchAt_spec rx.source prev' input' m hmatch).2 hclose
    exact Option.isSome_iff_exists.1 this


/-- C16, at scenario 3, its first line, and the match `720 mg/dL` of the
pattern for a number before `mg/dL` in the window of that line. -/
theorem extraction_never_fails_witness :
    (0 ≤ Server.contextStart 0 ∧ Server.contextStart 0 ≤ ((0 : Nat) : Int) ∧
      ((0 : Nat) : Int) ≤ Server.contextEnd (split newline scenario3) 0 ∧
      Server.contextEnd (split newline scenario3) 0
        ≤ ((split newline scenario3).length : Int) - 1) ∧
    (∃ g, (⟨"720 mg/dL".toList, some "720".toList⟩ : Match).group1 = some g) ∧
    (∃ results patterns, Server.extractGlucoseFromText Server.glucosePatterns scenario3
        = (results, patterns)) ∧
    (∃ results patterns, Client.extractGlucoseFromText Client.glucosePatterns scenario3
        = (results, patterns)) :=
  extraction_never_fails scenario3 0 (by decide!) ⟨mgdlPattern, 0⟩ (by decide!)
    "FASTING PLASMA GLUCOSE  720 mg/dL".toList ⟨"720 mg/dL".toList, some "720".toList⟩
    (by decide!)

/-- C17: when the data hold at least one value that parses, every group of
the summary `calculateSummaryStats` computes is non-empty and its median is
the element at index `floor(n / 2)` of the ascending numeric sort of the `n`
values of the group: an element of the group, never an average. -/
theorem median_is_upper_middle (self : FBSExtractor)
    (h : ∃ entry ∈ self.extractedData, ∃ val ∈ entry.numericValues,
      (parseFloat val.value).isNaN = false)
    (g : JSString × UnitSummary) (hg : g ∈ (calculateSummaryStats self).summaryStats) :
    g.2.values ≠ [] ∧
    ∃ sorted : List JSNumber, sorted.Perm g.2.values ∧
      sorted.Pairwise (fun a b => a.le b = true) ∧
      ∃ hn : g.2.values.length / 2 < sorted.length,
        g.2.median = some (sorted.get ⟨g.2.values.length / 2, hn⟩) := by
  obtain ⟨e, hne, hnan⟩ := mem_summaryStats self h g hg
  rw [e]
  simp only [summarize]
  refine ⟨hne, sortNumeric _, sortNumeric_perm _, sortNumeric_sorted _ hnan, ?_⟩
  have hlen := (sortNumeric_perm (valuesOfUnit g.1 (collectValues self.extractedData))).length_eq
  have hpos : 0 < (valuesOfUnit g.1 (collectValues self.extractedData)).length :=
    List.length_pos.2 hne
  have hn : (valuesOfUnit g.1 (collectValues self.extractedData)).length / 2
      < (sortNumeric (valuesOfUnit g.1 (collectValues self.extractedData))).length := by
    rw [hlen]
    omega
  refine ⟨hn, ?_⟩
  have hq : (sortNumeric (valuesOfUnit g.1 (collectValues self.extractedData))).get?
      ((sortNumeric (valuesOfUnit g.1 (collectValues self.extractedData))).length / 2)
      = (sortNumeric (valuesOfUnit g.1 (collectValues self.extractedData))).get?
        ((valuesOfUnit g.1 (collectValues self.extractedData)).length / 2) := by
    rw [hlen]
  rw [hq, List.get?_eq_get hn]

/-- C17, at four readings given as 100, 70, 110, 90 (and one value that does
not parse): their median is 100. -/
theorem median_is_upper_middle_witness :
    (∃ entry ∈ fourReadings, ∃ val ∈ entry.numericValues,
      (parseFloat val.value).isNaN = false) ∧
    ("mg/dl".toList, fourReadingsSummary)
      ∈ (calculateSummaryStats ⟨fourReadings, []⟩).summaryStats ∧
    fourReadingsSummary.median = some (.finite 100) ∧
    fourReadingsSummary.values ≠ [] ∧
    ∃ sorted : List JSNumber, sorted.Perm fourReadingsSummary.values ∧
      sorted.Pairwise (fun a b => a.le b = true) ∧
      ∃ hn : fourReadingsSummary.values.length / 2 < sorted.length,
        fourReadingsSummary.median
          = some (sorted.get ⟨fourReadingsSummary.values.length / 2, hn⟩) :=
  ⟨by decide!, by decide!, rfl,
    median_is_upper_middle ⟨fourReadings, []⟩ (by decide!)
      ("mg/dl".toList, fourReadingsSummary) (by decide!)⟩

/-- C19 as stated fails: for the three readings 100, 101 and 103 of one unit
the sum is 304 and `mean` is the double 101.33333333333333, which is not the
sum divided by the count, 304 / 3, a number no double equals. -/
theorem mean_is_not_the_exact_quotient :
    (calculateSummaryStats ⟨threeReadings, []⟩).summaryStats
      = [("mg/dl".toList, threeReadingsSummary)] ∧
    ¬ ∀ g ∈ (calculateSummaryStats ⟨threeReadings, []⟩).summaryStats,
        ∀ qs : List ℚ, g.2.values = qs.map JSNumber.finite →
          g.2.mean = .finite (qs.sum / (g.2.count : ℚ)) := by
  have hs : (calculateSummaryStats ⟨threeReadings, []⟩).summaryStats
      = [("mg/dl".toList, threeReadingsSummary)] := by decide!
  refine ⟨hs, fun h => ?_⟩
  have hm := h ("mg/dl".toList, threeReadingsSummary) (by rw [hs]; exact List.mem_singleton_self _)
    [100, 101, 103] (by decide!)
  revert hm
  decide!

/-- C19 amended: when the data hold at least one value that parses, then in
every group of the summary, the values are the parsed values, in order, of
the input values that parse and whose unit, lower-cased, is the key of the
group; `count` is their number; `min` and `max` are values of the group, below
and above all of them; and `mean` is what the arithmetic of doubles gives for
the sum from the left divided by `count`, every sum and the quotient being
rounded. When the values are whole numbers whose sum is below `2 ^ 53` the
sums are exact and `mean` is the double nearest to the sum divided by
`count`. The keys are distinct and the counts add up to the number of input
values that parse: each lands in one group. -/
theorem summary_statistics (self : FBSExtractor)
    (h : ∃ entry ∈ self.extractedData, ∃ val ∈ entry.numericValues,
      (parseFloat val.value).isNaN = false) :
    (∀ g ∈ (calculateSummaryStats self).summaryStats,
      g.2.values
        = ((self.extractedData.flatMap (fun entry => entry.numericValues)).filter (fun val =>
            !(parseFloat val.value).isNaN && decide (toLowerCase val.unit = g.1))).map
            (fun val => parseFloat val.value) ∧
      g.2.count
        = (self.extractedData.flatMap (fun entry => entry.numericValues)).countP (fun val =>
            !(parseFloat val.value).isNaN && decide (toLowerCase val.unit = g.1)) ∧
      g.2.min ∈ g.2.values ∧ (∀ v ∈ g.2.values, g.2.min.le v = true) ∧
      g.2.max ∈ g.2.values ∧ (∀ v ∈ g.2.values, v.le g.2.max = true) ∧
      g.2.mean = meanOfDoubles g.2.values ∧
      (∀ ns : List Nat, g.2.values = ns.map (fun n : Nat => JSNumber.finite (n : ℚ)) →
        ns.sum < 2 ^ 53 →
        g.2.mean = (JSNumber.finite ((ns.sum : ℚ) / (g.2.count : ℚ))).toDouble)) ∧
    ((calculateSummaryStats self).summaryStats.map Prod.fst).Nodup ∧
    ((calculateSummaryStats self).summaryStats.map (fun g => g.2.count)).sum
      = (self.extractedData.flatMap (fun entry => entry.numericValues)).countP (fun val =>
          !(parseFloat val.value).isNaN) := by
  refine ⟨?_, ?_, ?_⟩
  · intro g hg
    obtain ⟨e, hne, hnan⟩ := mem_summaryStats self h g hg
    have hv : g.2.values = valuesOfUnit g.1 (collectValues self.extractedData) := by rw [e]; rfl
    have hc : g.2.count = g.2.values.length := by rw [e]; rfl
    have hvals := valuesOfUnit_parsed g.1
      (self.extractedData.flatMap (fun entry => entry.numericValues))
    rw [← collectValues_eq, ← hv] at hvals
    have hmin : g.2.min = mathMin g.2.values := by rw [e]; rfl
    have hmax : g.2.max = mathMax g.2.values := by rw [e]; rfl
    have hmean : g.2.mean = meanOfDoubles g.2.values := by rw [e]; rfl
    have hne' : g.2.values ≠ [] := by rw [hv]; exact hne
    have hnan' : ∀ v ∈ g.2.values, v.isNaN = false := by rw [hv]; exact hnan
    refine ⟨hvals, ?_, ?_, ?_, ?_, ?_, hmean, ?_⟩
    · rw [hc, hvals, List.length_map, List.countP_eq_length_filter]
    · rw [hmin]; exact (mathMin_spec _ hnan' hne').1
    · rw [hmin]; exact (mathMin_spec _ hnan' hne').2
    · rw [hmax]; exact (mathMax_spec _ hnan' hne').1
    · rw [hmax]; exact (mathMax_spec _ hnan' hne').2
    · intro ns hns hsum
      have hq : ns ≠ [] := by
        intro e'
        apply hne'
        rw [hns, e']
        rfl
      rw [hmean, hc, hns, meanOfDoubles_nat ns hq hsum, List.length_map]
  · rw [summaryStats_of_parseable self (collectValues_ne_nil _ h), List.map_map]
    exact (groupByUnit_grouped _).1
  · rw [summaryStats_of_parseable self (collectValues_ne_nil _ h), List.map_map]
    have := groupByUnit_total (collectValues self.extractedData)
    have e : ((fun g : JSString × UnitSummary => g.2.count) ∘
        fun group : JSString × List JSNumber => (group.1, summarize group.1 group.2))
        = fun g => g.2.length := rfl
    rw [e, this, collectValues_eq, List.countP_eq_length_filter]
    generalize (self.extractedData.flatMap fun entry => entry.numericValues) = vals
    induction vals with
    | nil => rfl
    | cons v vs ih =>
      by_cases hn : (parseFloat v.value).isNaN = true
      · simp [List.filterMap_cons, parsedItem, hn, List.filter_cons, ih]
      · have hn' : (parseFloat v.value).isNaN = false := by simpa using hn
        simp [List.filterMap_cons, parsedItem, hn', List.filter_cons, ih]

/-- C19 amended, at three readings in two units, one unit written in two
letter cases, and one value that does not parse: the group `mg/dl` holds 95
and 105, whose mean is 100. -/
theorem summary_statistics_witness :
    (∃ entry ∈ mixedReadings, ∃ val ∈ entry.numericValues,
      (parseFloat val.value).isNaN = false) ∧
    (calculateSummaryStats ⟨mixedReadings, []⟩).summaryStats
      = [("mg/dl".toList, mixedMgdlSummary),
         ("mmol/l".toList,
          { count := 1, min := .finite 40, max := .finite 40, mean := .finite 40,
            median := some (.finite 40), values := [.finite 40],
            unit := "mmol/l".toList })] ∧
    mixedMgdlSummary.mean = meanOfDoubles mixedMgdlSummary.values ∧
    mixedMgdlSummary.mean
      = (JSNumber.finite ((([95, 105] : List Nat).sum : ℚ) / (mixedMgdlSummary.count : ℚ))).toDouble ∧
    ((calculateSummaryStats ⟨mixedReadings, []⟩).summaryStats.map Prod.fst).Nodup ∧
    ((calculateSummaryStats ⟨mixedReadings, []⟩).summaryStats.map (fun g => g.2.count)).sum
      = (mixedReadings.flatMap (fun entry => entry.numericValues)).countP (fun val =>
          !(parseFloat val.value).isNaN) := by
  have h := summary_statistics ⟨mixedReadings, []⟩ (by decide!)
  have hg := h.1 ("mg/dl".toList, mixedMgdlSummary) (by decide!)
  exact ⟨by decide!, by decide!, hg.2.2.2.2.2.2.1,
    hg.2.2.2.2.2.2.2 [95, 105] (by decide!) (by norm_num), h.2⟩

/-- C18, the code on an extractor whose data were emptied after a first
aggregation: the guard at the head of `calculateSummaryStats` returns before
`summaryStats` is reset, so the group of the earlier aggregation is still
there. The same holds for every earlier summary; only from the state the
constructor leaves is the summary empty. -/
theorem empty_data_keeps_old_summary :
    afterClearing.extractedData = [] ∧
    (calculateSummaryStats afterClearing).summaryStats
      = [("mg/dl".toList, fourReadingsSummary)] ∧
    (∀ summary, calculateSummaryStats ⟨[], summary⟩ = ⟨[], summary⟩) ∧
    (calculateSummaryStats FBSExtractor.initial).summaryStats = [] :=
  ⟨rfl, by decide!, fun _ => rfl, rfl⟩

/-- C21: the range test is inclusive and drops nothing inside the range. For a
searched line of either extractor and a match of one of the five patterns in
the text searched for it, when the captured text parses to `v` with
`30 ≤ v ≤ 500` (the two ends included) the record of value `v` is in the
result; and a match that gives no record has a value below 30 or above 500. -/
theorem range_filter_inclusive (text : JSString) (k : Nat)
    (hk : k < (split newline text).length) (rx : RegExp) (m : Match) :
    (Server.fbsFound ((split newline text).get ⟨k, hk⟩) = true →
      rx ∈ Server.glucosePatterns →
      m ∈ (matchAll (Server.contextOf (split newline text) k) rx).1 →
      (∀ v : ℚ, parseFloat (groupToString m.group1) = .finite v → 30 ≤ v → v ≤ 500 →
        ({ value := .finite v, unit := unitOf m.whole,
           context := trim ((split newline text).get ⟨k, hk⟩), line := k + 1 } : Extracted)
          ∈ Server.extract text) ∧
      (recordOf ((split newline text).get ⟨k, hk⟩) k m = [] →
        (parseFloat (groupToString m.group1)).lt (.finite 30) = true ∨
        (parseFloat (groupToString m.group1)).gt (.finite 500) = true)) ∧
    ((Client.fbsFound ((split newline text).get ⟨k, hk⟩)
        || includes (toLowerCase ((split newline text).get ⟨k, hk⟩)) "glucose".toList) = true →
      rx ∈ Client.glucosePatterns →
      m ∈ (matchAll ((split newline text).get ⟨k, hk⟩) rx).1 →
      (∀ v : ℚ, parseFloat (groupToString m.group1) = .finite v → 30 ≤ v → v ≤ 500 →
        ({ value := .finite v, unit := unitOf m.whole,
           context := trim ((split newline text).get ⟨k, hk⟩), line := k + 1 } : Extracted)
          ∈ Client.extract text) ∧
      (recordOf ((split newline text).get ⟨k, hk⟩) k m = [] →
        (parseFloat (groupToString m.group1)).lt (.finite 30) = true ∨
        (parseFloat (groupToString m.group1)).gt (.finite 500) = true)) := by
  have emit : ∀ v : ℚ, parseFloat (groupToString m.group1) = .finite v → 30 ≤ v → v ≤ 500 →
      ({ value := .finite v, unit := unitOf m.whole,
         context := trim ((split newline text).get ⟨k, hk⟩), line := k + 1 } : Extracted)
        ∈ emitted ((split newline text).get ⟨k, hk⟩) k m := by
    intro v hv h30 h500
    rw [mem_emitted, hv]
    exact ⟨by simp [JSNumber.ge, JSNumber.le, h30, h500], rfl⟩
  constructor
  · intro hf hrx hm
    refine ⟨fun v hv h30 h500 => ?_, fun hnil => ?_⟩
    · exact (mem_server_extract text _).2 ⟨k, hk, hf, rx, hrx, m, hm, emit v hv h30 h500⟩
    · obtain ⟨_, _, _, hparse⟩ := parse_of_match rx (Or.inl hrx) _ m hm
      exact dropped_only_out_of_range _ hparse ((recordOf_eq_nil _ _ m).1 hnil)
  · intro hf hrx hm
    refine ⟨fun v hv h30 h500 => ?_, fun hnil => ?_⟩
    · exact (mem_client_extract text _).2 ⟨k, hk, hf, rx, hrx, m, hm, emit v hv h30 h500⟩
    · obtain ⟨_, _, _, hparse⟩ := parse_of_match rx (Or.inr hrx) _ m hm
      exact dropped_only_out_of_range _ hparse ((recordOf_eq_nil _ _ m).1 hnil)

/-- C21, at the line `FBS 30 500 mg/dL`, where the values 500 and 30, the two
ends of the range, are both kept by either extractor, and at the line
`FBS 20`, whose match is dropped, 20 being below 30. -/
theorem range_filter_inclusive_witness :
    Server.extract boundaryText = [boundaryRecord 500, boundaryRecord 30] ∧
    Server.extract belowText = [] ∧
    ∃ hk : 0 < (split newline boundaryText).length,
      ({ value := .finite 500, unit := unitOf "500 mg/dL".toList,
         context := trim ((split newline boundaryText).get ⟨0, hk⟩), line := 0 + 1 }
          : Extracted) ∈ Server.extract boundaryText ∧
      ({ value := .finite 30, unit := unitOf "FBS 30".toList,
         context := trim ((split newline boundaryText).get ⟨0, hk⟩), line := 0 + 1 }
          : Extracted) ∈ Client.extract boundaryText ∧
      ((parseFloat (groupToString (some "20".toList))).lt (.finite 30) = true ∨
        (parseFloat (groupToString (some "20".toList))).gt (.finite 500) = true) :=
  ⟨by decide!, by decide!, by decide!,
    ((range_filter_inclusive boundaryText 0 (by decide!) ⟨mgdlPattern, 0⟩
      ⟨"500 mg/dL".toList, some "500".toList⟩).1 (by decide!) (by decide!) (by decide!)).1
      500 (by decide!) (by norm_num) (by norm_num),
    ((range_filter_inclusive boundaryText 0 (by decide!) ⟨fbsLabelPattern, 0⟩
      ⟨"FBS 30".toList, some "30".toList⟩).2 (by decide!) (by decide!) (by decide!)).1
      30 (by decide!) (by norm_num) (by norm_num),
    ((range_filter_inclusive belowText 0 (by decide!) ⟨fbsLabelPattern, 0⟩
      ⟨"FBS 20".toList, some "20".toList⟩).1 (by decide!) (by decide!) (by decide!)).2
      (by decide!)⟩

/-- C22: the server-side extractor does not merge overlapping windows. The
results whose `line` is `i + 1` are the records of the five patterns on the
window of line `i` when that line is flagged, and none otherwise, whatever
other lines are flagged. -/
theorem overlapping_windows_not_merged (text : JSString) (i : Nat)
    (hi : i < (split newline text).length) :
    (Server.extract text).filter (fun r => decide (r.line = i + 1))
      = if Server.fbsFound ((split newline text).get ⟨i, hi⟩) = true then
          Server.glucosePatterns.flatMap (fun rx =>
            (matchAll (Server.contextOf (split newline text) i) rx).1.flatMap
              (recordOf ((split newline text).get ⟨i, hi⟩) i))
        else [] := by
  unfold Server.extract
  rw [server_extractGlucoseFromText_eq]
  have := filter_collect _ (server_lineResults_line Server.glucosePatterns (split newline text))
    (split newline text) 0 i hi
  simp only [Nat.zero_add] at this
  rw [this, Server.lineResults]
  have e : ∀ line idx, emitted line idx = recordOf line idx :=
    fun line idx => funext (emitted_eq_recordOf line idx)
  simp only [patternResults, e]

/-- C22, at the lines `FBS` and `FPG 95 mg/dL`: both are flagged, both windows
are `FBS FPG 95 mg/dL`, and the one mention of 95 is reported once for each
line, with that line's number and context. -/
theorem overlapping_windows_not_merged_witness :
    (split newline overlapText).map Server.fbsFound = [true, true] ∧
    Server.extract overlapText
      = [{ value := .finite 95, unit := "mg/dL".toList, context := "FBS".toList, line := 1 },
         { value := .finite 95, unit := "mg/dL".toList, context := "FPG 95 mg/dL".toList,
           line := 2 }] ∧
    Server.contextOf (split newline overlapText) 0 = "FBS FPG 95 mg/dL".toList ∧
    Server.contextOf (split newline overlapText) 1 = "FBS FPG 95 mg/dL".toList ∧
    ∃ hi : 0 < (split newline overlapText).length,
    (Server.extract overlapText).filter (fun r => decide (r.line = 0 + 1))
      = if Server.fbsFound ((split newline overlapText).get ⟨0, hi⟩) = true then
          Server.glucosePatterns.flatMap (fun rx =>
            (matchAll (Server.contextOf (split newline overlapText) 0) rx).1.flatMap
              (recordOf ((split newline overlapText).get ⟨0, hi⟩) 0))
        else [] :=
  ⟨by decide!, by decide!, by decide!, by decide!, by decide!,
    overlapping_windows_not_merged overlapText 0 (by decide!)⟩

/-- C23: the two extractors are not equivalent. On `Glucose: 95 mg/dL` the
server-side one returns no result and the front-end one two (the bare word
`glucose` flags the line); on `  FBS ` followed by the line `95 mg/dL` the
server-side one returns two results and the front-end one none (the window
reaches the next line). -/
theorem modes_not_equivalent :
    (∃ text, (Server.extract text).length < (Client.extract text).length) ∧
    (∃ text, (Client.extract text).length < (Server.extract text).length) ∧
    (Server.extract bareGlucoseText).length = 0 ∧ (Client.extract bareGlucoseText).length = 2 ∧
    (Server.extract neighbourText).length = 2 ∧ (Client.extract neighbourText).length = 0 := by
  refine ⟨⟨bareGlucoseText, by decide!⟩, ⟨neighbourText, by decide!⟩, ?_, ?_, ?_, ?_⟩ <;>
    decide!

/-- C24: for every match of one of the five patterns, on any text searched,
the capture group is present and is a text of digits, at least one, with an
optional decimal point and optional fraction digits; parsing it gives a
number that is not `NaN`: a finite value that is not negative, or `+Infinity`
when the digits exceed the range of a double. So a match that gives no record
has a value below 30 or above 500. -/
theorem capture_always_parses (searched : JSString) (rx : RegExp)
    (hrx : rx ∈ Server.glucosePatterns ∨ rx ∈ Client.glucosePatterns)
    (m : Match) (hm : m ∈ (matchAll searched rx).1) :
    (∃ g, m.group1 = some g ∧ IsNumberText g) ∧
    ((∃ q : ℚ, parseFloat (groupToString m.group1) = .finite q ∧ 0 ≤ q) ∨
      parseFloat (groupToString m.group1) = .posInf) ∧
    (parseFloat (groupToString m.group1)).isNaN = false ∧
    ∀ (line : JSString) (i : Nat), recordOf line i m = [] →
      (parseFloat (groupToString m.group1)).lt (.finite 30) = true ∨
      (parseFloat (groupToString m.group1)).gt (.finite 500) = true := by
  obtain ⟨g, hg, htext, hparse⟩ := parse_of_match rx hrx searched m hm
  refine ⟨⟨g, hg, htext⟩, hparse, ?_, ?_⟩
  · rcases hparse with ⟨q, e, _⟩ | e <;> rw [e] <;> rfl
  · intro line i hnil
    exact dropped_only_out_of_range _ hparse ((recordOf_eq_nil line i m).1 hnil)

/-- C24, at the match `95 mg/dL` of the pattern for a number before `mg/dL`
in the text `FBS: 95 mg/dL`. -/
theorem capture_always_parses_witness :
    (∃ g, (⟨"95 mg/dL".toList, some "95".toList⟩ : Match).group1 = some g ∧ IsNumberText g) ∧
    ((∃ q : ℚ, parseFloat (groupToString (some "95".toList)) = .finite q ∧ 0 ≤ q) ∨
      parseFloat (groupToString (some "95".toList)) = .posInf) ∧
    (parseFloat (groupToString (some "95".toList))).isNaN = false ∧
    ∀ (line : JSString) (i : Nat),
      recordOf line i ⟨"95 mg/dL".toList, some "95".toList⟩ = [] →
      (parseFloat (groupToString (some "95".toList))).lt (.finite 30) = true ∨
      (parseFloat (groupToString (some "95".toList))).gt (.finite 500) = true :=
  capture_always_parses scenario1 ⟨mgdlPattern, 0⟩ (by decide!)
    ⟨"95 mg/dL".toList, some "95".toList⟩ (by decide!)

/-- C25 as stated fails: for four readings whose unit is `mg/dL`, the only key
of the summary is `mg/dl`, so the keys are not the units of the input values. -/
theorem summary_keys_are_not_the_units :
    ¬ ((∀ key : JSString,
        key ∈ (calculateSummaryStats ⟨fourReadings, []⟩).summaryStats.map Prod.fst ↔
        ∃ val ∈ fourReadings.flatMap (fun entry => entry.numericValues),
          (parseFloat val.value).isNaN = false ∧ val.unit = key) ∧
      ∀ g ∈ (calculateSummaryStats ⟨fourReadings, []⟩).summaryStats,
        ∀ val ∈ fourReadings.flatMap (fun entry => entry.numericValues),
          (parseFloat val.value).isNaN = false → toLowerCase val.unit = g.1 →
          g.2.unit = val.unit) := by
  rintro ⟨hkeys, _⟩
  have hk : (calculateSummaryStats ⟨fourReadings, []⟩).summaryStats.map Prod.fst
      = ["mg/dl".toList] := by decide!
  have hin : "mg/dL".toList
      ∈ (calculateSummaryStats ⟨fourReadings, []⟩).summaryStats.map Prod.fst :=
    (hkeys "mg/dL".toList).2 ⟨⟨"100".toList, "mg/dL".toList⟩, by decide!, by decide!, rfl⟩
  rw [hk] at hin
  revert hin
  decide

/-- C25 amended: when the data hold at least one value that parses, the keys
of the summary are the lower-cased units of the input values that parse, and
the `unit` field of each group is its key, the lower-cased unit of the values
it holds. -/
theorem summary_keyed_by_lower_case_unit (self : FBSExtractor)
    (h : ∃ entry ∈ self.extractedData, ∃ val ∈ entry.numericValues,
      (parseFloat val.value).isNaN = false) :
    (∀ key : JSString, key ∈ (calculateSummaryStats self).summaryStats.map Prod.fst ↔
      ∃ val ∈ self.extractedData.flatMap (fun entry => entry.numericValues),
        (parseFloat val.value).isNaN = false ∧ toLowerCase val.unit = key) ∧
    ∀ g ∈ (calculateSummaryStats self).summaryStats,
      g.2.unit = g.1 ∧
      g.2.values
        = ((self.extractedData.flatMap (fun entry => entry.numericValues)).filter (fun val =>
            !(parseFloat val.value).isNaN && decide (toLowerCase val.unit = g.1))).map
            (fun val => parseFloat val.value) := by
  obtain ⟨_, hval, hkey⟩ := groupByUnit_grouped (collectValues self.extractedData)
  constructor
  · intro key
    rw [summaryStats_keys self h]
    constructor
    · intro hk
      obtain ⟨grp, hgrp, rfl⟩ := List.mem_map.1 hk
      obtain ⟨e, hne⟩ := hval grp hgrp
      obtain ⟨v, hv⟩ := List.exists_mem_of_ne_nil _ hne
      rw [e] at hv
      obtain ⟨item, hitem, hu, _⟩ := mem_valuesOfUnit _ _ v hv
      obtain ⟨val, hvmem, hn, rfl⟩ := (mem_collectValues _ item).1 hitem
      exact ⟨val, hvmem, hn, hu⟩
    · rintro ⟨val, hvmem, hn, rfl⟩
      exact hkey ⟨parseFloat val.value, val.unit⟩
        ((mem_collectValues _ _).2 ⟨val, hvmem, hn, rfl⟩)
  · intro g hg
    obtain ⟨e, _, _⟩ := mem_summaryStats self h g hg
    refine ⟨by rw [e]; rfl, ?_⟩
    have hv : g.2.values = valuesOfUnit g.1 (collectValues self.extractedData) := by
      rw [e]; rfl
    rw [hv, collectValues_eq]
    exact valuesOfUnit_parsed g.1 _

/-- C25 amended, at readings with the units `mg/dL`, `mmol/L` and `MG/DL`: the
keys and the `unit` fields are `mg/dl` and `mmol/l`. -/
theorem summary_keyed_by_lower_case_unit_witness :
    (∃ entry ∈ mixedReadings, ∃ val ∈ entry.numericValues,
      (parseFloat val.value).isNaN = false) ∧
    (calculateSummaryStats ⟨mixedReadings, []⟩).summaryStats.map Prod.fst
      = ["mg/dl".toList, "mmol/l".toList] ∧
    (calculateSummaryStats ⟨mixedReadings, []⟩).summaryStats.map (fun g => g.2.unit)
      = ["mg/dl".toList, "mmol/l".toList] ∧
    ∀ key : JSString,
      key ∈ (calculateSummaryStats ⟨mixedReadings, []⟩).summaryStats.map Prod.fst ↔
      ∃ val ∈ mixedReadings.flatMap (fun entry => entry.numericValues),
        (parseFloat val.value).isNaN = false ∧ toLowerCase val.unit = key :=
  ⟨by decide!, by decide!, by decide!,
    (summary_keyed_by_lower_case_unit ⟨mixedReadings, []⟩ (by decide!)).1⟩

/-- C26: every record read off a match of one of the three label patterns
(`glucose`, `FBS` or `HbA1c`, then a number), the last three of
`glucosePatterns`, has the unit `mg/dL`, whatever text is searched: the
matched substring ends with the number and cannot contain `mmol`. -/
theorem label_matches_are_mgdl (nodes : List Node) (hn : nodes ∈ labelPatterns)
    (searched : JSString) (m : Match) (hm : m ∈ (matchAll searched ⟨nodes, 0⟩).1)
    (line : JSString) (i : Nat) (r : Extracted) (hr : r ∈ recordOf line i m) :
    r.unit = "mg/dL".toList ∧
    Server.glucosePatterns = [⟨mgdlPattern, 0⟩, ⟨mmolPattern, 0⟩]
      ++ labelPatterns.map (fun ns => ⟨ns, 0⟩) ∧
    Client.glucosePatterns = [⟨mgdlPattern, 0⟩, ⟨mmolPattern, 0⟩]
      ++ labelPatterns.map (fun ns => ⟨ns, 0⟩) := by
  refine ⟨?_, rfl, rfl⟩
  obtain ⟨prev', input', hmatch⟩ := mem_scan nodes m searched _ _ hm
  have hu := label_whole_has_no_mmol nodes hn prev' input' m hmatch
  rw [← emitted_eq_recordOf, mem_emitted] at hr
  rw [hr.2, hu]

/-- C26, at the line `Glucose: 45 mmol/L` in the front-end extractor and the
line `FBS: 45 mmol/L` in the server-side extractor: the mention is reported
twice, as 45 `mmol/L` and as 45 `mg/dL`. -/
theorem label_matches_are_mgdl_witness :
    Client.extract mmolText
      = [mmolRecord,
         { value := .finite 45, unit := "mg/dL".toList,
           context := "Glucose: 45 mmol/L".toList, line := 1 }] ∧
    Server.extract fbsMmolText
      = [{ value := .finite 45, unit := "mmol/L".toList,
           context := "FBS: 45 mmol/L".toList, line := 1 },
         { value := .finite 45, unit := "mg/dL".toList,
           context := "FBS: 45 mmol/L".toList, line := 1 }] ∧
    (matchAll mmolText ⟨glucoseLabelPattern, 0⟩).1
      = [⟨"Glucose: 45".toList, some "45".toList⟩] ∧
    ({ value := .finite 45, unit := "mg/dL".toList,
       context := "Glucose: 45 mmol/L".toList, line := 1 } : Extracted).unit
      = "mg/dL".toList ∧
    Server.glucosePatterns = [⟨mgdlPattern, 0⟩, ⟨mmolPattern, 0⟩]
      ++ labelPatterns.map (fun ns => ⟨ns, 0⟩) ∧
    Client.glucosePatterns = [⟨mgdlPattern, 0⟩, ⟨mmolPattern, 0⟩]
      ++ labelPatterns.map (fun ns => ⟨ns, 0⟩) :=
  ⟨by decide!, by decide!, by decide!,
    label_matches_are_mgdl glucoseLabelPattern (by decide!) mmolText
      ⟨"Glucose: 45".toList, some "45".toList⟩ (by decide!) mmolText 0
      { value := .finite 45, unit := "mg/dL".toList,
        context := "Glucose: 45 mmol/L".toList, line := 1 } (by decide!)⟩

/-- C27: on a text without a line break, the two extractors return the same
list when the text contains one of the eight marker phrases, letter case
ignored, and the server-side extractor returns the empty list when it
contains none. -/
theorem single_line_agreement (text : JSString) (h : newline ∉ text) :
    ((∃ p ∈ Server.fbsPatterns, toLowerCase p <:+: toLowerCase text) →
      Server.extract text = Client.extract text) ∧
    ((∀ p ∈ Server.fbsPatterns, ¬ toLowerCase p <:+: toLowerCase text) →
      Server.extract text = []) := by
  have hsplit := split_of_not_mem newline text h
  have hserver : Server.extract text
      = Server.lineResults Server.glucosePatterns [text] text 0 := by
    unfold Server.extract
    rw [server_extractGlucoseFromText_eq, hsplit]
    simp [collect]
  constructor
  · rintro ⟨p, hp, hin⟩
    have hf : Server.fbsFound text = true := by
      unfold Server.fbsFound
      rw [List.any_eq_true]
      exact ⟨p, hp, (includes_iff_contained _ _).2 hin⟩
    rw [hserver, client_extract_single text h, Server.lineResults, Client.lineResults,
      server_client_fbsFound, hf, server_contextOf_single, client_glucosePatterns_eq]
    rfl
  · intro hno
    have hf : Server.fbsFound text = false := by
      unfold Server.fbsFound
      rw [List.any_eq_false]
      intro p hp
      have := hno p hp
      rw [← includes_iff_contained] at this
      simpa using this
    rw [hserver, Server.lineResults, hf]
    rfl

/-- C27, at the text `FBS: 95 mg/dL`, which holds a marker phrase, and at the
text `Glucose: 95 mg/dL`, which holds none. -/
theorem single_line_agreement_witness :
    newline ∉ scenario1 ∧
    (∃ p ∈ Server.fbsPatterns, toLowerCase p <:+: toLowerCase scenario1) ∧
    Server.extract scenario1 = Client.extract scenario1 ∧
    newline ∉ bareGlucoseText ∧
    (∀ p ∈ Server.fbsPatterns, ¬ toLowerCase p <:+: toLowerCase bareGlucoseText) ∧
    Server.extract bareGlucoseText = [] :=
  ⟨by decide!, by decide!,
    (single_line_agreement scenario1 (by decide!)).1 (by decide!),
    by decide!, by decide!,
    (single_line_agreement bareGlucoseText (by decide!)).2 (by decide!)⟩

/-- C28 as stated fails, in two ways. For the two values `Infinity` and
`-Infinity` of one unit, both of which parse, the sum and so the mean are
`NaN`, which is neither above the minimum nor below the maximum. And for
three values `0.1` of one unit, the sum of the doubles is
0.30000000000000004 and the mean 0.10000000000000002, above the maximum
0.1. -/
theorem mean_outside_min_max :
    (¬ ∀ g ∈ (calculateSummaryStats ⟨infiniteReadings, []⟩).summaryStats,
        g.2.min.le g.2.mean = true ∧ g.2.mean.le g.2.max = true) ∧
    (¬ ∀ g ∈ (calculateSummaryStats ⟨tenthReadings, []⟩).summaryStats,
        g.2.min.le g.2.mean = true ∧ g.2.mean.le g.2.max = true) := by
  refine ⟨by decide!, fun h => ?_⟩
  obtain ⟨g, rest, hg, hv, _⟩ := List.map_eq_cons_iff.1 tenthReadings_summary
  have hmem : g ∈ (calculateSummaryStats ⟨tenthReadings, []⟩).summaryStats := by
    rw [hg]
    exact List.mem_cons_self g rest
  have hle := (h g hmem).2
  rw [mean_of_group ⟨tenthReadings, []⟩ (by decide!) g hmem, (Prod.mk.inj hv).1,
    (Prod.mk.inj hv).2, meanOfDoubles_tenths] at hle
  revert hle
  decide!

/-- C28 amended: when the data hold at least one value that parses, every
group of the summary is non-empty, so that the index `floor(n / 2)` is within
the group, and the median is a value of the group, between `min` and `max`.
When the values of the group are whole numbers whose sum is below `2 ^ 53`,
the mean is between `min` and `max` as well. -/
theorem summary_bounds (self : FBSExtractor)
    (h : ∃ entry ∈ self.extractedData, ∃ val ∈ entry.numericValues,
      (parseFloat val.value).isNaN = false)
    (g : JSString × UnitSummary) (hg : g ∈ (calculateSummaryStats self).summaryStats) :
    g.2.values ≠ [] ∧ g.2.values.length / 2 < g.2.values.length ∧
    (∃ v, g.2.median = some v ∧ v ∈ g.2.values ∧
      g.2.min.le v = true ∧ v.le g.2.max = true) ∧
    ∀ ns : List Nat, g.2.values = ns.map (fun n : Nat => JSNumber.finite (n : ℚ)) →
      ns.sum < 2 ^ 53 →
      g.2.min.le g.2.mean = true ∧ g.2.mean.le g.2.max = true := by
  obtain ⟨e, hne, hnan⟩ := mem_summaryStats self h g hg
  have hv : g.2.values = valuesOfUnit g.1 (collectValues self.extractedData) := by rw [e]; rfl
  have hmin : g.2.min = mathMin g.2.values := by rw [e]; rfl
  have hmax : g.2.max = mathMax g.2.values := by rw [e]; rfl
  have hmean : g.2.mean = meanOfDoubles g.2.values := by rw [e]; rfl
  have hmed : g.2.median
      = (sortNumeric g.2.values).get? ((sortNumeric g.2.values).length / 2) := by
    rw [e]; rfl
  have hne' : g.2.values ≠ [] := by rw [hv]; exact hne
  have hnan' : ∀ v ∈ g.2.values, v.isNaN = false := by rw [hv]; exact hnan
  have hpos : 0 < g.2.values.length := List.length_pos.2 hne'
  have hlen := (sortNumeric_perm g.2.values).length_eq
  obtain ⟨hminmem, hminle⟩ := mathMin_spec _ hnan' hne'
  obtain ⟨hmaxmem, hmaxle⟩ := mathMax_spec _ hnan' hne'
  refine ⟨hne', by omega, ?_, ?_⟩
  · have hidx : (sortNumeric g.2.values).length / 2 < (sortNumeric g.2.values).length := by
      rw [hlen]; omega
    refine ⟨(sortNumeric g.2.values).get ⟨_, hidx⟩, ?_, ?_, ?_, ?_⟩
    · rw [hmed, List.get?_eq_get hidx]
    · exact (sortNumeric_perm g.2.values).mem_iff.1 (List.get_mem _ _ _)
    · rw [hmin]
      exact hminle _ ((sortNumeric_perm g.2.values).mem_iff.1 (List.get_mem _ _ _))
    · rw [hmax]
      exact hmaxle _ ((sortNumeric_perm g.2.values).mem_iff.1 (List.get_mem _ _ _))
  · intro ns hns hsum
    have hq : ns ≠ [] := by
      intro e'
      apply hne'
      rw [hns, e']
      rfl
    rw [hns] at hminmem hminle hmaxmem hmaxle
    rw [hmean, hmin, hmax, hns]
    exact meanOfDoubles_between ns hq hsum _ _ hminmem hminle hmaxmem hmaxle

/-- C28 amended, at four readings 100, 70, 110, 90 in `mg/dL`: the median is
100 and the mean 92.5, both between 70 and 110. -/
theorem summary_bounds_witness :
    fourReadingsSummary.values ≠ [] ∧
    fourReadingsSummary.values.length / 2 < fourReadingsSummary.values.length ∧
    (∃ v, fourReadingsSummary.median = some v ∧ v ∈ fourReadingsSummary.values ∧
      fourReadingsSummary.min.le v = true ∧ v.le fourReadingsSummary.max = true) ∧
    fourReadingsSummary.min.le fourReadingsSummary.mean = true ∧
    fourReadingsSummary.mean.le fourReadingsSummary.max = true := by
  have h := summary_bounds ⟨fourReadings, []⟩ (by decide!) ("mg/dl".toList, fourReadingsSummary)
    (by decide!)
  exact ⟨h.1, h.2.1, h.2.2.1, h.2.2.2 [100, 70, 110, 90] (by decide!) (by norm_num)⟩

/-- C29: for a non-empty list of readings whose glucose values are numbers and
settings with `normalMin <= normalMax`, the chart has the three counts of the
readings below `normalMin`, within the two bounds, and above `normalMax`;
every reading is in exactly one class, and the counts add up to the number of
readings. With `normalMin > normalMax` the counts can add up to more: there
are such settings and readings. -/
theorem time_in_range_counts (settings : Settings) (data : List Reading)
    (hne : data ≠ []) (hnum : ∀ r ∈ data, r.glucose.isNaN = false)
    (hle : settings.normalMin.le settings.normalMax = true) :
    (∃ lowCount normalCount highCount : Nat,
      createTimeInRangeChart settings data
        = { labels := ["Low".toList, "Normal".toList, "High".toList],
            data := [lowCount, normalCount, highCount] } ∧
      lowCount = data.countP (fun r => r.glucose.lt settings.normalMin) ∧
      normalCount = data.countP (fun r =>
        r.glucose.ge settings.normalMin && r.glucose.le settings.normalMax) ∧
      highCount = data.countP (fun r => r.glucose.gt settings.normalMax) ∧
      lowCount + normalCount + highCount = data.length) ∧
    (∀ r ∈ data, inOneClass settings r = true) ∧
    ∃ (swapped : Settings) (readings : List Reading) (l n h : Nat),
      swapped.normalMax.lt swapped.normalMin = true ∧
      (createTimeInRangeChart swapped readings).data = [l, n, h] ∧
      readings.length < l + n + h := by
  have hmin : settings.normalMin.isNaN = false := by
    cases hlo : settings.normalMin <;> simp_all [JSNumber.le, JSNumber.isNaN]
  have hmax : settings.normalMax.isNaN = false := by
    cases hhi : settings.normalMax <;> cases hlo : settings.normalMin <;>
      simp_all [JSNumber.le, JSNumber.isNaN]
  have hone : ∀ r ∈ data, inOneClass settings r = true :=
    fun r hr => inOneClass_of_ordered settings r (hnum r hr) hmin hmax hle
  have hlen : ¬ data.length = 0 := by
    rw [List.length_eq_zero]
    exact hne
  refine ⟨⟨(data.filter (fun r => r.glucose.lt settings.normalMin)).length,
    (data.filter (fun r =>
      r.glucose.ge settings.normalMin && r.glucose.le settings.normalMax)).length,
    (data.filter (fun r => r.glucose.gt settings.normalMax)).length, ?_, ?_, ?_, ?_, ?_⟩,
    hone, ?_⟩
  · simp only [createTimeInRangeChart, if_neg hlen]
  · rw [List.countP_eq_length_filter]
  · rw [List.countP_eq_length_filter]
  · rw [List.countP_eq_length_filter]
  · exact counts_add_up settings data hone
  · exact ⟨swappedSettings, [readingOf 5], 1, 0, 1, by decide!, by decide!, by decide⟩

/-- C29, at the readings 5, 3, 9, 4, 7 with the bounds 4 and 7 (counts 1, 3,
1), and at the reading 5 with the bounds swapped (counts 1, 0, 1). -/
theorem time_in_range_counts_witness :
    createTimeInRangeChart orderedSettings
        [readingOf 5, readingOf 3, readingOf 9, readingOf 4, readingOf 7]
      = { labels := ["Low".toList, "Normal".toList, "High".toList], data := [1, 3, 1] } ∧
    createTimeInRangeChart swappedSettings [readingOf 5]
      = { labels := ["Low".toList, "Normal".toList, "High".toList], data := [1, 0, 1] } ∧
    (∃ lowCount normalCount highCount : Nat,
      createTimeInRangeChart orderedSettings
          [readingOf 5, readingOf 3, readingOf 9, readingOf 4, readingOf 7]
        = { labels := ["Low".toList, "Normal".toList, "High".toList],
            data := [lowCount, normalCount, highCount] } ∧
      lowCount + normalCount + highCount = 5) ∧
    (∀ r ∈ [readingOf 5, readingOf 3, readingOf 9, readingOf 4, readingOf 7],
      inOneClass orderedSettings r = true) := by
  have h := time_in_range_counts orderedSettings
    [readingOf 5, readingOf 3, readingOf 9, readingOf 4, readingOf 7]
    (by decide) (by decide!) (by decide!)
  obtain ⟨⟨l, n, k, hc, _, _, _, hsum⟩, hone, _⟩ := h
  exact ⟨by decide!, by decide!, ⟨l, n, k, hc, hsum⟩, hone⟩

/-- C30: `handleGlucoseSubmit` leaves `glucoseData` as it is when the value
entered does not parse, is zero, is below 30 or above 500, or when the
date-time is empty. Otherwise, the date-time being one the date library
converts, it puts exactly one reading in front of the list, with the value
and the unit entered, and keeps the others in order (a date-time that does
not convert makes the call throw before the list is touched). So the list is
unchanged or gains one reading whose value is within 30 and 500. -/
theorem manual_entry_atomic (now : Nat) (toISOString : JSString → Option JSString)
    (form : GlucoseForm) (glucoseData : List Reading) :
    (((parseFloat form.glucoseValue).isNaN = true ∨
        parseFloat form.glucoseValue = .finite 0 ∨
        (parseFloat form.glucoseValue).lt (.finite 30) = true ∨
        (parseFloat form.glucoseValue).gt (.finite 500) = true ∨
        form.glucoseDateTime = []) →
      handleGlucoseSubmit now toISOString form glucoseData = glucoseData) ∧
    (¬ ((parseFloat form.glucoseValue).isNaN = true ∨
        parseFloat form.glucoseValue = .finite 0 ∨
        (parseFloat form.glucoseValue).lt (.finite 30) = true ∨
        (parseFloat form.glucoseValue).gt (.finite 500) = true ∨
        form.glucoseDateTime = []) →
      (∀ timestamp, toISOString form.glucoseDateTime = some timestamp →
        handleGlucoseSubmit now toISOString form glucoseData
          = { id := now, glucose := parseFloat form.glucoseValue, unit := form.glucoseUnit,
              timestamp := timestamp, mealTag := form.mealTag, notes := form.glucoseNotes }
            :: glucoseData) ∧
      (toISOString form.glucoseDateTime = none →
        handleGlucoseSubmit now toISOString form glucoseData = glucoseData)) ∧
    (handleGlucoseSubmit now toISOString form glucoseData = glucoseData ∨
      ∃ (r : Reading) (v : ℚ),
        handleGlucoseSubmit now toISOString form glucoseData = r :: glucoseData ∧
        r.glucose = parseFloat form.glucoseValue ∧ r.unit = form.glucoseUnit ∧
        r.glucose = .finite v ∧ 30 ≤ v ∧ v ≤ 500) := by
  have hfalsy : (parseFloat form.glucoseValue).isFalsy = true ↔
      ((parseFloat form.glucoseValue).isNaN = true ∨
        parseFloat form.glucoseValue = .finite 0) := by
    cases parseFloat form.glucoseValue <;> simp [JSNumber.isFalsy, JSNumber.isNaN]
  have hempty : form.glucoseDateTime.isEmpty = true ↔ form.glucoseDateTime = [] :=
    List.isEmpty_iff
  have hrange : ∀ x : JSNumber, x.isFalsy = false → x.lt (.finite 30) = false →
      x.gt (.finite 500) = false → ∃ v : ℚ, x = .finite v ∧ 30 ≤ v ∧ v ≤ 500 := by
    intro x h0 h1 h2
    cases x with
    | nan => simp [JSNumber.isFalsy] at h0
    | posInf => simp [JSNumber.gt, JSNumber.lt] at h2
    | negInf => simp [JSNumber.lt] at h1
    | finite q =>
      simp only [JSNumber.lt, JSNumber.gt, decide_eq_false_iff_not, not_lt] at h1 h2
      exact ⟨q, rfl, h1, h2⟩
  unfold handleGlucoseSubmit
  simp only
  by_cases h1 : ((parseFloat form.glucoseValue).isFalsy || form.glucoseDateTime.isEmpty) = true
  · rw [if_pos h1]
    refine ⟨fun _ => rfl, fun hn => ?_, Or.inl rfl⟩
    exfalso
    apply hn
    rw [Bool.or_eq_true, hfalsy, hempty] at h1
    rcases h1 with (h | h) | h
    · exact Or.inl h
    · exact Or.inr (Or.inl h)
    · exact Or.inr (Or.inr (Or.inr (Or.inr h)))
  · rw [if_neg h1]
    by_cases h2 : ((parseFloat form.glucoseValue).lt (.finite 30)
        || (parseFloat form.glucoseValue).gt (.finite 500)) = true
    · rw [if_pos h2]
      refine ⟨fun _ => rfl, fun hn => ?_, Or.inl rfl⟩
      exfalso
      apply hn
      rw [Bool.or_eq_true] at h2
      rcases h2 with h | h
      · exact Or.inr (Or.inr (Or.inl h))
      · exact Or.inr (Or.inr (Or.inr (Or.inl h)))
    · rw [if_neg h2]
      have h1' : (parseFloat form.glucoseValue).isFalsy = false ∧
          form.glucoseDateTime.isEmpty = false := by
        simpa using h1
      have h2' : (parseFloat form.glucoseValue).lt (.finite 30) = false ∧
          (parseFloat form.glucoseValue).gt (.finite 500) = false := by
        simpa using h2
      refine ⟨fun hbad => ?_, fun _ => ⟨fun ts hts => by rw [hts], fun hts => by rw [hts]⟩, ?_⟩
      · exfalso
        rcases hbad with h | h | h | h | h
        · have := hfalsy.2 (Or.inl h); rw [h1'.1] at this; cases this
        · have := hfalsy.2 (Or.inr h); rw [h1'.1] at this; cases this
        · rw [h2'.1] at h; cases h
        · rw [h2'.2] at h; cases h
        · have := hempty.2 h; rw [h1'.2] at this; cases this
      · cases hts : toISOString form.glucoseDateTime with
        | none => exact Or.inl rfl
        | some ts =>
          obtain ⟨v, hv, h30, h500⟩ := hrange _ h1'.1 h2'.1 h2'.2
          exact Or.inr ⟨_, v, rfl, rfl, rfl, hv, h30, h500⟩

end FastBloodSugar
